import Mathlib

/-!
# PairingSystems: the description parser and the rewrite engine of `algorithm.cpp`

A shallow embedding of `src/algorithm.cpp`.

* Tokens are C `int`s, embedded as `Int`.
* `char` is the signed 8-bit type of the x86 ABIs (the source compares a
  `char` with `EOF`, which only a signed `char` can equal); a value stored
  into a `char` goes through `toChar`.
* `std::string` is a `List Int` of `char` values, `std::vector<int>` a
  `List Int`, `std::vector<rule>` a `List rule`.
* `FILE *` together with the function-static `lastToken` is the explicit
  state `Lexer`.
* `exit(1)` / `return 1` of the parsing phase is `Except.error` carrying the
  diagnostic that the source prints.
* Loops are written as recursions on a step budget; the budget that the
  callers pass is shown to suffice where a claim needs the loop to finish.
* `isalnum`, `isalpha`, `isspace` are those of the "C" locale (the program
  never calls `setlocale`), false outside ASCII.
-/

namespace PairingSystems

/-! ## Constants and plain data (lines 11-30) -/

def KW_SIGMA : Int := -1
def KW_GAMMA : Int := -2
def KW_R : Int := -3
def KW_A : Int := -4
def KW_EOF : Int := -5
def KW_ARROW : Int := -6
def KW_EPSILON : Int := -7

/-- The value of the C macro `EOF`. -/
def EOF : Int := -1

/-- The source's `struct rule`: `x, y => z`. -/
structure rule where
  x : Int
  y : Int
  z : Int
deriving DecidableEq, Repr

/-- The source's `struct replacement`; `position` is an `int`, `c` a `char`. -/
structure replacement where
  position : Int
  c : Int
deriving DecidableEq, Repr

/-- Conversion of an `int` to the signed 8-bit `char`. -/
def toChar (v : Int) : Int := (v + 128) % 256 - 128

/-! ## Character classes of the "C" locale -/

def isdigit (c : Int) : Bool := decide (48 ≤ c ∧ c ≤ 57)

def isupper (c : Int) : Bool := decide (65 ≤ c ∧ c ≤ 90)

def islower (c : Int) : Bool := decide (97 ≤ c ∧ c ≤ 122)

def isalpha (c : Int) : Bool := isupper c || islower c

def isalnum (c : Int) : Bool := isalpha c || isdigit c

/-- The six white-space characters: space, `\t`, `\n`, `\v`, `\f`, `\r`. -/
def isspace (c : Int) : Bool := decide (c = 32 ∨ (9 ≤ c ∧ c ≤ 13))

/-! ## `is_valid_symbol`, `is_subset`, `is_alphabet` -/

/-- Line 32: `'@', '-', '.', '(', ')'` are 64, 45, 46, 40, 41. -/
def is_valid_symbol (token : Int) : Bool :=
  let valid_symbols : List Int := [64, 45, 46, 40, 41]
  isalnum token || valid_symbols.contains token

/-- Line 38: `B` gets `KW_EPSILON` pushed before the membership tests. -/
def is_subset (A B : List Int) : Bool :=
  let B1 := B ++ [KW_EPSILON]
  A.all (fun c => B1.contains c)

/-- Line 192. -/
def is_alphabet (s : List Int) (sigma : List Int) : Bool :=
  s.all (fun c => sigma.contains c)

/-! ## `select_rule` (lines 200-210) -/

/-- The inner `for (int k = 0; k < input.size() - 1; k++)` loop for one
rule: `n` iterations remain and the loop variable is `k`. -/
def select_inner (input : List Int) (r : rule) : Nat → Nat → Option replacement
  | 0, _ => none
  | n + 1, k =>
    if input.getD k 0 = r.x ∧ input.getD (k + 1) 0 = r.y then
      some { position := (k : Int), c := toChar r.z }
    else select_inner input r n (k + 1)

/-- The outer `for (rule &r : ruleset)` loop, ending in `return { -1, 0 }`. -/
def select_outer (input : List Int) : List rule → replacement
  | [] => { position := -1, c := 0 }
  | r :: rs =>
    match select_inner input r (input.length - 1) 0 with
    | some rep => rep
    | none => select_outer input rs

def select_rule (input : List Int) (ruleset : List rule) : replacement :=
  if input.length < 2 then { position := -1, c := 0 }
  else select_outer input ruleset

/-! ## The evaluation of one input string (lines 314-347) -/

/-- `std::string::substr(pos, n)`: throws `out_of_range` (here `none`) when
`pos > size()`. -/
def substr (s : List Int) (pos : Nat) (n : Nat) : Option (List Int) :=
  if pos > s.length then none else some ((s.drop pos).take n)

/-- `std::string::substr(pos)`, to the end of the string. -/
def substr_from (s : List Int) (pos : Nat) : Option (List Int) :=
  if pos > s.length then none else some (s.drop pos)

/-- Line 333: `input.substr(0, rep.position) + (char) rep.c +
input.substr(rep.position+2)`; `none` when a `substr` throws. -/
def rewrite (input : List Int) (rep : replacement) : Option (List Int) :=
  match substr input 0 rep.position.toNat, substr_from input (rep.position.toNat + 2) with
  | some a, some b => some (a ++ [toChar rep.c] ++ b)
  | _, _ => none

/-- How the reduction loop of one input ended. -/
inductive LoopResult where
  /-- the loop left with `rep.position < 0`: the strings a step was applied
  to, in order, and the final string -/
  | halted (trace : List (List Int)) (final : List Int)
  /-- a `substr` threw `std::out_of_range` -/
  | out_of_range
  /-- the step budget of the model ran out before the loop left -/
  | out_of_budget
deriving DecidableEq, Repr

/-- Lines 320-335: `rep = select_rule(input, rules);` then, while
`rep.position >= 0`, `input = ...; rep = select_rule(input, rules);`, with
`budget` iterations allowed. `trace` collects the strings printed inside the loop. -/
def reduce_loop (rules : List rule) : Nat → List (List Int) → List Int → LoopResult
  | budget, trace, input =>
    let rep := select_rule input rules
    if 0 ≤ rep.position then
      match budget with
      | 0 => LoopResult.out_of_budget
      | b + 1 =>
        match rewrite input rep with
        | some next => reduce_loop rules b (trace ++ [input]) next
        | none => LoopResult.out_of_range
    else LoopResult.halted trace input

/-- The reduction of one input, with a budget of `input.length` iterations. -/
def reduce (rules : List rule) (input : List Int) : LoopResult :=
  reduce_loop rules input.length [] input

/-- Line 340: `int result = input == "" ? KW_EPSILON : input[0];`. -/
def result_of (input : List Int) : Int :=
  if input = [] then KW_EPSILON else input.getD 0 0

/-- Line 343: the condition of the `accepted` branch. -/
def verdict (accepts : List Int) (input : List Int) : Bool :=
  decide (input.length ≤ 1) && accepts.contains (result_of input)

/-- The four vectors that `main` fills while parsing. -/
structure PairingSystem where
  sigma : List Int
  gamma : List Int
  rules : List rule
  accepts : List Int
deriving DecidableEq, Repr

/-- What one turn of the `while (!fp.eof())` loop shows for its input. -/
structure Evaluation where
  /-- the `is_alphabet` diagnostic of line 316 was printed -/
  alphabet_error : Bool
  /-- the strings printed inside the reduction loop, one per step -/
  trace : List (List Int)
  /-- the string printed after the loop -/
  final : List Int
  /-- the `accepted` message was printed (otherwise `rejected`) -/
  accepted : Bool
deriving DecidableEq, Repr

/-- Lines 316-347 for one `input`; `none` when the reduction loop did not
halt normally. -/
def evaluate (sys : PairingSystem) (input : List Int) : Option Evaluation :=
  let alphabet_error := !is_alphabet input sys.sigma
  match reduce sys.rules input with
  | LoopResult.halted trace final =>
    some { alphabet_error := alphabet_error, trace := trace, final := final,
           accepted := verdict sys.accepts final }
  | _ => none

/-! ## The lexer (lines 48-114) -/

/-- The diagnostics after which the source leaves the parsing phase with
`exit(1)` or `return 1`, one constructor per message. -/
inductive ParseError where
  /-- line 76: `unexpected token '-c'` -/
  | unexpected_token (c : Int)
  /-- line 96: `expected ':' after '!kw'` -/
  | expected_colon (kw : List Int)
  /-- line 107: `unrecognized identifier '!kw'` -/
  | unrecognized_identifier (kw : List Int)
  /-- line 130: `expected 'tok'`, from `expect` -/
  | expected (tok : Int)
  /-- line 141: `character 'c' cannot be used as symbol` -/
  | invalid_symbol (symbol : Int)
  /-- line 156: `expected '['` -/
  | expected_bracket
  /-- lines 164, 172, 180: `only symbols in gamma can be used in rules` -/
  | not_in_gamma
  /-- line 273: `sigma must be non-empty` -/
  | sigma_empty
  /-- line 280: `gamma must be a superset of sigma` -/
  | gamma_not_superset
  /-- line 290: `A must be a subset of gamma` -/
  | accept_not_subset
  /-- the step budget of the model ran out; no diagnostic of the source -/
  | out_of_budget
deriving DecidableEq, Repr

/-- The two error kinds of the specification. -/
inductive ErrorKind where
  | SyntaxError
  | SemanticError
deriving DecidableEq, Repr

/-- The kind that section 7 of the specification gives each diagnostic: a
malformed token stream is a `SyntaxError`, a violated invariant of the system
a `SemanticError`. -/
def ParseError.kind : ParseError → Option ErrorKind
  | ParseError.unexpected_token _ => some ErrorKind.SyntaxError
  | ParseError.expected_colon _ => some ErrorKind.SyntaxError
  | ParseError.unrecognized_identifier _ => some ErrorKind.SyntaxError
  | ParseError.expected _ => some ErrorKind.SyntaxError
  | ParseError.invalid_symbol _ => some ErrorKind.SyntaxError
  | ParseError.expected_bracket => some ErrorKind.SyntaxError
  | ParseError.not_in_gamma => some ErrorKind.SemanticError
  | ParseError.sigma_empty => some ErrorKind.SemanticError
  | ParseError.gamma_not_superset => some ErrorKind.SemanticError
  | ParseError.accept_not_subset => some ErrorKind.SemanticError
  | ParseError.out_of_budget => none

/-- The description file being read: the function-static `char lastToken` of
`token` and the bytes of `fp` not yet read. -/
structure Lexer where
  lastToken : Int
  fp : List Nat
deriving DecidableEq, Repr

/-- `lastToken = fgetc(fp);`: the next byte (or `EOF` at the end of the
file) stored into the `char`. -/
def fgetc_store (l : Lexer) : Lexer :=
  match l.fp with
  | [] => { lastToken := toChar EOF, fp := [] }
  | b :: rest => { lastToken := toChar ((b % 256 : Nat) : Int), fp := rest }

/-- `while (p(lastToken)) lastToken = fgetc(fp);`, at most `n` times. -/
def skip_while (p : Int → Bool) : Nat → Lexer → Lexer
  | 0, l => l
  | n + 1, l => if p l.lastToken then skip_while p n (fgetc_store l) else l

/-- Lines 88-91: `while (isalpha(lastToken)) kw += lastToken, lastToken =
fgetc(fp);`, at most `n` times. -/
def read_kw : Nat → Lexer → List Int → Lexer × List Int
  | 0, l, kw => (l, kw)
  | n + 1, l, kw =>
    if isalpha l.lastToken then read_kw n (fgetc_store l) (kw ++ [l.lastToken]) else (l, kw)

def str_eps : List Int := [101, 112, 115]
def str_sigma : List Int := [115, 105, 103, 109, 97]
def str_gamma : List Int := [103, 97, 109, 109, 97]
def str_rules : List Int := [114, 117, 108, 101, 115]
def str_accept : List Int := [97, 99, 99, 101, 112, 116]

/-- Lines 51-55: the white-space loop of `token`, which stops at `'\n'` (10)
when `ignore_linefeed` is false. -/
def skip_blanks (l : Lexer) (ignore_linefeed : Bool) : Lexer :=
  if ignore_linefeed then skip_while isspace (l.fp.length + 1) l
  else skip_while (fun c => decide (c ≠ 10) && isspace c) (l.fp.length + 1) l

/-- Lines 63-65: `do lastToken = fgetc(fp); while (lastToken != '\n' &&
lastToken != EOF);`. -/
def skip_comment (l : Lexer) : Lexer :=
  skip_while (fun c => decide (c ≠ 10) && decide (c ≠ EOF)) (l.fp.length + 1) (fgetc_store l)

/-- Lines 73-81, after a `'-'`: the next character must be `'>'` (62). -/
def read_arrow (l : Lexer) : Except ParseError (Int × Lexer) :=
  let l1 := fgetc_store l
  if l1.lastToken ≠ 62 then Except.error (ParseError.unexpected_token l1.lastToken)
  else Except.ok (KW_ARROW, { l1 with lastToken := 32 })

/-- Lines 85-108, after a `'!'`: the letters that follow are the keyword;
`eps` stands alone, the four section keywords need a `':'` (58). -/
def read_keyword (l : Lexer) : Except ParseError (Int × Lexer) :=
  let (l1, kw) := read_kw (l.fp.length + 1) (fgetc_store l) []
  if kw = str_eps then Except.ok (KW_EPSILON, l1)
  else if l1.lastToken ≠ 58 then Except.error (ParseError.expected_colon kw)
  else
    let l2 := fgetc_store l1
    if kw = str_sigma then Except.ok (KW_SIGMA, l2)
    else if kw = str_gamma then Except.ok (KW_GAMMA, l2)
    else if kw = str_rules then Except.ok (KW_R, l2)
    else if kw = str_accept then Except.ok (KW_A, l2)
    else Except.error (ParseError.unrecognized_identifier kw)

/-- The body of `token`, with `n` nested calls of itself allowed. The
characters are `'\n'` 10, `' '` 32, `'!'` 33, `'#'` 35, `'-'` 45. -/
def token_rec : Nat → Lexer → Bool → Except ParseError (Int × Lexer)
  | 0, _, _ => Except.error ParseError.out_of_budget
  | n + 1, l, ignore_linefeed =>
    let l1 := skip_blanks l ignore_linefeed
    if ignore_linefeed = false ∧ l1.lastToken = 10 then
      Except.ok (10, { l1 with lastToken := 32 })
    else if l1.lastToken = 35 then token_rec n (skip_comment l1) ignore_linefeed
    else if l1.lastToken = EOF then Except.ok (KW_EOF, l1)
    else if l1.lastToken = 45 then read_arrow l1
    else if l1.lastToken = 33 then read_keyword l1
    else Except.ok (l1.lastToken, fgetc_store l1)

/-- Line 48: `int token(FILE *fp, bool ignore_linefeed)`. Each nested call
follows a comment, so `fp.length + 2` calls are never used up. -/
def token (l : Lexer) (ignore_linefeed : Bool) : Except ParseError (Int × Lexer) :=
  token_rec (l.fp.length + 2) l ignore_linefeed

/-! ## The parser (lines 128-190 and 263-292) -/

/-- Line 128: `token(descf) != expected` ends the parse. -/
def expect (l : Lexer) (expected : Int) : Except ParseError Lexer :=
  match token l true with
  | Except.error e => Except.error e
  | Except.ok (tk, l1) =>
    if tk ≠ expected then Except.error (ParseError.expected expected) else Except.ok l1

/-- The `while (symbol != '\n' && symbol != KW_EOF)` loop of `parse_charset`,
at most `n` tests of its condition. -/
def parse_charset_loop (allow_eps : Bool) :
    Nat → Lexer → List Int → Int → Except ParseError (List Int × Lexer)
  | 0, _, _, _ => Except.error ParseError.out_of_budget
  | n + 1, l, cset, symbol =>
    if symbol ≠ 10 ∧ symbol ≠ KW_EOF then
      if !(is_valid_symbol symbol || (allow_eps && decide (symbol = KW_EPSILON))) then
        Except.error (ParseError.invalid_symbol symbol)
      else
        match token l false with
        | Except.error e => Except.error e
        | Except.ok (symbol1, l1) => parse_charset_loop allow_eps n l1 (cset ++ [symbol]) symbol1
    else Except.ok (cset, l)

/-- Line 135: appends the symbols of one line to `cset`. -/
def parse_charset (l : Lexer) (cset : List Int) (allow_eps : Bool) :
    Except ParseError (List Int × Lexer) :=
  match token l false with
  | Except.error e => Except.error e
  | Except.ok (symbol, l1) => parse_charset_loop allow_eps (l.fp.length + 2) l1 cset symbol

/-- The `while (symbol != '.')` loop of `parse_rules`, at most `n` tests of
its condition. The characters are `','` 44, `'.'` 46, `'['` 91, `']'` 93. -/
def parse_rules_loop (gamma : List Int) :
    Nat → Lexer → List rule → Int → Except ParseError (List rule × Lexer)
  | 0, _, _, _ => Except.error ParseError.out_of_budget
  | n + 1, l, ruleset, symbol =>
    if symbol ≠ 46 then
      if symbol ≠ 91 then Except.error ParseError.expected_bracket
      else do
        let (x, l1) ← token l true
        if !gamma.contains x then Except.error ParseError.not_in_gamma
        else do
          let l2 ← expect l1 44
          let (y, l3) ← token l2 true
          if !gamma.contains y then Except.error ParseError.not_in_gamma
          else do
            let l4 ← expect l3 KW_ARROW
            let (z, l5) ← token l4 true
            if !gamma.contains z then Except.error ParseError.not_in_gamma
            else do
              let l6 ← expect l5 93
              let (symbol1, l7) ← token l6 true
              parse_rules_loop gamma n l7 (ruleset ++ [{ x := x, y := y, z := z }]) symbol1
    else Except.ok (ruleset, l)

/-- Line 151: appends the rules up to the closing `.` to `ruleset`. -/
def parse_rules (l : Lexer) (ruleset : List rule) (gamma : List Int) :
    Except ParseError (List rule × Lexer) :=
  match token l true with
  | Except.error e => Except.error e
  | Except.ok (symbol, l1) => parse_rules_loop gamma (l.fp.length + 2) l1 ruleset symbol

/-- Lines 263-292 of `main`: the four sections in their fixed order, with the
checks between them. -/
def parse_system (l : Lexer) : Except ParseError (PairingSystem × Lexer) := do
  let l1 ← expect l KW_SIGMA
  let (sigma, l2) ← parse_charset l1 [] false
  if sigma.isEmpty then Except.error ParseError.sigma_empty
  else do
    let l3 ← expect l2 KW_GAMMA
    let (gamma, l4) ← parse_charset l3 [] false
    if !is_subset sigma gamma then Except.error ParseError.gamma_not_superset
    else do
      let l5 ← expect l4 KW_R
      let (rules, l6) ← parse_rules l5 [] gamma
      let l7 ← expect l6 KW_A
      let (accepts, l8) ← parse_charset l7 [] true
      if !is_subset accepts gamma then Except.error ParseError.accept_not_subset
      else
        Except.ok ({ sigma := sigma, gamma := gamma, rules := rules, accepts := accepts }, l8)

/-- The lexer at the start of a description file: `lastToken` is `' '`. -/
def Lexer.start (file : List Nat) : Lexer := { lastToken := 32, fp := file }

/-- The bytes of a text. -/
def bytes (s : String) : List Nat := s.toList.map Char.toNat

/-- The parsing phase of `main` on a description file. -/
def parse (file : List Nat) : Except ParseError PairingSystem :=
  match parse_system (Lexer.start file) with
  | Except.error e => Except.error e
  | Except.ok (sys, _) => Except.ok sys

/-! ## Vocabulary of the claims about the engine -/

/-- Rule `r` matches `input` at index `k`: `k` and `k + 1` are positions of
`input` and hold `r.x` and `r.y`. -/
def matchesAt (input : List Int) (r : rule) (k : Nat) : Prop :=
  k + 1 < input.length ∧ input.getD k 0 = r.x ∧ input.getD (k + 1) 0 = r.y

instance (input : List Int) (r : rule) (k : Nat) : Decidable (matchesAt input r k) := by
  unfold matchesAt; infer_instance

/-- A value that a `char` can hold. -/
def isCharValue (v : Int) : Prop := -128 ≤ v ∧ v < 128

instance (v : Int) : Decidable (isCharValue v) := by
  unfold isCharValue; infer_instance

/-- The parse that started in `l` has come to the place where `main` expects
`!gamma:` (line 277): the sigma section was read as `sigma`, non-empty, and
left the lexer in `l2`. -/
def at_gamma (l : Lexer) (sigma : List Int) (l2 : Lexer) : Prop :=
  ∃ l1, expect l KW_SIGMA = Except.ok l1 ∧
    parse_charset l1 [] false = Except.ok (sigma, l2) ∧ sigma.isEmpty = false

/-- The parse that started in `l` has come to the place where `main` expects
`!rules:` (line 284): the gamma section was read as `gamma`, a superset of
`sigma` for `is_subset`, and left the lexer in `l4`. -/
def at_rules (l : Lexer) (sigma gamma : List Int) (l4 : Lexer) : Prop :=
  ∃ l2 l3, at_gamma l sigma l2 ∧ expect l2 KW_GAMMA = Except.ok l3 ∧
    parse_charset l3 [] false = Except.ok (gamma, l4) ∧ is_subset sigma gamma = true

/-- The parse that started in `l` has come to the place where `main` expects
`!accept:` (line 287): the rules section was read as `rules` and left the
lexer in `l6`. -/
def at_accept (l : Lexer) (sigma gamma : List Int) (rules : List rule) (l6 : Lexer) : Prop :=
  ∃ l4 l5, at_rules l sigma gamma l4 ∧ expect l4 KW_R = Except.ok l5 ∧
    parse_rules l5 [] gamma = Except.ok (rules, l6)

/-- The characters that the lexer can still deliver: the bytes left in the
file, and `lastToken` unless it holds `EOF`. Each token other than a line end
or the end of the file uses up at least one of them. -/
def Lexer.pending (l : Lexer) : Nat :=
  l.fp.length + (if l.lastToken = EOF then 0 else 1)

/-! ## Vocabulary of the claims about the lexer and the description text -/

/-- The condition of the white-space loop of lines 51-55. -/
def is_blank (c : Int) (ignore_linefeed : Bool) : Bool :=
  if ignore_linefeed then isspace c else decide (c ≠ 10) && isspace c

/-- The lexer that has `text` before it: the first character of `text` is in
`lastToken` (or `EOF` when `text` is empty) and the rest is still in the file.
This is the state in which `token` leaves the lexer after a symbol or a
keyword that `text` follows. -/
def Lexer.facing (text : List Nat) : Lexer := fgetc_store { lastToken := 32, fp := text }

/-- An ASCII byte that `token` returns as it stands: not white space and none
of `'!'` 33, `'#'` 35, `'-'` 45. -/
def plain_byte (b : Nat) : Bool :=
  decide (b < 128) && !(decide (b = 32) || decide (9 ≤ b ∧ b ≤ 13)) &&
    !(decide (b = 33) || decide (b = 35) || decide (b = 45))

/-- The symbol tokens that the loop of `parse_charset` meets, whatever their
validity: the tokens that `token(descf, false)` delivers up to the first line
end, end of file or lexical error; `symbol` is the token already read. -/
def line_tokens_loop : Nat → Lexer → Int → List Int
  | 0, _, _ => []
  | n + 1, l, symbol =>
    if symbol ≠ 10 ∧ symbol ≠ KW_EOF then
      symbol :: (match token l false with
        | Except.error _ => []
        | Except.ok (symbol1, l1) => line_tokens_loop n l1 symbol1)
    else []

/-- The symbol tokens of the charset line that starts at `l`. -/
def line_tokens (l : Lexer) : List Int :=
  match token l false with
  | Except.error _ => []
  | Except.ok (symbol, l1) => line_tokens_loop (l.fp.length + 2) l1 symbol

/-- The tokens that the lexer delivers at the three symbol positions of the
rules that the loop of `parse_rules` reads, whatever their membership in gamma:
the loop is followed while its brackets, commas and arrows are in place. -/
def rule_symbols_loop : Nat → Lexer → Int → List Int
  | 0, _, _ => []
  | n + 1, l, symbol =>
    if symbol ≠ 91 then []
    else
      match token l true with
      | Except.error _ => []
      | Except.ok (x, l1) =>
        x :: (match expect l1 44 with
          | Except.error _ => []
          | Except.ok l2 =>
            match token l2 true with
            | Except.error _ => []
            | Except.ok (y, l3) =>
              y :: (match expect l3 KW_ARROW with
                | Except.error _ => []
                | Except.ok l4 =>
                  match token l4 true with
                  | Except.error _ => []
                  | Except.ok (z, l5) =>
                    z :: (match expect l5 93 with
                      | Except.error _ => []
                      | Except.ok l6 =>
                        match token l6 true with
                        | Except.error _ => []
                        | Except.ok (symbol1, l7) => rule_symbols_loop n l7 symbol1)))

/-- The symbol-position tokens of the rules section that starts at `l`. -/
def rule_symbols (l : Lexer) : List Int :=
  match token l true with
  | Except.error _ => []
  | Except.ok (symbol, l1) => rule_symbols_loop (l.fp.length + 2) l1 symbol

/-- A symbol as the description writes it: `!eps` for Epsilon, the character
itself otherwise. -/
def symbol_text (s : Int) : List Nat :=
  if s = KW_EPSILON then [33, 101, 112, 115] else [s.toNat]

/-- Symbols, each with a space before it. -/
def spaced_text : List Int → List Nat
  | [] => []
  | s :: t => 32 :: (symbol_text s ++ spaced_text t)

/-- Symbols separated by single spaces. -/
def charset_text : List Int → List Nat
  | [] => []
  | s :: t => symbol_text s ++ spaced_text t

/-- A rule written `[x,y -> z]`. -/
def rule_text (r : rule) : List Nat :=
  [91, r.x.toNat, 44, r.y.toNat, 32, 45, 62, 32, r.z.toNat, 93]

/-- Rules written one after the other. -/
def rules_text : List rule → List Nat
  | [] => []
  | r :: t => rule_text r ++ rules_text t

/-- The canonical rendering of a pairing system: the four sections in order,
each keyword followed by a space, the sigma, gamma and accept lines closed by
a newline and the rules closed by `.` and a newline. -/
def description_text (sys : PairingSystem) : List Nat :=
  bytes "!sigma: " ++ charset_text sys.sigma ++ [10] ++
  (bytes "!gamma: " ++ charset_text sys.gamma ++ [10] ++
  (bytes "!rules: " ++ rules_text sys.rules ++ [46, 10] ++
  (bytes "!accept: " ++ charset_text sys.accepts ++ [10])))

/-- The characters that `is_valid_symbol` admits: the ASCII letters and digits
and `( ) - . @`. -/
def allowed_symbols : List Int :=
  ((List.range 128).map Int.ofNat).filter is_valid_symbol

/-- The charset line made of the character `c` and a newline is read by
`parse_charset` as the one-element sequence `[c]`. -/
def declares (c : Int) : Bool :=
  match parse_charset (Lexer.start [c.toNat, 10]) [] false with
  | Except.ok (out, _) => out == [c]
  | Except.error _ => false

/-! ## Descriptions used as concrete instances -/

/-- The description of example E1 of the specification. -/
def E1_file : List Nat := bytes "!sigma: a b\n!gamma: a b c\n!rules: [a,b -> c].\n!accept: c\n"

/-- The description of example E4 of the specification: no `!gamma:` section. -/
def E4_file : List Nat := bytes "!sigma: a\n!rules: [a,a -> a].\n!accept: a\n"

/-- A description whose gamma lacks the symbol `b` of its sigma; what follows
the gamma line is not a rules section. -/
def gamma_lacks_b_file : List Nat := bytes "!sigma: a b\n!gamma: a c\n%"

/-- A description whose accept set is `!eps` alone. -/
def epsilon_accept_file : List Nat := bytes "!sigma: a\n!gamma: a\n!rules: .\n!accept: !eps\n"

/-- A description with `!eps` as a symbol of its sigma line. -/
def sigma_with_eps_file : List Nat :=
  bytes "!sigma: a !eps\n!gamma: a\n!rules: .\n!accept: a\n"

/-! ## Lemmas on `select_rule` -/

theorem toChar_of_isCharValue (v : Int) (h : isCharValue v) : toChar v = v := by
  unfold isCharValue at h
  unfold toChar
  omega

theorem toChar_isCharValue (v : Int) : isCharValue (toChar v) := by
  unfold isCharValue toChar
  omega

theorem toChar_toChar (v : Int) : toChar (toChar v) = toChar v :=
  toChar_of_isCharValue _ (toChar_isCharValue v)

/-- The inner loop returns the least index of the scanned window at which the
rule's pair stands, and `none` when there is none. -/
theorem select_inner_spec (input : List Int) (r : rule) :
    ∀ n k, match select_inner input r n k with
      | none => ∀ j, k ≤ j → j < k + n →
          ¬ (input.getD j 0 = r.x ∧ input.getD (j + 1) 0 = r.y)
      | some rep => ∃ j, k ≤ j ∧ j < k + n ∧
          (input.getD j 0 = r.x ∧ input.getD (j + 1) 0 = r.y) ∧
          (∀ i, k ≤ i → i < j → ¬ (input.getD i 0 = r.x ∧ input.getD (i + 1) 0 = r.y)) ∧
          rep = { position := (j : Int), c := toChar r.z } := by
  intro n
  induction n with
  | zero =>
    intro k
    simp only [select_inner]
    intro j h1 h2
    omega
  | succ n ih =>
    intro k
    simp only [select_inner]
    split_ifs with hm
    · exact ⟨k, le_refl k, by omega, hm, fun i h1 h2 => by omega, rfl⟩
    · have h := ih (k + 1)
      cases hs : select_inner input r n (k + 1) with
      | none =>
        rw [hs] at h
        intro j h1 h2
        rcases Nat.eq_or_lt_of_le h1 with heq | hlt
        · subst heq; exact hm
        · exact h j hlt (by omega)
      | some rep =>
        rw [hs] at h
        obtain ⟨j, h1, h2, h3, h4, h5⟩ := h
        refine ⟨j, by omega, by omega, h3, ?_, h5⟩
        intro i hi1 hi2
        rcases Nat.eq_or_lt_of_le hi1 with heq | hlt
        · subst heq; exact hm
        · exact h4 i hlt hi2

theorem select_inner_none_iff (input : List Int) (r : rule) (h : 2 ≤ input.length) :
    select_inner input r (input.length - 1) 0 = none ↔ ∀ k, ¬ matchesAt input r k := by
  have hs := select_inner_spec input r (input.length - 1) 0
  constructor
  · intro hn k hk
    rw [hn] at hs
    exact hs k (Nat.zero_le k) (by unfold matchesAt at hk; omega) hk.2
  · intro hall
    cases hc : select_inner input r (input.length - 1) 0 with
    | none => rfl
    | some rep =>
      rw [hc] at hs
      obtain ⟨j, _, h2, h3, _, _⟩ := hs
      exact absurd ⟨by omega, h3⟩ (hall j)

theorem select_inner_some_iff (input : List Int) (r : rule) (rep : replacement) :
    select_inner input r (input.length - 1) 0 = some rep ↔
      ∃ k, matchesAt input r k ∧ (∀ j, j < k → ¬ matchesAt input r j) ∧
        rep = { position := (k : Int), c := toChar r.z } := by
  have hs := select_inner_spec input r (input.length - 1) 0
  constructor
  · intro hc
    rw [hc] at hs
    obtain ⟨j, _, h2, h3, h4, h5⟩ := hs
    exact ⟨j, ⟨by omega, h3⟩, fun i hi hm => h4 i (Nat.zero_le i) hi hm.2, h5⟩
  · rintro ⟨k, hk, hleast, hrep⟩
    cases hc : select_inner input r (input.length - 1) 0 with
    | none =>
      rw [hc] at hs
      exact absurd hk.2 (hs k (Nat.zero_le k) (by unfold matchesAt at hk; omega))
    | some rep1 =>
      rw [hc] at hs
      obtain ⟨j, _, h2, h3, h4, h5⟩ := hs
      have hjk : j = k := by
        rcases Nat.lt_trichotomy j k with hlt | heq | hgt
        · exact absurd ⟨by omega, h3⟩ (hleast j hlt)
        · exact heq
        · exact absurd hk.2 (h4 k (Nat.zero_le k) hgt)
      subst hjk
      rw [h5, hrep]

/-- The outer loop either finds no rule with a match, or stops at the first
rule of the list that has one, at that rule's least matching index. -/
theorem select_outer_spec (input : List Int) (h : 2 ≤ input.length) (ruleset : List rule) :
    ((∀ r ∈ ruleset, ∀ k, ¬ matchesAt input r k) ∧
        select_outer input ruleset = { position := -1, c := 0 }) ∨
    (∃ pre r post k, ruleset = pre ++ r :: post ∧
        (∀ q ∈ pre, ∀ j, ¬ matchesAt input q j) ∧
        matchesAt input r k ∧ (∀ j, j < k → ¬ matchesAt input r j) ∧
        select_outer input ruleset = { position := (k : Int), c := toChar r.z }) := by
  induction ruleset with
  | nil =>
    left
    exact ⟨fun r hr => absurd hr (List.not_mem_nil r), rfl⟩
  | cons r rs ih =>
    cases hc : select_inner input r (input.length - 1) 0 with
    | some rep =>
      right
      obtain ⟨k, hk, hleast, hrep⟩ := (select_inner_some_iff input r rep).1 hc
      refine ⟨[], r, rs, k, rfl, fun q hq => absurd hq (List.not_mem_nil q), hk, hleast, ?_⟩
      simp only [select_outer, hc, hrep]
    | none =>
      have hnone := (select_inner_none_iff input r h).1 hc
      have hstep : select_outer input (r :: rs) = select_outer input rs := by
        simp only [select_outer, hc]
      rcases ih with ⟨hall, hres⟩ | ⟨pre, r1, post, k, hsplit, hpre, hk, hleast, hres⟩
      · left
        refine ⟨?_, by rw [hstep, hres]⟩
        intro q hq
        rcases List.mem_cons.1 hq with heq | hmem
        · subst heq; exact hnone
        · exact hall q hmem
      · right
        refine ⟨r :: pre, r1, post, k, by rw [hsplit]; rfl, ?_, hk, hleast, by rw [hstep, hres]⟩
        intro q hq
        rcases List.mem_cons.1 hq with heq | hmem
        · subst heq; exact hnone
        · exact hpre q hmem

theorem matchesAt_length (input : List Int) (r : rule) (k : Nat) (h : matchesAt input r k) :
    2 ≤ input.length ∧ k + 2 ≤ input.length := by
  unfold matchesAt at h
  omega

/-- C1. `select_rule` goes by rule priority first and leftmost position
second. If some rule of the ruleset matches the input at some adjacent pair,
then the ruleset splits as `pre ++ r :: post` where no rule of `pre` matches
anywhere and `r = (x, y, z)` does, and `select_rule` returns position `k`, the
least index with `input[k] = x` and `input[k+1] = y` (so `k + 2 ≤ len`), together
with `z` as the `char` field `c` holds it (`z` itself for every `z` a `char` can
hold); other rules matching further left do not matter. The returned position
is `-1` exactly when the input is shorter than 2 or no rule matches any
adjacent pair. -/
theorem select_rule_priority_then_leftmost (ruleset : List rule) (input : List Int) :
    ((∃ r ∈ ruleset, ∃ k, matchesAt input r k) →
      ∃ pre r post k, ruleset = pre ++ r :: post ∧
        (∀ q ∈ pre, ∀ j, ¬ matchesAt input q j) ∧
        matchesAt input r k ∧ (∀ j, j < k → ¬ matchesAt input r j) ∧
        k + 2 ≤ input.length ∧
        select_rule input ruleset = { position := (k : Int), c := toChar r.z } ∧
        (isCharValue r.z → select_rule input ruleset = { position := (k : Int), c := r.z })) ∧
    ((select_rule input ruleset).position = -1 ↔
      (input.length < 2 ∨ ∀ r ∈ ruleset, ∀ k, ¬ matchesAt input r k)) := by
  constructor
  · rintro ⟨r0, hr0, k0, hk0⟩
    have hlen := (matchesAt_length input r0 k0 hk0).1
    have hsel : select_rule input ruleset = select_outer input ruleset := by
      unfold select_rule
      rw [if_neg (by omega)]
    rcases select_outer_spec input hlen ruleset with
      ⟨hall, _⟩ | ⟨pre, r, post, k, hsplit, hpre, hk, hleast, hres⟩
    · exact absurd hk0 (hall r0 hr0 k0)
    · refine ⟨pre, r, post, k, hsplit, hpre, hk, hleast,
        (matchesAt_length input r k hk).2, by rw [hsel, hres], ?_⟩
      intro hz
      rw [hsel, hres, toChar_of_isCharValue r.z hz]
  · by_cases hlen : input.length < 2
    · have hsel : select_rule input ruleset = { position := -1, c := 0 } := by
        unfold select_rule
        rw [if_pos hlen]
      rw [hsel]
      exact ⟨fun _ => Or.inl hlen, fun _ => rfl⟩
    · have hsel : select_rule input ruleset = select_outer input ruleset := by
        unfold select_rule
        rw [if_neg hlen]
      rw [hsel]
      rcases select_outer_spec input (by omega) ruleset with
        ⟨hall, hres⟩ | ⟨pre, r, post, k, hsplit, hpre, hk, hleast, hres⟩
      · rw [hres]
        exact ⟨fun _ => Or.inr hall, fun _ => rfl⟩
      · rw [hres]
        constructor
        · intro hpos
          simp only at hpos
          omega
        · rintro (h1 | h2)
          · exact absurd h1 hlen
          · exact absurd hk (h2 r (by rw [hsplit]; simp) k)

/-- Concrete instance of C1: with the rules `[c,d -> e]`, `[a,b -> f]` and the
input `abcd`, the first rule wins at index 2 although the second matches at
index 0. -/
theorem select_rule_priority_then_leftmost_witness :
    (∃ r ∈ [rule.mk 99 100 101, rule.mk 97 98 102], ∃ k, matchesAt [97, 98, 99, 100] r k) ∧
    matchesAt [97, 98, 99, 100] (rule.mk 97 98 102) 0 ∧
    select_rule [97, 98, 99, 100] [rule.mk 99 100 101, rule.mk 97 98 102]
      = { position := 2, c := 101 } ∧
    (∃ pre r post k, [rule.mk 99 100 101, rule.mk 97 98 102] = pre ++ r :: post ∧
        (∀ q ∈ pre, ∀ j, ¬ matchesAt [97, 98, 99, 100] q j) ∧
        matchesAt [97, 98, 99, 100] r k ∧ (∀ j, j < k → ¬ matchesAt [97, 98, 99, 100] r j) ∧
        k + 2 ≤ [97, 98, 99, 100].length ∧
        select_rule [97, 98, 99, 100] [rule.mk 99 100 101, rule.mk 97 98 102]
          = { position := (k : Int), c := toChar r.z } ∧
        (isCharValue r.z → select_rule [97, 98, 99, 100] [rule.mk 99 100 101, rule.mk 97 98 102]
          = { position := (k : Int), c := r.z })) :=
  ⟨⟨rule.mk 97 98 102, by decide, 0, by decide⟩, by decide, by decide,
    (select_rule_priority_then_leftmost [rule.mk 99 100 101, rule.mk 97 98 102]
      [97, 98, 99, 100]).1 ⟨rule.mk 97 98 102, by decide, 0, by decide⟩⟩

/-! ## Lemmas on the reduction loop -/

/-- What `select_rule` can return: `-1`, or an index with two positions of
the input at and after it. -/
theorem select_rule_cases (input : List Int) (ruleset : List rule) :
    select_rule input ruleset = { position := -1, c := 0 } ∨
    ∃ r ∈ ruleset, ∃ k, matchesAt input r k ∧
      select_rule input ruleset = { position := (k : Int), c := toChar r.z } := by
  by_cases hlen : input.length < 2
  · left
    unfold select_rule
    rw [if_pos hlen]
  · have hsel : select_rule input ruleset = select_outer input ruleset := by
      unfold select_rule
      rw [if_neg hlen]
    rcases select_outer_spec input (by omega) ruleset with
      ⟨_, hres⟩ | ⟨pre, r, post, k, hsplit, _, hk, _, hres⟩
    · left; rw [hsel, hres]
    · right
      exact ⟨r, by rw [hsplit]; simp, k, hk, by rw [hsel, hres]⟩

theorem select_rule_position_bound (input : List Int) (ruleset : List rule)
    (h : 0 ≤ (select_rule input ruleset).position) :
    (select_rule input ruleset).position.toNat + 2 ≤ input.length := by
  rcases select_rule_cases input ruleset with hres | ⟨r, _, k, hk, hres⟩
  · rw [hres] at h
    simp only at h
    omega
  · rw [hres]
    simp only [Int.toNat_ofNat]
    exact (matchesAt_length input r k hk).2

/-- With the position inside the string, both `substr` calls succeed. -/
theorem rewrite_eq (input : List Int) (rep : replacement)
    (h : rep.position.toNat + 2 ≤ input.length) :
    rewrite input rep = some (input.take rep.position.toNat ++ [toChar rep.c]
      ++ input.drop (rep.position.toNat + 2)) := by
  unfold rewrite substr substr_from
  rw [if_neg (by omega), if_neg (by omega)]
  simp only [List.drop_zero]

theorem rewrite_length (input : List Int) (rep : replacement)
    (h : rep.position.toNat + 2 ≤ input.length) :
    ∃ next, rewrite input rep = some next ∧ next.length + 1 = input.length := by
  refine ⟨_, rewrite_eq input rep h, ?_⟩
  simp only [List.length_append, List.length_take, List.length_drop, List.length_singleton]
  omega

theorem reduce_loop_halt (rules : List rule) (budget : Nat) (trace : List (List Int))
    (input : List Int) (h : ¬ 0 ≤ (select_rule input rules).position) :
    reduce_loop rules budget trace input = LoopResult.halted trace input := by
  unfold reduce_loop
  simp only [if_neg h]

theorem reduce_loop_zero (rules : List rule) (trace : List (List Int))
    (input : List Int) (h : 0 ≤ (select_rule input rules).position) :
    reduce_loop rules 0 trace input = LoopResult.out_of_budget := by
  unfold reduce_loop
  simp only [if_pos h]

theorem reduce_loop_succ (rules : List rule) (b : Nat) (trace : List (List Int))
    (input next : List Int) (h : 0 ≤ (select_rule input rules).position)
    (hn : rewrite input (select_rule input rules) = some next) :
    reduce_loop rules (b + 1) trace input = reduce_loop rules b (trace ++ [input]) next := by
  rw [reduce_loop]
  simp only [if_pos h, hn]

/-- With a budget of at least `len - 1` the loop halts normally; the steps
it made and the length of the final string add up to the input's length, and
a non-empty input leaves a non-empty string. -/
theorem reduce_loop_halts (rules : List rule) :
    ∀ (budget : Nat) (trace : List (List Int)) (input : List Int),
      input.length ≤ budget + 1 →
      ∃ tr final, reduce_loop rules budget trace input = LoopResult.halted (trace ++ tr) final ∧
        tr.length + final.length = input.length ∧ (input ≠ [] → final ≠ []) := by
  intro budget
  induction budget with
  | zero =>
    intro trace input hlen
    have hneg : ¬ 0 ≤ (select_rule input rules).position := by
      intro hpos
      have := select_rule_position_bound input rules hpos
      omega
    exact ⟨[], input, by rw [reduce_loop_halt rules 0 trace input hneg, List.append_nil],
      by simp, fun h => h⟩
  | succ b ih =>
    intro trace input hlen
    by_cases hpos : 0 ≤ (select_rule input rules).position
    · have hb := select_rule_position_bound input rules hpos
      obtain ⟨next, hnext, hnl⟩ := rewrite_length input _ hb
      obtain ⟨tr, final, hrun, hsum, hne⟩ := ih (trace ++ [input]) next (by omega)
      refine ⟨input :: tr, final, ?_, ?_, ?_⟩
      · rw [reduce_loop_succ rules b trace input next hpos hnext, hrun]
        simp
      · simp only [List.length_cons]
        omega
      · intro _
        apply hne
        intro hnil
        rw [hnil] at hnl
        simp only [List.length_nil] at hnl
        omega
    · exact ⟨[], input, by rw [reduce_loop_halt rules _ trace input hpos, List.append_nil],
        by simp, fun h => h⟩

/-- Whatever the budget, a loop that halted made as many steps as the string
lost symbols. -/
theorem reduce_loop_halted_length (rules : List rule) :
    ∀ (budget : Nat) (trace : List (List Int)) (input : List Int) (out : List (List Int))
      (final : List Int),
      reduce_loop rules budget trace input = LoopResult.halted out final →
      ∃ tr, out = trace ++ tr ∧ tr.length + final.length = input.length := by
  intro budget
  induction budget with
  | zero =>
    intro trace input out final hrun
    by_cases hpos : 0 ≤ (select_rule input rules).position
    · rw [reduce_loop_zero rules trace input hpos] at hrun
      cases hrun
    · rw [reduce_loop_halt rules 0 trace input hpos] at hrun
      cases hrun
      exact ⟨[], by simp, by simp⟩
  | succ b ih =>
    intro trace input out final hrun
    by_cases hpos : 0 ≤ (select_rule input rules).position
    · have hb := select_rule_position_bound input rules hpos
      obtain ⟨next, hnext, hnl⟩ := rewrite_length input _ hb
      rw [reduce_loop_succ rules b trace input next hpos hnext] at hrun
      obtain ⟨tr, hout, hsum⟩ := ih (trace ++ [input]) next out final hrun
      refine ⟨input :: tr, by rw [hout]; simp, ?_⟩
      simp only [List.length_cons]
      omega
    · rw [reduce_loop_halt rules _ trace input hpos] at hrun
      cases hrun
      exact ⟨[], by simp, by simp⟩

/-- A loop that halted within a budget halts the same way within any larger one. -/
theorem reduce_loop_budget_mono (rules : List rule) :
    ∀ (b : Nat) (trace : List (List Int)) (input : List Int) (out : List (List Int))
      (final : List Int) (b1 : Nat), b ≤ b1 →
      reduce_loop rules b trace input = LoopResult.halted out final →
      reduce_loop rules b1 trace input = LoopResult.halted out final := by
  intro b
  induction b with
  | zero =>
    intro trace input out final b1 _ hrun
    by_cases hpos : 0 ≤ (select_rule input rules).position
    · rw [reduce_loop_zero rules trace input hpos] at hrun
      cases hrun
    · rw [reduce_loop_halt rules 0 trace input hpos] at hrun
      rw [reduce_loop_halt rules b1 trace input hpos, hrun]
  | succ b ih =>
    intro trace input out final b1 hle hrun
    by_cases hpos : 0 ≤ (select_rule input rules).position
    · have hb := select_rule_position_bound input rules hpos
      obtain ⟨next, hnext, _⟩ := rewrite_length input _ hb
      rw [reduce_loop_succ rules b trace input next hpos hnext] at hrun
      obtain ⟨c, rfl⟩ : ∃ c, b1 = c + 1 := ⟨b1 - 1, by omega⟩
      rw [reduce_loop_succ rules c trace input next hpos hnext]
      exact ih (trace ++ [input]) next out final c (by omega) hrun
    · rw [reduce_loop_halt rules _ trace input hpos] at hrun
      rw [reduce_loop_halt rules b1 trace input hpos, hrun]

/-- The reduction of `evaluate` always halts normally. -/
theorem reduce_halts (rules : List rule) (input : List Int) :
    ∃ trace final, reduce rules input = LoopResult.halted trace final ∧
      trace.length + final.length = input.length ∧ (input ≠ [] → final ≠ []) := by
  obtain ⟨tr, final, hrun, hsum, hne⟩ :=
    reduce_loop_halts rules input.length [] input (by omega)
  exact ⟨tr, final, by unfold reduce; rw [hrun, List.nil_append], hsum, hne⟩

theorem evaluate_eq (sys : PairingSystem) (input : List Int) (trace : List (List Int))
    (final : List Int) (h : reduce sys.rules input = LoopResult.halted trace final) :
    evaluate sys input = some (Evaluation.mk (!is_alphabet input sys.sigma) trace final
      (verdict sys.accepts final)) := by
  unfold evaluate
  simp only [h]

/-- An evaluation is the halted reduction together with the verdict on its
final string. -/
theorem evaluate_some (sys : PairingSystem) (input : List Int) (ev : Evaluation)
    (h : evaluate sys input = some ev) :
    reduce sys.rules input = LoopResult.halted ev.trace ev.final ∧
      ev.accepted = verdict sys.accepts ev.final ∧
      ev.alphabet_error = !is_alphabet input sys.sigma := by
  obtain ⟨trace, final, hrun, _, _⟩ := reduce_halts sys.rules input
  rw [evaluate_eq sys input trace final hrun] at h
  cases h
  exact ⟨hrun, rfl, rfl⟩

theorem verdict_iff (accepts : List Int) (final : List Int) :
    verdict accepts final = true ↔ final.length ≤ 1 ∧ result_of final ∈ accepts := by
  unfold verdict
  simp

/-! ## The claims about the engine -/

/-- C2. The reduction loop terminates for every ruleset and every input:
with any budget of at least `len(input) - 1` iterations it halts normally (no
exception, budget not used up) with the same trace and final string as the
reduction that `evaluate` runs, after at most `len(input) - 1` steps, and
after no step at all when the input has length at most 1. -/
theorem reduction_terminates (rules : List rule) (input : List Int) (budget : Nat)
    (h : input.length - 1 ≤ budget) :
    ∃ trace final, reduce_loop rules budget [] input = LoopResult.halted trace final ∧
      reduce rules input = LoopResult.halted trace final ∧
      trace.length ≤ input.length - 1 ∧ (input.length ≤ 1 → trace.length = 0) := by
  obtain ⟨tr, final, hrun, hsum, hne⟩ := reduce_loop_halts rules budget [] input (by omega)
  rw [List.nil_append] at hrun
  have hbound : tr.length ≤ input.length - 1 := by
    cases input with
    | nil => simp only [List.length_nil] at hsum ⊢; omega
    | cons a t =>
      have hf : final ≠ [] := hne (List.cons_ne_nil a t)
      have : 0 < final.length := List.length_pos.2 hf
      omega
  refine ⟨tr, final, hrun, ?_, hbound, fun h1 => by omega⟩
  rcases Nat.le_total budget input.length with hle | hge
  · exact reduce_loop_budget_mono rules budget [] input tr final input.length hle hrun
  · obtain ⟨tr1, final1, hrun1, _, _⟩ := reduce_halts rules input
    have := reduce_loop_budget_mono rules input.length [] input tr1 final1 budget hge hrun1
    rw [hrun] at this
    rw [hrun1, this]

/-- Concrete instance of C2: `cab` under `[a,b -> c]`, `[c,c -> c]` with a
budget of 2 halts after 2 steps. -/
theorem reduction_terminates_witness :
    [99, 97, 98].length - 1 ≤ 2 ∧
    reduce_loop [rule.mk 97 98 99, rule.mk 99 99 99] 2 [] [99, 97, 98]
      = LoopResult.halted [[99, 97, 98], [99, 99]] [99] ∧
    (∃ trace final,
      reduce_loop [rule.mk 97 98 99, rule.mk 99 99 99] 2 [] [99, 97, 98]
        = LoopResult.halted trace final ∧
      reduce [rule.mk 97 98 99, rule.mk 99 99 99] [99, 97, 98] = LoopResult.halted trace final ∧
      trace.length ≤ [99, 97, 98].length - 1 ∧
      ([99, 97, 98].length ≤ 1 → trace.length = 0)) :=
  ⟨by decide, by decide,
    reduction_terminates [rule.mk 97 98 99, rule.mk 99 99 99] [99, 97, 98] 2 (by decide)⟩

/-- C3. Every reduction step shortens the working string by exactly 1:
whenever `select_rule` returns a position `>= 0` on `s`, the string that the
loop builds next exists and has length `len(s) - 1`; and for every loop that
halted, the number of steps is `len(input) - len(final)`. -/
theorem step_decreases_length_by_one (rules : List rule) :
    (∀ s : List Int, 0 ≤ (select_rule s rules).position →
      ∃ next, rewrite s (select_rule s rules) = some next ∧
        next.length = s.length - 1 ∧ next.length + 1 = s.length) ∧
    (∀ (budget : Nat) (input : List Int) (trace : List (List Int)) (final : List Int),
      reduce_loop rules budget [] input = LoopResult.halted trace final →
      final.length ≤ input.length ∧ trace.length = input.length - final.length) := by
  constructor
  · intro s hpos
    obtain ⟨next, hnext, hlen⟩ :=
      rewrite_length s _ (select_rule_position_bound s rules hpos)
    exact ⟨next, hnext, by omega, hlen⟩
  · intro budget input trace final hrun
    obtain ⟨tr, hout, hsum⟩ := reduce_loop_halted_length rules budget [] input trace final hrun
    rw [List.nil_append] at hout
    subst hout
    omega

/-- Concrete instance of C3: one step on `cab`, and the two steps of its
reduction. -/
theorem step_decreases_length_by_one_witness :
    0 ≤ (select_rule [99, 97, 98] [rule.mk 97 98 99, rule.mk 99 99 99]).position ∧
    rewrite [99, 97, 98] (select_rule [99, 97, 98] [rule.mk 97 98 99, rule.mk 99 99 99])
      = some [99, 99] ∧
    (∃ next, rewrite [99, 97, 98]
        (select_rule [99, 97, 98] [rule.mk 97 98 99, rule.mk 99 99 99]) = some next ∧
      next.length = [99, 97, 98].length - 1 ∧ next.length + 1 = [99, 97, 98].length) ∧
    ([99].length ≤ [99, 97, 98].length ∧
      [[99, 97, 98], [99, 99]].length = [99, 97, 98].length - [99].length) :=
  ⟨by decide, by decide,
    (step_decreases_length_by_one [rule.mk 97 98 99, rule.mk 99 99 99]).1 [99, 97, 98]
      (by decide),
    (step_decreases_length_by_one [rule.mk 97 98 99, rule.mk 99 99 99]).2 2 [99, 97, 98]
      [[99, 97, 98], [99, 99]] [99] (by decide)⟩

/-- C4. When the final working string has length at most 1, the verdict is
Accepted exactly when `result` is a member of AcceptSet, where `result` (line
340) is `KW_EPSILON` for the empty final string and the single symbol of the
final string otherwise. -/
theorem verdict_of_short_final (sys : PairingSystem) (input : List Int) (ev : Evaluation)
    (h : evaluate sys input = some ev) (hlen : ev.final.length ≤ 1) :
    ∃ result, result = result_of ev.final ∧
      (ev.final = [] → result = KW_EPSILON) ∧
      (∀ c, ev.final = [c] → result = c) ∧
      (ev.accepted = true ↔ result ∈ sys.accepts) := by
  obtain ⟨_, hacc, _⟩ := evaluate_some sys input ev h
  refine ⟨result_of ev.final, rfl, ?_, ?_, ?_⟩
  · intro hnil
    rw [hnil]
    rfl
  · intro c hc
    rw [hc]
    rfl
  · rw [hacc, verdict_iff]
    exact ⟨fun hv => hv.2, fun hm => ⟨hlen, hm⟩⟩

/-- Concrete instance of C4: under the system of E1 the input `ab` ends as
`c`, which is in the accept set. -/
theorem verdict_of_short_final_witness :
    evaluate (PairingSystem.mk [97, 98] [97, 98, 99] [rule.mk 97 98 99] [99]) [97, 98]
      = some (Evaluation.mk false [[97, 98]] [99] true) ∧
    (∃ result, result = result_of [99] ∧ (([99] : List Int) = [] → result = KW_EPSILON) ∧
      (∀ c, ([99] : List Int) = [c] → result = c) ∧
      (true = true ↔ result ∈ ([99] : List Int))) :=
  ⟨by decide,
    verdict_of_short_final (PairingSystem.mk [97, 98] [97, 98, 99] [rule.mk 97 98 99] [99])
      [97, 98] (Evaluation.mk false [[97, 98]] [99] true) (by decide) (by decide)⟩

/-- C5, as stated, fails: under `!accept: b` the input `ba` is stuck as `ba`,
whose first symbol `b` is a member of the accept set, and the verdict is
Rejected. -/
theorem stuck_first_symbol_not_inspected :
    evaluate (PairingSystem.mk [97, 98] [97, 98, 99] [rule.mk 97 98 99] [98]) [98, 97]
      = some (Evaluation.mk false [] [98, 97] false) ∧
    1 < ([98, 97] : List Int).length ∧
    ([98, 97] : List Int).getD 0 0 ∈ ([98] : List Int) ∧
    ¬ (false = true ↔ ([98, 97] : List Int).getD 0 0 ∈ ([98] : List Int)) := by
  decide

/-- C5, amended. When the reduction halts with a final working string of
length greater than 1, the verdict is Rejected, whatever the symbols of that
string and the accept set are. -/
theorem stuck_long_final_rejected (sys : PairingSystem) (input : List Int) (ev : Evaluation)
    (h : evaluate sys input = some ev) (hlen : 1 < ev.final.length) :
    ev.accepted = false := by
  obtain ⟨_, hacc, _⟩ := evaluate_some sys input ev h
  cases hv : ev.accepted with
  | false => rfl
  | true =>
    rw [hacc, verdict_iff] at hv
    omega

/-- Concrete instance of the amended C5: `ba` stays `ba` and is rejected
although `b` is in the accept set. -/
theorem stuck_long_final_rejected_witness :
    evaluate (PairingSystem.mk [97, 98] [97, 98, 99] [rule.mk 97 98 99] [98]) [98, 97]
      = some (Evaluation.mk false [] [98, 97] false) ∧
    1 < (Evaluation.mk false [] [98, 97] false).final.length ∧
    (Evaluation.mk false [] [98, 97] false).accepted = false :=
  ⟨by decide, by decide,
    stuck_long_final_rejected (PairingSystem.mk [97, 98] [97, 98, 99] [rule.mk 97 98 99] [98])
      [98, 97] (Evaluation.mk false [] [98, 97] false) (by decide) (by decide)⟩

/-- C6, the code at a failing input. The description with sigma `a b`, gamma
`a b c`, rules `[a,b -> c] [c,c -> c]` and accept set `c` parses; the input
`cab` is not over sigma (the diagnostic of line 316 is printed), and the
evaluation goes on all the same: two reduction steps, final string `c`,
verdict Accepted. -/
theorem invalid_input_still_evaluated :
    parse (bytes "!sigma: a b\n!gamma: a b c\n!rules: [a,b -> c] [c,c -> c].\n!accept: c\n")
      = Except.ok (PairingSystem.mk [97, 98] [97, 98, 99]
          [rule.mk 97 98 99, rule.mk 99 99 99] [99]) ∧
    is_alphabet [99, 97, 98] [97, 98] = false ∧
    evaluate (PairingSystem.mk [97, 98] [97, 98, 99] [rule.mk 97 98 99, rule.mk 99 99 99] [99])
      [99, 97, 98] = some (Evaluation.mk true [[99, 97, 98], [99, 99]] [99] true) :=
  ⟨by rfl, by decide, by decide⟩

/-- C7, as stated, fails: with the accept set `!eps c` the input `ab` is
Accepted and its final working string `c` is not empty. -/
theorem epsilon_accept_not_only_empty :
    KW_EPSILON ∈ ([KW_EPSILON, 99] : List Int) ∧
    evaluate (PairingSystem.mk [97, 98] [97, 98, 99] [rule.mk 97 98 99] [KW_EPSILON, 99])
      [97, 98] = some (Evaluation.mk false [[97, 98]] [99] true) ∧
    ¬ (true = true ↔ ([99] : List Int) = []) := by
  decide

/-- C7, amended. For every pairing system whose AcceptSet contains Epsilon
and every input, the evaluation reports Accepted exactly when the final
working string is empty or is a single symbol that is itself a member of
AcceptSet; in particular every input that reduces to the empty string is
Accepted. -/
theorem epsilon_accept_iff (sys : PairingSystem) (input : List Int) (ev : Evaluation)
    (heps : KW_EPSILON ∈ sys.accepts) (h : evaluate sys input = some ev) :
    (ev.accepted = true ↔ (ev.final = [] ∨ ∃ c, ev.final = [c] ∧ c ∈ sys.accepts)) ∧
    (ev.final = [] → ev.accepted = true) := by
  obtain ⟨_, hacc, _⟩ := evaluate_some sys input ev h
  have hiff : ev.accepted = true ↔ (ev.final = [] ∨ ∃ c, ev.final = [c] ∧ c ∈ sys.accepts) := by
    rw [hacc, verdict_iff]
    constructor
    · rintro ⟨hlen, hmem⟩
      match hf : ev.final, hlen, hmem with
      | [], _, _ => exact Or.inl rfl
      | [c], _, hmem => exact Or.inr ⟨c, rfl, hmem⟩
      | _ :: _ :: _, hlen, _ => simp at hlen
    · rintro (hnil | ⟨c, hc, hmem⟩)
      · rw [hnil]
        exact ⟨by simp, heps⟩
      · rw [hc]
        exact ⟨by simp, hmem⟩
  exact ⟨hiff, fun hnil => hiff.2 (Or.inl hnil)⟩

/-- Concrete instance of the amended C7: with the accept set `!eps c` the
empty input is Accepted with the empty final string. -/
theorem epsilon_accept_iff_witness :
    KW_EPSILON ∈ (PairingSystem.mk [97, 98] [97, 98, 99] [rule.mk 97 98 99] [KW_EPSILON, 99]).accepts ∧
    evaluate (PairingSystem.mk [97, 98] [97, 98, 99] [rule.mk 97 98 99] [KW_EPSILON, 99]) []
      = some (Evaluation.mk false [] [] true) ∧
    (((Evaluation.mk false [] [] true).accepted = true ↔
        ((Evaluation.mk false [] [] true).final = [] ∨
          ∃ c, (Evaluation.mk false [] [] true).final = [c] ∧
            c ∈ (PairingSystem.mk [97, 98] [97, 98, 99] [rule.mk 97 98 99]
              [KW_EPSILON, 99]).accepts)) ∧
      ((Evaluation.mk false [] [] true).final = [] →
        (Evaluation.mk false [] [] true).accepted = true)) :=
  ⟨by decide, by decide,
    epsilon_accept_iff (PairingSystem.mk [97, 98] [97, 98, 99] [rule.mk 97 98 99] [KW_EPSILON, 99])
      [] (Evaluation.mk false [] [] true) (by decide) (by decide)⟩

/-! ## Lemmas on the parser -/

theorem is_subset_iff (A B : List Int) :
    is_subset A B = true ↔ ∀ c ∈ A, c ∈ B ∨ c = KW_EPSILON := by
  unfold is_subset
  simp

theorem is_valid_symbol_pos (c : Int) (h : is_valid_symbol c = true) : 40 ≤ c := by
  unfold is_valid_symbol isalnum isalpha isupper islower isdigit at h
  simp at h
  omega

theorem is_valid_symbol_ne_epsilon (c : Int) (h : is_valid_symbol c = true) :
    c ≠ KW_EPSILON := by
  have := is_valid_symbol_pos c h
  unfold KW_EPSILON
  omega

/-- Every symbol that `parse_charset`'s loop appends passed the test of line
140. -/
theorem parse_charset_loop_ok (allow_eps : Bool) :
    ∀ (n : Nat) (l : Lexer) (cset : List Int) (symbol : Int) (out : List Int) (l1 : Lexer),
      parse_charset_loop allow_eps n l cset symbol = Except.ok (out, l1) →
      ∃ new, out = cset ++ new ∧
        ∀ c ∈ new, is_valid_symbol c = true ∨ (allow_eps = true ∧ c = KW_EPSILON) := by
  intro n
  induction n with
  | zero =>
    intro l cset symbol out l1 h
    simp only [parse_charset_loop] at h
    cases h
  | succ n ih =>
    intro l cset symbol out l1 h
    rw [parse_charset_loop] at h
    by_cases hcont : symbol ≠ 10 ∧ symbol ≠ KW_EOF
    · rw [if_pos hcont] at h
      cases hv : (is_valid_symbol symbol || (allow_eps && decide (symbol = KW_EPSILON))) with
      | false =>
        rw [hv] at h
        cases h
      | true =>
        rw [hv] at h
        cases htk : token l false with
        | error e =>
          rw [htk] at h
          cases h
        | ok res =>
          obtain ⟨symbol1, l2⟩ := res
          rw [htk] at h
          obtain ⟨new, hout, hall⟩ := ih l2 (cset ++ [symbol]) symbol1 out l1 h
          refine ⟨symbol :: new, by rw [hout]; simp, ?_⟩
          intro c hc
          rcases List.mem_cons.1 hc with heq | hmem
          · subst heq
            simp only [Bool.or_eq_true, Bool.and_eq_true, decide_eq_true_eq] at hv
            exact hv
          · exact hall c hmem
    · rw [if_neg hcont] at h
      cases h
      exact ⟨[], by simp, fun c hc => absurd hc (List.not_mem_nil c)⟩

theorem parse_charset_ok (l : Lexer) (cset : List Int) (allow_eps : Bool) (out : List Int)
    (l1 : Lexer) (h : parse_charset l cset allow_eps = Except.ok (out, l1)) :
    ∃ new, out = cset ++ new ∧
      ∀ c ∈ new, is_valid_symbol c = true ∨ (allow_eps = true ∧ c = KW_EPSILON) := by
  unfold parse_charset at h
  cases htk : token l false with
  | error e =>
    rw [htk] at h
    cases h
  | ok res =>
    obtain ⟨symbol, l2⟩ := res
    rw [htk] at h
    exact parse_charset_loop_ok allow_eps _ l2 cset symbol out l1 h

theorem bind_eq_ok {α β : Type} (x : Except ParseError α) (f : α → Except ParseError β) (b : β)
    (h : (x >>= f) = Except.ok b) : ∃ a, x = Except.ok a ∧ f a = Except.ok b := by
  cases x with
  | error e => cases h
  | ok a => exact ⟨a, rfl, h⟩

/-- Every rule that `parse_rules`'s loop appends has its three symbols in
`gamma`. -/
theorem parse_rules_loop_ok (gamma : List Int) :
    ∀ (n : Nat) (l : Lexer) (ruleset : List rule) (symbol : Int) (out : List rule) (l1 : Lexer),
      parse_rules_loop gamma n l ruleset symbol = Except.ok (out, l1) →
      ∃ new, out = ruleset ++ new ∧ ∀ r ∈ new, r.x ∈ gamma ∧ r.y ∈ gamma ∧ r.z ∈ gamma := by
  intro n
  induction n with
  | zero =>
    intro l ruleset symbol out l1 h
    simp only [parse_rules_loop] at h
    cases h
  | succ n ih =>
    intro l ruleset symbol out l1 h
    rw [parse_rules_loop] at h
    by_cases hdot : symbol ≠ 46
    · rw [if_pos hdot] at h
      by_cases hbr : symbol ≠ 91
      · rw [if_pos hbr] at h
        cases h
      · rw [if_neg hbr] at h
        obtain ⟨⟨x, la⟩, _, h⟩ := bind_eq_ok _ _ _ h
        simp only at h
        cases hx : gamma.contains x with
        | false =>
          rw [hx] at h
          cases h
        | true =>
          rw [hx] at h
          simp only [Bool.not_true, Bool.false_eq_true, if_false] at h
          obtain ⟨lb, _, h⟩ := bind_eq_ok _ _ _ h
          obtain ⟨⟨y, lc⟩, _, h⟩ := bind_eq_ok _ _ _ h
          simp only at h
          cases hy : gamma.contains y with
          | false =>
            rw [hy] at h
            cases h
          | true =>
            rw [hy] at h
            simp only [Bool.not_true, Bool.false_eq_true, if_false] at h
            obtain ⟨ld, _, h⟩ := bind_eq_ok _ _ _ h
            obtain ⟨⟨z, le⟩, _, h⟩ := bind_eq_ok _ _ _ h
            simp only at h
            cases hz : gamma.contains z with
            | false =>
              rw [hz] at h
              cases h
            | true =>
              rw [hz] at h
              simp only [Bool.not_true, Bool.false_eq_true, if_false] at h
              obtain ⟨lf, _, h⟩ := bind_eq_ok _ _ _ h
              obtain ⟨⟨symbol1, lg⟩, _, h⟩ := bind_eq_ok _ _ _ h
              simp only at h
              obtain ⟨new, hout, hall⟩ := ih lg _ symbol1 out l1 h
              refine ⟨rule.mk x y z :: new, by rw [hout]; simp, ?_⟩
              intro r hr
              rcases List.mem_cons.1 hr with heq | hmem
              · subst heq
                simp only [List.contains, List.elem_iff] at hx hy hz
                exact ⟨hx, hy, hz⟩
              · exact hall r hmem
    · rw [if_neg hdot] at h
      cases h
      exact ⟨[], by simp, fun r hr => absurd hr (List.not_mem_nil r)⟩

theorem parse_rules_ok (l : Lexer) (ruleset : List rule) (gamma : List Int) (out : List rule)
    (l1 : Lexer) (h : parse_rules l ruleset gamma = Except.ok (out, l1)) :
    ∃ new, out = ruleset ++ new ∧ ∀ r ∈ new, r.x ∈ gamma ∧ r.y ∈ gamma ∧ r.z ∈ gamma := by
  unfold parse_rules at h
  cases htk : token l true with
  | error e =>
    rw [htk] at h
    cases h
  | ok res =>
    obtain ⟨symbol, l2⟩ := res
    rw [htk] at h
    exact parse_rules_loop_ok gamma _ l2 ruleset symbol out l1 h

theorem ok_bind {α β : Type} (a : α) (f : α → Except ParseError β) :
    (Except.ok a >>= f) = f a := rfl

theorem error_bind {α β : Type} (e : ParseError) (f : α → Except ParseError β) :
    ((Except.error e : Except ParseError α) >>= f) = Except.error e := rfl

theorem expect_ok_iff (l : Lexer) (expected : Int) (l1 : Lexer) :
    expect l expected = Except.ok l1 ↔ token l true = Except.ok (expected, l1) := by
  unfold expect
  cases htk : token l true with
  | error e => simp
  | ok res =>
    obtain ⟨tk, l2⟩ := res
    by_cases heq : tk = expected
    · simp [heq]
    · simp only [ne_eq, heq, not_false_eq_true, if_true, Except.ok.injEq, Prod.mk.injEq,
        false_and, reduceCtorEq]

theorem expect_other (l : Lexer) (expected tk : Int) (l1 : Lexer)
    (h : token l true = Except.ok (tk, l1)) (hne : tk ≠ expected) :
    expect l expected = Except.error (ParseError.expected expected) := by
  unfold expect
  rw [h]
  simp only [if_pos hne]

/-- What a successful `parse_system` went through. -/
theorem parse_system_ok (l : Lexer) (sys : PairingSystem) (l8 : Lexer)
    (h : parse_system l = Except.ok (sys, l8)) :
    ∃ l6 l7, at_accept l sys.sigma sys.gamma sys.rules l6 ∧
      expect l6 KW_A = Except.ok l7 ∧
      parse_charset l7 [] true = Except.ok (sys.accepts, l8) ∧
      is_subset sys.accepts sys.gamma = true := by
  unfold parse_system at h
  obtain ⟨l1, h1, h⟩ := bind_eq_ok _ _ _ h
  obtain ⟨⟨sigma, l2⟩, h2, h⟩ := bind_eq_ok _ _ _ h
  simp only at h
  cases hse : sigma.isEmpty with
  | true =>
    rw [hse] at h
    cases h
  | false =>
    rw [hse] at h
    simp only [Bool.false_eq_true, if_false] at h
    obtain ⟨l3, h3, h⟩ := bind_eq_ok _ _ _ h
    obtain ⟨⟨gamma, l4⟩, h4, h⟩ := bind_eq_ok _ _ _ h
    simp only at h
    cases hsg : is_subset sigma gamma with
    | false =>
      rw [hsg] at h
      cases h
    | true =>
      rw [hsg] at h
      simp only [Bool.not_true, Bool.false_eq_true, if_false] at h
      obtain ⟨l5, h5, h⟩ := bind_eq_ok _ _ _ h
      obtain ⟨⟨rules, l6⟩, h6, h⟩ := bind_eq_ok _ _ _ h
      simp only at h
      obtain ⟨l7, h7, h⟩ := bind_eq_ok _ _ _ h
      obtain ⟨⟨accepts, l9⟩, h8, h⟩ := bind_eq_ok _ _ _ h
      simp only at h
      cases hsa : is_subset accepts gamma with
      | false =>
        rw [hsa] at h
        cases h
      | true =>
        rw [hsa] at h
        simp only [Bool.not_true, Bool.false_eq_true, if_false] at h
        cases h
        exact ⟨l6, l7, ⟨l4, l5, ⟨l2, l3, ⟨l1, h1, h2, hse⟩, h3, h4, hsg⟩, h5, h6⟩, h7, h8, hsa⟩

theorem parse_ok (file : List Nat) (sys : PairingSystem) (h : parse file = Except.ok sys) :
    ∃ l8, parse_system (Lexer.start file) = Except.ok (sys, l8) := by
  unfold parse at h
  cases hp : parse_system (Lexer.start file) with
  | error e =>
    rw [hp] at h
    cases h
  | ok res =>
    obtain ⟨sys1, l8⟩ := res
    rw [hp] at h
    cases h
    exact ⟨l8, rfl⟩

theorem parse_error (file : List Nat) (e : ParseError)
    (h : parse_system (Lexer.start file) = Except.error e) : parse file = Except.error e := by
  unfold parse
  rw [h]

theorem parse_system_sigma_error (l : Lexer) (e : ParseError)
    (h : expect l KW_SIGMA = Except.error e) : parse_system l = Except.error e := by
  unfold parse_system
  rw [h, error_bind]

theorem parse_system_gamma_error (l : Lexer) (sigma : List Int) (l2 : Lexer) (e : ParseError)
    (hat : at_gamma l sigma l2) (h : expect l2 KW_GAMMA = Except.error e) :
    parse_system l = Except.error e := by
  obtain ⟨l1, h1, h2, hse⟩ := hat
  unfold parse_system
  rw [h1, ok_bind, h2, ok_bind]
  simp only [hse, Bool.false_eq_true, if_false]
  rw [h, error_bind]

theorem parse_system_not_superset (l : Lexer) (sigma : List Int) (l2 l3 : Lexer)
    (gamma : List Int) (l4 : Lexer) (hat : at_gamma l sigma l2)
    (h3 : expect l2 KW_GAMMA = Except.ok l3)
    (h4 : parse_charset l3 [] false = Except.ok (gamma, l4))
    (hsub : is_subset sigma gamma = false) :
    parse_system l = Except.error ParseError.gamma_not_superset := by
  obtain ⟨l1, h1, h2, hse⟩ := hat
  unfold parse_system
  rw [h1, ok_bind, h2, ok_bind]
  simp only [hse, Bool.false_eq_true, if_false]
  rw [h3, ok_bind, h4, ok_bind]
  simp only [hsub, Bool.not_false, if_true]

theorem parse_system_rules_error (l : Lexer) (sigma gamma : List Int) (l4 : Lexer)
    (e : ParseError) (hat : at_rules l sigma gamma l4) (h : expect l4 KW_R = Except.error e) :
    parse_system l = Except.error e := by
  obtain ⟨l2, l3, ⟨l1, h1, h2, hse⟩, h3, h4, hsub⟩ := hat
  unfold parse_system
  rw [h1, ok_bind, h2, ok_bind]
  simp only [hse, Bool.false_eq_true, if_false]
  rw [h3, ok_bind, h4, ok_bind]
  simp only [hsub, Bool.not_true, Bool.false_eq_true, if_false]
  rw [h, error_bind]

theorem parse_system_accept_error (l : Lexer) (sigma gamma : List Int) (rules : List rule)
    (l6 : Lexer) (e : ParseError) (hat : at_accept l sigma gamma rules l6)
    (h : expect l6 KW_A = Except.error e) : parse_system l = Except.error e := by
  obtain ⟨l4, l5, ⟨l2, l3, ⟨l1, h1, h2, hse⟩, h3, h4, hsub⟩, h5, h6⟩ := hat
  unfold parse_system
  rw [h1, ok_bind, h2, ok_bind]
  simp only [hse, Bool.false_eq_true, if_false]
  rw [h3, ok_bind, h4, ok_bind]
  simp only [hsub, Bool.not_true, Bool.false_eq_true, if_false]
  rw [h5, ok_bind, h6, ok_bind]
  simp only
  rw [h, error_bind]

/-! ## The step budgets of the lexer suffice -/

theorem toChar_EOF : toChar EOF = -1 := by decide

theorem fgetc_store_length (l : Lexer) : (fgetc_store l).fp.length = l.fp.length - 1 := by
  unfold fgetc_store
  cases l.fp with
  | nil => rfl
  | cons b rest => simp

theorem fgetc_store_pending_le (l : Lexer) : (fgetc_store l).pending ≤ l.pending := by
  unfold fgetc_store Lexer.pending
  cases hfp : l.fp with
  | nil =>
    have h1 : toChar EOF = EOF := by decide
    simp only [List.length_nil, h1, if_true]
    omega
  | cons b rest =>
    simp only [List.length_cons]
    split_ifs <;> omega

theorem fgetc_store_pending_lt (l : Lexer) (h : l.lastToken ≠ EOF) :
    (fgetc_store l).pending < l.pending := by
  unfold fgetc_store Lexer.pending
  rw [if_neg h]
  cases hfp : l.fp with
  | nil =>
    have h1 : toChar EOF = EOF := by decide
    simp only [List.length_nil, h1, if_true]
    omega
  | cons b rest =>
    simp only [List.length_cons]
    split_ifs <;> omega

theorem skip_while_pending_le (p : Int → Bool) :
    ∀ (n : Nat) (l : Lexer), (skip_while p n l).pending ≤ l.pending := by
  intro n
  induction n with
  | zero => intro l; exact le_refl _
  | succ n ih =>
    intro l
    rw [skip_while]
    split_ifs
    · exact le_trans (ih _) (fgetc_store_pending_le l)
    · exact le_refl _

theorem skip_while_length_le (p : Int → Bool) :
    ∀ (n : Nat) (l : Lexer), (skip_while p n l).fp.length ≤ l.fp.length := by
  intro n
  induction n with
  | zero => intro l; exact le_refl _
  | succ n ih =>
    intro l
    rw [skip_while]
    split_ifs
    · have := ih (fgetc_store l)
      rw [fgetc_store_length] at this
      omega
    · exact le_refl _

/-- With a budget above the number of bytes left, `skip_while` leaves as the
`while` loop of the source does: on a character that fails the test. -/
theorem skip_while_exits (p : Int → Bool) (hp : p EOF = false) :
    ∀ (n : Nat) (l : Lexer), l.fp.length + 1 ≤ n ∨ p l.lastToken = false →
      p (skip_while p n l).lastToken = false := by
  intro n
  induction n with
  | zero =>
    intro l h
    rcases h with h | h
    · omega
    · exact h
  | succ n ih =>
    intro l h
    rw [skip_while]
    by_cases hl : p l.lastToken = true
    · rw [if_pos hl]
      apply ih
      rcases h with h | h
      · cases hfp : l.fp with
        | nil =>
          right
          unfold fgetc_store
          rw [hfp]
          simp only [toChar_EOF]
          exact hp
        | cons b rest =>
          left
          rw [fgetc_store_length, hfp]
          rw [hfp] at h
          simp only [List.length_cons] at h ⊢
          omega
      · rw [h] at hl
        cases hl
    · rw [if_neg hl]
      simpa using hl

theorem read_kw_pending_le :
    ∀ (n : Nat) (l : Lexer) (kw : List Int), (read_kw n l kw).1.pending ≤ l.pending := by
  intro n
  induction n with
  | zero => intro l kw; exact le_refl _
  | succ n ih =>
    intro l kw
    rw [read_kw]
    split_ifs
    · exact le_trans (ih _ _) (fgetc_store_pending_le l)
    · exact le_refl _

/-- With a budget above the number of bytes left, `read_kw` leaves on a
character that is not a letter. -/
theorem read_kw_exits :
    ∀ (n : Nat) (l : Lexer) (kw : List Int), l.fp.length + 1 ≤ n ∨ isalpha l.lastToken = false →
      isalpha (read_kw n l kw).1.lastToken = false := by
  intro n
  induction n with
  | zero =>
    intro l kw h
    rcases h with h | h
    · omega
    · exact h
  | succ n ih =>
    intro l kw h
    rw [read_kw]
    by_cases hl : isalpha l.lastToken = true
    · rw [if_pos hl]
      apply ih
      rcases h with h | h
      · cases hfp : l.fp with
        | nil =>
          right
          unfold fgetc_store
          rw [hfp]
          decide
        | cons b rest =>
          left
          rw [fgetc_store_length, hfp]
          rw [hfp] at h
          simp only [List.length_cons] at h ⊢
          omega
      · rw [h] at hl
        cases hl
    · rw [if_neg hl]
      simpa using hl

/-- The white-space loop leaves on a character that is not white space, or,
when line ends are tokens, on a line end. -/
theorem skip_blanks_exits (l : Lexer) (ignore_linefeed : Bool) :
    isspace (skip_blanks l ignore_linefeed).lastToken = false ∨
      (ignore_linefeed = false ∧ (skip_blanks l ignore_linefeed).lastToken = 10) := by
  unfold skip_blanks
  cases ignore_linefeed with
  | true =>
    left
    simp only [if_true]
    exact skip_while_exits isspace (by decide) _ l (Or.inl (le_refl _))
  | false =>
    simp only [Bool.false_eq_true, if_false]
    have h := skip_while_exits (fun c => decide (c ≠ 10) && isspace c) (by decide) _ l
      (Or.inl (le_refl _))
    simp only [Bool.and_eq_false_iff, decide_eq_false_iff_not, ne_eq, not_not] at h
    rcases h with h | h
    · exact Or.inr ⟨trivial, h⟩
    · exact Or.inl h

/-- The comment loop leaves on the line end or at the end of the file. -/
theorem skip_comment_exits (l : Lexer) :
    (skip_comment l).lastToken = 10 ∨ (skip_comment l).lastToken = EOF := by
  unfold skip_comment
  have h := skip_while_exits (fun c => decide (c ≠ 10) && decide (c ≠ EOF)) (by decide)
    (l.fp.length + 1) (fgetc_store l) (Or.inl (by rw [fgetc_store_length]; omega))
  simp only [Bool.and_eq_false_iff, decide_eq_false_iff_not, ne_eq, not_not] at h
  exact h

/-- The keyword loop of `read_keyword` leaves on a character that is not a
letter. -/
theorem read_keyword_kw_exits (l : Lexer) :
    isalpha (read_kw (l.fp.length + 1) (fgetc_store l) []).1.lastToken = false :=
  read_kw_exits _ _ _ (Or.inl (by rw [fgetc_store_length]; omega))

theorem skip_blanks_pending_le (l : Lexer) (ignore_linefeed : Bool) :
    (skip_blanks l ignore_linefeed).pending ≤ l.pending := by
  unfold skip_blanks
  split_ifs
  · exact skip_while_pending_le _ _ _
  · exact skip_while_pending_le _ _ _

theorem skip_comment_pending_lt (l : Lexer) (h : l.lastToken ≠ EOF) :
    (skip_comment l).pending < l.pending := by
  unfold skip_comment
  exact lt_of_le_of_lt (skip_while_pending_le _ _ _) (fgetc_store_pending_lt l h)

theorem read_arrow_ok (l : Lexer) (tk : Int) (l1 : Lexer) (h : read_arrow l = Except.ok (tk, l1))
    (hl : l.lastToken ≠ EOF) : tk = KW_ARROW ∧ l1.pending < l.pending := by
  unfold read_arrow at h
  simp only at h
  by_cases hgt : (fgetc_store l).lastToken ≠ 62
  · rw [if_pos hgt] at h
    cases h
  · rw [if_neg hgt] at h
    cases h
    refine ⟨rfl, ?_⟩
    have hlen := fgetc_store_length l
    have hne : l.fp ≠ [] := by
      intro hnil
      apply hgt
      unfold fgetc_store
      rw [hnil]
      decide
    have hpos : 0 < l.fp.length := List.length_pos.2 hne
    unfold Lexer.pending
    rw [if_neg hl]
    simp only
    rw [hlen, if_neg (by decide)]
    omega

theorem read_arrow_not_out_of_budget (l : Lexer) :
    read_arrow l ≠ Except.error ParseError.out_of_budget := by
  unfold read_arrow
  simp only
  split_ifs <;> simp

theorem read_keyword_ok (l : Lexer) (tk : Int) (l1 : Lexer)
    (h : read_keyword l = Except.ok (tk, l1)) (hl : l.lastToken ≠ EOF) :
    l1.pending < l.pending ∧
      (tk = KW_EPSILON ∨ tk = KW_SIGMA ∨ tk = KW_GAMMA ∨ tk = KW_R ∨ tk = KW_A) := by
  unfold read_keyword at h
  have hkw := read_kw_pending_le (l.fp.length + 1) (fgetc_store l) []
  have hlt := fgetc_store_pending_lt l hl
  cases hr : read_kw (l.fp.length + 1) (fgetc_store l) [] with
  | mk l2 kw =>
    rw [hr] at h hkw
    simp only at h hkw
    have hle := fgetc_store_pending_le l2
    split_ifs at h <;> cases h
    · exact ⟨by omega, Or.inl rfl⟩
    · exact ⟨by omega, Or.inr (Or.inl rfl)⟩
    · exact ⟨by omega, Or.inr (Or.inr (Or.inl rfl))⟩
    · exact ⟨by omega, Or.inr (Or.inr (Or.inr (Or.inl rfl)))⟩
    · exact ⟨by omega, Or.inr (Or.inr (Or.inr (Or.inr rfl)))⟩

theorem read_keyword_not_out_of_budget (l : Lexer) :
    read_keyword l ≠ Except.error ParseError.out_of_budget := by
  unfold read_keyword
  cases hr : read_kw (l.fp.length + 1) (fgetc_store l) [] with
  | mk l2 kw =>
    simp only
    split_ifs <;> simp

/-- A token uses up pending characters: none are gained, and at least one is
lost unless the token is a line end or the end of the file. -/
theorem token_rec_pending :
    ∀ (n : Nat) (l : Lexer) (ignore_linefeed : Bool) (tk : Int) (l1 : Lexer),
      token_rec n l ignore_linefeed = Except.ok (tk, l1) →
      l1.pending ≤ l.pending ∧ ((tk ≠ 10 ∧ tk ≠ KW_EOF) → l1.pending < l.pending) := by
  intro n
  induction n with
  | zero =>
    intro l ign tk l1 h
    simp only [token_rec] at h
    cases h
  | succ n ih =>
    intro l ign tk l1 h
    rw [token_rec] at h
    have hb := skip_blanks_pending_le l ign
    by_cases hnl : ign = false ∧ (skip_blanks l ign).lastToken = 10
    · rw [if_pos hnl] at h
      cases h
      refine ⟨?_, fun hne => absurd rfl hne.1⟩
      unfold Lexer.pending at hb ⊢
      simp only
      rw [if_neg (by decide)]
      rw [if_neg (by rw [hnl.2]; decide)] at hb
      exact hb
    · rw [if_neg hnl] at h
      by_cases hc : (skip_blanks l ign).lastToken = 35
      · rw [if_pos hc] at h
        have hlt := skip_comment_pending_lt (skip_blanks l ign) (by rw [hc]; decide)
        obtain ⟨h1, _⟩ := ih _ ign tk l1 h
        exact ⟨by omega, fun _ => by omega⟩
      · rw [if_neg hc] at h
        by_cases he : (skip_blanks l ign).lastToken = EOF
        · rw [if_pos he] at h
          cases h
          exact ⟨hb, fun hne => absurd rfl hne.2⟩
        · rw [if_neg he] at h
          by_cases hm : (skip_blanks l ign).lastToken = 45
          · rw [if_pos hm] at h
            obtain ⟨_, hlt⟩ := read_arrow_ok _ tk l1 h he
            exact ⟨by omega, fun _ => by omega⟩
          · rw [if_neg hm] at h
            by_cases hx : (skip_blanks l ign).lastToken = 33
            · rw [if_pos hx] at h
              obtain ⟨hlt, _⟩ := read_keyword_ok _ tk l1 h he
              exact ⟨by omega, fun _ => by omega⟩
            · rw [if_neg hx] at h
              cases h
              have hlt := fgetc_store_pending_lt (skip_blanks l ign) he
              exact ⟨by omega, fun _ => by omega⟩

/-- The nested calls of `token` follow comments, each of which uses up a
pending character: a budget above their number is never used up. -/
theorem token_rec_not_out_of_budget :
    ∀ (n : Nat) (l : Lexer) (ignore_linefeed : Bool), l.pending + 1 ≤ n →
      token_rec n l ignore_linefeed ≠ Except.error ParseError.out_of_budget := by
  intro n
  induction n with
  | zero =>
    intro l ign h
    omega
  | succ n ih =>
    intro l ign hn
    rw [token_rec]
    have hb := skip_blanks_pending_le l ign
    by_cases hnl : ign = false ∧ (skip_blanks l ign).lastToken = 10
    · rw [if_pos hnl]
      simp
    · rw [if_neg hnl]
      by_cases hc : (skip_blanks l ign).lastToken = 35
      · rw [if_pos hc]
        have hlt := skip_comment_pending_lt (skip_blanks l ign) (by rw [hc]; decide)
        exact ih _ ign (by omega)
      · rw [if_neg hc]
        by_cases he : (skip_blanks l ign).lastToken = EOF
        · rw [if_pos he]
          simp
        · rw [if_neg he]
          by_cases hm : (skip_blanks l ign).lastToken = 45
          · rw [if_pos hm]
            exact read_arrow_not_out_of_budget _
          · rw [if_neg hm]
            by_cases hx : (skip_blanks l ign).lastToken = 33
            · rw [if_pos hx]
              exact read_keyword_not_out_of_budget _
            · rw [if_neg hx]
              simp

theorem pending_le (l : Lexer) : l.pending ≤ l.fp.length + 1 := by
  unfold Lexer.pending
  split_ifs <;> omega

theorem token_not_out_of_budget (l : Lexer) (ignore_linefeed : Bool) :
    token l ignore_linefeed ≠ Except.error ParseError.out_of_budget := by
  unfold token
  exact token_rec_not_out_of_budget _ l ignore_linefeed (by have := pending_le l; omega)

theorem token_pending (l : Lexer) (ignore_linefeed : Bool) (tk : Int) (l1 : Lexer)
    (h : token l ignore_linefeed = Except.ok (tk, l1)) :
    l1.pending ≤ l.pending ∧ ((tk ≠ 10 ∧ tk ≠ KW_EOF) → l1.pending < l.pending) :=
  token_rec_pending _ l ignore_linefeed tk l1 h

/-! ## The step budgets of the parser suffice -/

theorem bind_not_out_of_budget {α β : Type} (x : Except ParseError α)
    (f : α → Except ParseError β) (hx : x ≠ Except.error ParseError.out_of_budget)
    (hf : ∀ a, x = Except.ok a → f a ≠ Except.error ParseError.out_of_budget) :
    (x >>= f) ≠ Except.error ParseError.out_of_budget := by
  cases x with
  | error e => exact fun h => hx (by cases h; rfl)
  | ok a => exact hf a rfl

theorem expect_not_out_of_budget (l : Lexer) (expected : Int) :
    expect l expected ≠ Except.error ParseError.out_of_budget := by
  unfold expect
  have ht := token_not_out_of_budget l true
  cases htk : token l true with
  | error e =>
    rw [htk] at ht
    exact fun h => ht (by cases h; rfl)
  | ok res =>
    obtain ⟨tk, l1⟩ := res
    simp only
    split_ifs <;> simp

theorem expect_pending (l : Lexer) (expected : Int) (l1 : Lexer)
    (h : expect l expected = Except.ok l1) :
    l1.pending ≤ l.pending ∧ ((expected ≠ 10 ∧ expected ≠ KW_EOF) → l1.pending < l.pending) :=
  token_pending l true expected l1 ((expect_ok_iff l expected l1).1 h)

/-- The loop of `parse_charset` tests its condition once per symbol and once
more at the end of the line. -/
theorem parse_charset_loop_not_out_of_budget (allow_eps : Bool) :
    ∀ (n : Nat) (l : Lexer) (cset : List Int) (symbol : Int),
      ((symbol = 10 ∨ symbol = KW_EOF) ∧ 1 ≤ n) ∨ l.pending + 2 ≤ n →
      parse_charset_loop allow_eps n l cset symbol ≠ Except.error ParseError.out_of_budget := by
  intro n
  induction n with
  | zero =>
    intro l cset symbol h
    omega
  | succ n ih =>
    intro l cset symbol h
    rw [parse_charset_loop]
    by_cases hcont : symbol ≠ 10 ∧ symbol ≠ KW_EOF
    · rw [if_pos hcont]
      have hn : l.pending + 2 ≤ n + 1 := by
        rcases h with ⟨hterm, _⟩ | h
        · omega
        · exact h
      cases hv : (is_valid_symbol symbol || (allow_eps && decide (symbol = KW_EPSILON))) with
      | false => simp
      | true =>
        simp only [Bool.not_true, Bool.false_eq_true, if_false]
        have ht := token_not_out_of_budget l false
        cases htk : token l false with
        | error e =>
          rw [htk] at ht
          exact fun h => ht (by cases h; rfl)
        | ok res =>
          obtain ⟨symbol1, l1⟩ := res
          simp only
          obtain ⟨hle, hlt⟩ := token_pending l false symbol1 l1 htk
          apply ih
          by_cases hterm : symbol1 = 10 ∨ symbol1 = KW_EOF
          · left
            exact ⟨hterm, by omega⟩
          · right
            have := hlt (by omega)
            omega
    · rw [if_neg hcont]
      simp

theorem parse_charset_not_out_of_budget (l : Lexer) (cset : List Int) (allow_eps : Bool) :
    parse_charset l cset allow_eps ≠ Except.error ParseError.out_of_budget := by
  unfold parse_charset
  have ht := token_not_out_of_budget l false
  cases htk : token l false with
  | error e =>
    rw [htk] at ht
    exact fun h => ht (by cases h; rfl)
  | ok res =>
    obtain ⟨symbol, l1⟩ := res
    simp only
    obtain ⟨hle, hlt⟩ := token_pending l false symbol l1 htk
    have hp := pending_le l
    apply parse_charset_loop_not_out_of_budget
    by_cases hterm : symbol = 10 ∨ symbol = KW_EOF
    · left
      exact ⟨hterm, by omega⟩
    · right
      have := hlt (by omega)
      omega

/-- Each turn of the loop of `parse_rules` reads a `','` and so uses up a
pending character. -/
theorem parse_rules_loop_not_out_of_budget (gamma : List Int) :
    ∀ (n : Nat) (l : Lexer) (ruleset : List rule) (symbol : Int), l.pending + 1 ≤ n →
      parse_rules_loop gamma n l ruleset symbol ≠ Except.error ParseError.out_of_budget := by
  intro n
  induction n with
  | zero =>
    intro l ruleset symbol h
    omega
  | succ n ih =>
    intro l ruleset symbol hn
    rw [parse_rules_loop]
    by_cases hdot : symbol ≠ 46
    · rw [if_pos hdot]
      by_cases hbr : symbol ≠ 91
      · rw [if_pos hbr]
        simp
      · rw [if_neg hbr]
        apply bind_not_out_of_budget _ _ (token_not_out_of_budget l true)
        rintro ⟨x, l1⟩ h1
        have p1 := (token_pending l true x l1 h1).1
        simp only
        split_ifs
        · simp
        · apply bind_not_out_of_budget _ _ (expect_not_out_of_budget l1 44)
          intro l2 h2
          have p2 := (expect_pending l1 44 l2 h2).2 (by decide)
          apply bind_not_out_of_budget _ _ (token_not_out_of_budget l2 true)
          rintro ⟨y, l3⟩ h3
          have p3 := (token_pending l2 true y l3 h3).1
          simp only
          split_ifs
          · simp
          · apply bind_not_out_of_budget _ _ (expect_not_out_of_budget l3 KW_ARROW)
            intro l4 h4
            have p4 := (expect_pending l3 KW_ARROW l4 h4).1
            apply bind_not_out_of_budget _ _ (token_not_out_of_budget l4 true)
            rintro ⟨z, l5⟩ h5
            have p5 := (token_pending l4 true z l5 h5).1
            simp only
            split_ifs
            · simp
            · apply bind_not_out_of_budget _ _ (expect_not_out_of_budget l5 93)
              intro l6 h6
              have p6 := (expect_pending l5 93 l6 h6).1
              apply bind_not_out_of_budget _ _ (token_not_out_of_budget l6 true)
              rintro ⟨symbol1, l7⟩ h7
              have p7 := (token_pending l6 true symbol1 l7 h7).1
              simp only
              exact ih l7 _ symbol1 (by omega)
    · rw [if_neg hdot]
      simp

theorem parse_rules_not_out_of_budget (l : Lexer) (ruleset : List rule) (gamma : List Int) :
    parse_rules l ruleset gamma ≠ Except.error ParseError.out_of_budget := by
  unfold parse_rules
  have ht := token_not_out_of_budget l true
  cases htk : token l true with
  | error e =>
    rw [htk] at ht
    exact fun h => ht (by cases h; rfl)
  | ok res =>
    obtain ⟨symbol, l1⟩ := res
    simp only
    have hle := (token_pending l true symbol l1 htk).1
    have hp := pending_le l
    exact parse_rules_loop_not_out_of_budget gamma _ l1 ruleset symbol (by omega)

/-- The parsing phase always ends as the source does: with a pairing system
or with one of the diagnostics of the source. -/
theorem parse_system_not_out_of_budget (l : Lexer) :
    parse_system l ≠ Except.error ParseError.out_of_budget := by
  unfold parse_system
  apply bind_not_out_of_budget _ _ (expect_not_out_of_budget l KW_SIGMA)
  intro l1 _
  apply bind_not_out_of_budget _ _ (parse_charset_not_out_of_budget l1 [] false)
  rintro ⟨sigma, l2⟩ _
  simp only
  split_ifs
  · simp
  · apply bind_not_out_of_budget _ _ (expect_not_out_of_budget l2 KW_GAMMA)
    intro l3 _
    apply bind_not_out_of_budget _ _ (parse_charset_not_out_of_budget l3 [] false)
    rintro ⟨gamma, l4⟩ _
    simp only
    split_ifs
    · simp
    · apply bind_not_out_of_budget _ _ (expect_not_out_of_budget l4 KW_R)
      intro l5 _
      apply bind_not_out_of_budget _ _ (parse_rules_not_out_of_budget l5 [] gamma)
      rintro ⟨rules, l6⟩ _
      simp only
      apply bind_not_out_of_budget _ _ (expect_not_out_of_budget l6 KW_A)
      intro l7 _
      apply bind_not_out_of_budget _ _ (parse_charset_not_out_of_budget l7 [] true)
      rintro ⟨accepts, l8⟩ _
      simp only
      split_ifs <;> simp

theorem parse_not_out_of_budget (file : List Nat) :
    parse file ≠ Except.error ParseError.out_of_budget := by
  unfold parse
  have hp := parse_system_not_out_of_budget (Lexer.start file)
  cases hs : parse_system (Lexer.start file) with
  | error e =>
    rw [hs] at hp
    exact fun h => hp (by cases h; rfl)
  | ok res => simp

/-! ## The claims about the parser -/

/-- C8. Every pairing system that the parser produces satisfies the invariants
of the data model: Sigma is non-empty; neither Sigma nor Gamma contains
Epsilon, and each of their symbols satisfies `is_valid_symbol`; every symbol
of Sigma occurs in Gamma; the three symbols of every rule occur in Gamma; and
every symbol of AcceptSet occurs in Gamma or is Epsilon. -/
theorem parsed_system_invariants (file : List Nat) (sys : PairingSystem)
    (h : parse file = Except.ok sys) :
    sys.sigma ≠ [] ∧
    KW_EPSILON ∉ sys.sigma ∧ KW_EPSILON ∉ sys.gamma ∧
    (∀ c ∈ sys.sigma, is_valid_symbol c = true) ∧
    (∀ c ∈ sys.gamma, is_valid_symbol c = true) ∧
    (∀ c ∈ sys.sigma, c ∈ sys.gamma) ∧
    (∀ r ∈ sys.rules, r.x ∈ sys.gamma ∧ r.y ∈ sys.gamma ∧ r.z ∈ sys.gamma) ∧
    (∀ c ∈ sys.accepts, c ∈ sys.gamma ∨ c = KW_EPSILON) := by
  obtain ⟨l8, hp⟩ := parse_ok file sys h
  obtain ⟨l6, l7, ⟨l4, l5, ⟨l2, l3, ⟨l1, _, h2, hse⟩, _, h4, hsg⟩, _, h6⟩, _, _, hsa⟩ :=
    parse_system_ok _ sys l8 hp
  obtain ⟨news, hs, hsv⟩ := parse_charset_ok l1 [] false sys.sigma l2 h2
  obtain ⟨newg, hg, hgv⟩ := parse_charset_ok l3 [] false sys.gamma l4 h4
  obtain ⟨newr, hr, hrv⟩ := parse_rules_ok l5 [] sys.gamma sys.rules l6 h6
  rw [List.nil_append] at hs hg hr
  subst hs hg hr
  have hvs : ∀ c ∈ sys.sigma, is_valid_symbol c = true := by
    intro c hc
    rcases hsv c hc with hv | ⟨hf, _⟩
    · exact hv
    · cases hf
  have hvg : ∀ c ∈ sys.gamma, is_valid_symbol c = true := by
    intro c hc
    rcases hgv c hc with hv | ⟨hf, _⟩
    · exact hv
    · cases hf
  refine ⟨?_, ?_, ?_, hvs, hvg, ?_, hrv, (is_subset_iff _ _).1 hsa⟩
  · intro hnil
    rw [hnil] at hse
    cases hse
  · intro hmem
    exact is_valid_symbol_ne_epsilon _ (hvs _ hmem) rfl
  · intro hmem
    exact is_valid_symbol_ne_epsilon _ (hvg _ hmem) rfl
  · intro c hc
    rcases (is_subset_iff _ _).1 hsg c hc with hin | heps
    · exact hin
    · exact absurd heps (is_valid_symbol_ne_epsilon c (hvs c hc))

/-- Concrete instance of C8: the description of E1 parses, and its system
has the invariants. -/
theorem parsed_system_invariants_witness :
    parse E1_file = Except.ok (PairingSystem.mk [97, 98] [97, 98, 99] [rule.mk 97 98 99] [99]) ∧
    (([97, 98] : List Int) ≠ [] ∧
      KW_EPSILON ∉ ([97, 98] : List Int) ∧ KW_EPSILON ∉ ([97, 98, 99] : List Int) ∧
      (∀ c ∈ ([97, 98] : List Int), is_valid_symbol c = true) ∧
      (∀ c ∈ ([97, 98, 99] : List Int), is_valid_symbol c = true) ∧
      (∀ c ∈ ([97, 98] : List Int), c ∈ ([97, 98, 99] : List Int)) ∧
      (∀ r ∈ [rule.mk 97 98 99],
        r.x ∈ ([97, 98, 99] : List Int) ∧ r.y ∈ ([97, 98, 99] : List Int) ∧
          r.z ∈ ([97, 98, 99] : List Int)) ∧
      (∀ c ∈ ([99] : List Int), c ∈ ([97, 98, 99] : List Int) ∨ c = KW_EPSILON)) :=
  ⟨by rfl,
    parsed_system_invariants E1_file
      (PairingSystem.mk [97, 98] [97, 98, 99] [rule.mk 97 98 99] [99]) (by rfl)⟩

/-- C9. A description whose sigma and gamma lines are read without a lexical
or syntax error, and whose Gamma lacks a symbol of Sigma, fails with the
diagnostic `gamma must be a superset of sigma`, a SemanticError, and yields
no pairing system; the lexer state `l4` after the gamma line, that is
whatever follows that line, plays no part. -/
theorem gamma_not_superset_fails (file : List Nat) (l1 l2 l3 l4 : Lexer)
    (sigma gamma : List Int)
    (h1 : expect (Lexer.start file) KW_SIGMA = Except.ok l1)
    (h2 : parse_charset l1 [] false = Except.ok (sigma, l2))
    (h3 : expect l2 KW_GAMMA = Except.ok l3)
    (h4 : parse_charset l3 [] false = Except.ok (gamma, l4))
    (hns : ∃ c ∈ sigma, c ∉ gamma) :
    parse file = Except.error ParseError.gamma_not_superset ∧
    ParseError.gamma_not_superset.kind = some ErrorKind.SemanticError ∧
    (∀ sys, parse file ≠ Except.ok sys) := by
  obtain ⟨c, hc, hcg⟩ := hns
  obtain ⟨news, hs, hsv⟩ := parse_charset_ok l1 [] false sigma l2 h2
  rw [List.nil_append] at hs
  subst hs
  have hcv : is_valid_symbol c = true := by
    rcases hsv c hc with hv | ⟨hf, _⟩
    · exact hv
    · cases hf
  have hsub : is_subset sigma gamma = false := by
    cases hb : is_subset sigma gamma with
    | false => rfl
    | true =>
      rcases (is_subset_iff _ _).1 hb c hc with hin | heps
      · exact absurd hin hcg
      · exact absurd heps (is_valid_symbol_ne_epsilon c hcv)
  have hse : sigma.isEmpty = false := by
    cases sigma with
    | nil => exact absurd hc (List.not_mem_nil c)
    | cons a t => rfl
  have hp : parse file = Except.error ParseError.gamma_not_superset :=
    parse_error file _
      (parse_system_not_superset _ sigma l2 l3 gamma l4 ⟨l1, h1, h2, hse⟩ h3 h4 hsub)
  refine ⟨hp, rfl, ?_⟩
  intro sys hok
  rw [hp] at hok
  cases hok

/-- Concrete instance of C9: sigma `a b`, gamma `a c`, then a stray `%`. -/
theorem gamma_not_superset_fails_witness :
    expect (Lexer.start gamma_lacks_b_file) KW_SIGMA
      = Except.ok (Lexer.mk 32 (bytes "a b\n!gamma: a c\n%")) ∧
    parse_charset (Lexer.mk 32 (bytes "a b\n!gamma: a c\n%")) [] false
      = Except.ok ([97, 98], Lexer.mk 32 (bytes "!gamma: a c\n%")) ∧
    expect (Lexer.mk 32 (bytes "!gamma: a c\n%")) KW_GAMMA
      = Except.ok (Lexer.mk 32 (bytes "a c\n%")) ∧
    parse_charset (Lexer.mk 32 (bytes "a c\n%")) [] false
      = Except.ok ([97, 99], Lexer.mk 32 (bytes "%")) ∧
    (∃ c ∈ ([97, 98] : List Int), c ∉ ([97, 99] : List Int)) ∧
    (parse gamma_lacks_b_file = Except.error ParseError.gamma_not_superset ∧
      ParseError.gamma_not_superset.kind = some ErrorKind.SemanticError ∧
      (∀ sys, parse gamma_lacks_b_file ≠ Except.ok sys)) :=
  ⟨by rfl, by rfl, by rfl, by rfl, ⟨98, by decide, by decide⟩,
    gamma_not_superset_fails gamma_lacks_b_file
      (Lexer.mk 32 (bytes "a b\n!gamma: a c\n%")) (Lexer.mk 32 (bytes "!gamma: a c\n%"))
      (Lexer.mk 32 (bytes "a c\n%")) (Lexer.mk 32 (bytes "%")) [97, 98] [97, 99]
      (by rfl) (by rfl) (by rfl) (by rfl) ⟨98, by decide, by decide⟩⟩

/-- C10. The parser enforces the keyword order `!sigma:`, `!gamma:`, `!rules:`,
`!accept:`. A parse that succeeds found the tokens `KW_SIGMA`, `KW_GAMMA`,
`KW_R`, `KW_A`, in that order, at the four places where a section starts; and
at each of these places, if the lexer delivers any other token, the parse
fails with the `expected` diagnostic of that keyword, which is a SyntaxError,
and no pairing system is produced. -/
theorem keyword_order_enforced (file : List Nat) :
    (∀ sys, parse file = Except.ok sys →
      ∃ l1 l2 l3 l4 l5 l6 l7 l8,
        token (Lexer.start file) true = Except.ok (KW_SIGMA, l1) ∧
        parse_charset l1 [] false = Except.ok (sys.sigma, l2) ∧
        token l2 true = Except.ok (KW_GAMMA, l3) ∧
        parse_charset l3 [] false = Except.ok (sys.gamma, l4) ∧
        token l4 true = Except.ok (KW_R, l5) ∧
        parse_rules l5 [] sys.gamma = Except.ok (sys.rules, l6) ∧
        token l6 true = Except.ok (KW_A, l7) ∧
        parse_charset l7 [] true = Except.ok (sys.accepts, l8)) ∧
    (∀ tk l1, token (Lexer.start file) true = Except.ok (tk, l1) → tk ≠ KW_SIGMA →
      parse file = Except.error (ParseError.expected KW_SIGMA)) ∧
    (∀ sigma l2 tk l3, at_gamma (Lexer.start file) sigma l2 →
      token l2 true = Except.ok (tk, l3) → tk ≠ KW_GAMMA →
      parse file = Except.error (ParseError.expected KW_GAMMA)) ∧
    (∀ sigma gamma l4 tk l5, at_rules (Lexer.start file) sigma gamma l4 →
      token l4 true = Except.ok (tk, l5) → tk ≠ KW_R →
      parse file = Except.error (ParseError.expected KW_R)) ∧
    (∀ sigma gamma rules l6 tk l7, at_accept (Lexer.start file) sigma gamma rules l6 →
      token l6 true = Except.ok (tk, l7) → tk ≠ KW_A →
      parse file = Except.error (ParseError.expected KW_A)) ∧
    (∀ kw, (ParseError.expected kw).kind = some ErrorKind.SyntaxError) ∧
    (∀ kw, parse file = Except.error (ParseError.expected kw) →
      ∀ sys, parse file ≠ Except.ok sys) := by
  refine ⟨?_, ?_, ?_, ?_, ?_, fun _ => rfl, ?_⟩
  · intro sys h
    obtain ⟨l8, hp⟩ := parse_ok file sys h
    obtain ⟨l6, l7, ⟨l4, l5, ⟨l2, l3, ⟨l1, h1, h2, _⟩, h3, h4, _⟩, h5, h6⟩, h7, h8, _⟩ :=
      parse_system_ok _ sys l8 hp
    exact ⟨l1, l2, l3, l4, l5, l6, l7, l8, (expect_ok_iff _ _ _).1 h1, h2,
      (expect_ok_iff _ _ _).1 h3, h4, (expect_ok_iff _ _ _).1 h5, h6,
      (expect_ok_iff _ _ _).1 h7, h8⟩
  · intro tk l1 htk hne
    exact parse_error file _ (parse_system_sigma_error _ _ (expect_other _ _ tk l1 htk hne))
  · intro sigma l2 tk l3 hat htk hne
    exact parse_error file _
      (parse_system_gamma_error _ sigma l2 _ hat (expect_other _ _ tk l3 htk hne))
  · intro sigma gamma l4 tk l5 hat htk hne
    exact parse_error file _
      (parse_system_rules_error _ sigma gamma l4 _ hat (expect_other _ _ tk l5 htk hne))
  · intro sigma gamma rules l6 tk l7 hat htk hne
    exact parse_error file _
      (parse_system_accept_error _ sigma gamma rules l6 _ hat (expect_other _ _ tk l7 htk hne))
  · intro kw herr sys hok
    rw [herr] at hok
    cases hok

/-- Concrete instance of C10: the description of E4 goes from the sigma line
straight to `!rules:`; where `!gamma:` is required the lexer delivers `KW_R`,
and the parse fails with `expected '!gamma'`. -/
theorem keyword_order_enforced_witness :
    at_gamma (Lexer.start E4_file) [97]
      (Lexer.mk 32 (bytes "!rules: [a,a -> a].\n!accept: a\n")) ∧
    token (Lexer.mk 32 (bytes "!rules: [a,a -> a].\n!accept: a\n")) true
      = Except.ok (KW_R, Lexer.mk 32 (bytes "[a,a -> a].\n!accept: a\n")) ∧
    KW_R ≠ KW_GAMMA ∧
    parse E4_file = Except.error (ParseError.expected KW_GAMMA) ∧
    (ParseError.expected KW_GAMMA).kind = some ErrorKind.SyntaxError :=
  ⟨⟨Lexer.mk 32 (bytes "a\n!rules: [a,a -> a].\n!accept: a\n"), by rfl, by rfl, by rfl⟩,
    by rfl, by decide,
    (keyword_order_enforced E4_file).2.2.1 [97]
      (Lexer.mk 32 (bytes "!rules: [a,a -> a].\n!accept: a\n")) KW_R
      (Lexer.mk 32 (bytes "[a,a -> a].\n!accept: a\n"))
      ⟨Lexer.mk 32 (bytes "a\n!rules: [a,a -> a].\n!accept: a\n"), by rfl, by rfl, by rfl⟩
      (by rfl) (by decide),
    (keyword_order_enforced E4_file).2.2.2.2.2.1 KW_GAMMA⟩

/-! ## Further lemmas on the engine -/

/-- The position that `select_rule` returns is non-negative exactly when some
rule matches the input somewhere. -/
theorem select_rule_nonneg_iff (input : List Int) (ruleset : List rule) :
    0 ≤ (select_rule input ruleset).position ↔ ∃ r ∈ ruleset, ∃ k, matchesAt input r k := by
  by_cases hlen : input.length < 2
  · have hsel : select_rule input ruleset = { position := -1, c := 0 } := by
      unfold select_rule
      rw [if_pos hlen]
    rw [hsel]
    constructor
    · intro h
      simp only at h
      omega
    · rintro ⟨r, _, k, hk⟩
      have := (matchesAt_length input r k hk).1
      omega
  · have hsel : select_rule input ruleset = select_outer input ruleset := by
      unfold select_rule
      rw [if_neg hlen]
    rw [hsel]
    rcases select_outer_spec input (by omega) ruleset with
      ⟨hall, hres⟩ | ⟨pre, r, post, k, hsplit, _, hk, _, hres⟩
    · rw [hres]
      constructor
      · intro h
        simp only at h
        omega
      · rintro ⟨r, hr, k, hk⟩
        exact absurd hk (hall r hr k)
    · rw [hres]
      constructor
      · intro _
        exact ⟨r, by rw [hsplit]; simp, k, hk⟩
      · intro _
        simp only
        omega

/-- A loop that halted stopped on a string for which `select_rule` returns a
negative position, and applied a step only to strings for which it returns a
position `>= 0`. -/
theorem reduce_loop_halted_trace (rules : List rule) :
    ∀ (budget : Nat) (trace : List (List Int)) (input : List Int) (out : List (List Int))
      (final : List Int),
      reduce_loop rules budget trace input = LoopResult.halted out final →
      ∃ tr, out = trace ++ tr ∧ ¬ 0 ≤ (select_rule final rules).position ∧
        ∀ s ∈ tr, 0 ≤ (select_rule s rules).position := by
  intro budget
  induction budget with
  | zero =>
    intro trace input out final hrun
    by_cases hpos : 0 ≤ (select_rule input rules).position
    · rw [reduce_loop_zero rules trace input hpos] at hrun
      cases hrun
    · rw [reduce_loop_halt rules 0 trace input hpos] at hrun
      cases hrun
      exact ⟨[], by simp, hpos, fun s hs => absurd hs (List.not_mem_nil s)⟩
  | succ b ih =>
    intro trace input out final hrun
    by_cases hpos : 0 ≤ (select_rule input rules).position
    · have hb := select_rule_position_bound input rules hpos
      obtain ⟨next, hnext, _⟩ := rewrite_length input _ hb
      rw [reduce_loop_succ rules b trace input next hpos hnext] at hrun
      obtain ⟨tr, hout, hfin, hall⟩ := ih (trace ++ [input]) next out final hrun
      refine ⟨input :: tr, by rw [hout]; simp, hfin, ?_⟩
      intro s hs
      rcases List.mem_cons.1 hs with heq | hmem
      · rw [heq]; exact hpos
      · exact hall s hmem
    · rw [reduce_loop_halt rules _ trace input hpos] at hrun
      cases hrun
      exact ⟨[], by simp, hpos, fun s hs => absurd hs (List.not_mem_nil s)⟩

/-- A property of symbols that every step keeps is kept by the whole loop. -/
theorem reduce_loop_preserves (rules : List rule) (P : Int → Prop)
    (hstep : ∀ s : List Int, 0 ≤ (select_rule s rules).position →
      P (toChar (select_rule s rules).c)) :
    ∀ (budget : Nat) (trace : List (List Int)) (input : List Int) (out : List (List Int))
      (final : List Int), (∀ c ∈ input, P c) →
      reduce_loop rules budget trace input = LoopResult.halted out final →
      ∃ tr, out = trace ++ tr ∧ (∀ s ∈ tr, ∀ c ∈ s, P c) ∧ ∀ c ∈ final, P c := by
  intro budget
  induction budget with
  | zero =>
    intro trace input out final hin hrun
    by_cases hpos : 0 ≤ (select_rule input rules).position
    · rw [reduce_loop_zero rules trace input hpos] at hrun
      cases hrun
    · rw [reduce_loop_halt rules 0 trace input hpos] at hrun
      cases hrun
      exact ⟨[], by simp, fun s hs => absurd hs (List.not_mem_nil s), hin⟩
  | succ b ih =>
    intro trace input out final hin hrun
    by_cases hpos : 0 ≤ (select_rule input rules).position
    · have hb := select_rule_position_bound input rules hpos
      have hnext := rewrite_eq input _ hb
      rw [reduce_loop_succ rules b trace input _ hpos hnext] at hrun
      have hnin : ∀ c ∈ input.take (select_rule input rules).position.toNat ++
          [toChar (select_rule input rules).c] ++
          input.drop ((select_rule input rules).position.toNat + 2), P c := by
        intro c hc
        rcases List.mem_append.1 hc with h1 | h3
        · rcases List.mem_append.1 h1 with h1 | h2
          · exact hin c (List.mem_of_mem_take h1)
          · rw [List.mem_singleton.1 h2]
            exact hstep input hpos
        · exact hin c (List.mem_of_mem_drop h3)
      obtain ⟨tr, hout, htr, hfin⟩ := ih (trace ++ [input]) _ out final hnin hrun
      refine ⟨input :: tr, by rw [hout]; simp, ?_, hfin⟩
      intro s hs
      rcases List.mem_cons.1 hs with heq | hmem
      · rw [heq]; exact hin
      · exact htr s hmem
    · rw [reduce_loop_halt rules _ trace input hpos] at hrun
      cases hrun
      exact ⟨[], by simp, fun s hs => absurd hs (List.not_mem_nil s), hin⟩


/-! ## Further claims about the engine -/

/-- C14. The engine halts exactly in an irreducible state. For every ruleset
and input the reduction halts; its final working string has length below 2 or
holds no adjacent pair equal to the (left, right) pair of a rule; and every
string of the trace, that is every non-final working string, holds such a
pair. The same is true of the loop under any budget with which it halts. -/
theorem halts_exactly_when_irreducible (rules : List rule) (input : List Int) :
    (∃ trace final, reduce rules input = LoopResult.halted trace final ∧
      (final.length < 2 ∨ ∀ r ∈ rules, ∀ k, ¬ matchesAt final r k) ∧
      (∀ s ∈ trace, ∃ r ∈ rules, ∃ k, matchesAt s r k)) ∧
    (∀ budget trace final, reduce_loop rules budget [] input = LoopResult.halted trace final →
      (final.length < 2 ∨ ∀ r ∈ rules, ∀ k, ¬ matchesAt final r k) ∧
      (∀ s ∈ trace, ∃ r ∈ rules, ∃ k, matchesAt s r k)) := by
  have key : ∀ budget trace final,
      reduce_loop rules budget [] input = LoopResult.halted trace final →
      (final.length < 2 ∨ ∀ r ∈ rules, ∀ k, ¬ matchesAt final r k) ∧
      (∀ s ∈ trace, ∃ r ∈ rules, ∃ k, matchesAt s r k) := by
    intro budget trace final hrun
    obtain ⟨tr, hout, hfin, hall⟩ := reduce_loop_halted_trace rules budget [] input trace final hrun
    rw [List.nil_append] at hout
    subst hout
    constructor
    · right
      intro r hr k hk
      exact hfin ((select_rule_nonneg_iff final rules).2 ⟨r, hr, k, hk⟩)
    · intro s hs
      exact (select_rule_nonneg_iff s rules).1 (hall s hs)
  refine ⟨?_, key⟩
  obtain ⟨trace, final, hrun, _, _⟩ := reduce_halts rules input
  exact ⟨trace, final, hrun, key input.length trace final hrun⟩

/-- Concrete instance of C14: `cab` under `[a,b -> c]`, `[c,c -> c]` goes
through `cab` and `cc`, both reducible, and halts on `c`. -/
theorem halts_exactly_when_irreducible_witness :
    reduce_loop [rule.mk 97 98 99, rule.mk 99 99 99] 2 [] [99, 97, 98]
      = LoopResult.halted [[99, 97, 98], [99, 99]] [99] ∧
    (([99] : List Int).length < 2 ∨
      ∀ r ∈ [rule.mk 97 98 99, rule.mk 99 99 99], ∀ k, ¬ matchesAt [99] r k) ∧
    (∀ s ∈ [[99, 97, 98], [99, 99]],
      ∃ r ∈ [rule.mk 97 98 99, rule.mk 99 99 99], ∃ k, matchesAt s r k) :=
  ⟨by decide,
    (halts_exactly_when_irreducible [rule.mk 97 98 99, rule.mk 99 99 99] [99, 97, 98]).2 2
      [[99, 97, 98], [99, 99]] [99] (by decide)⟩

/-- C18. One reduction step replaces exactly the matched pair. If
`select_rule` returns a position `>= 0` on `s`, then there are a rule
`r = (x, y, z)` of the ruleset and an index `k` with `s[k] = x`, `s[k+1] = y`
such that `select_rule` returned `k` with `z` in its `char` field `c`, and the
next working string is `s[0..k)`, then the single symbol `c`, then `s[k+2..)`;
`c` is `z` itself whenever `z` is a value a `char` can hold. -/
theorem step_replaces_matched_pair (rules : List rule) (s : List Int)
    (h : 0 ≤ (select_rule s rules).position) :
    ∃ r ∈ rules, ∃ k : Nat, matchesAt s r k ∧
      (select_rule s rules).position = (k : Int) ∧
      (select_rule s rules).c = toChar r.z ∧
      (isCharValue r.z → (select_rule s rules).c = r.z) ∧
      rewrite s (select_rule s rules)
        = some (s.take k ++ [(select_rule s rules).c] ++ s.drop (k + 2)) := by
  rcases select_rule_cases s rules with hres | ⟨r, hr, k, hk, hres⟩
  · rw [hres] at h
    simp only at h
    omega
  · refine ⟨r, hr, k, hk, by rw [hres], by rw [hres], ?_, ?_⟩
    · intro hz
      rw [hres, toChar_of_isCharValue r.z hz]
    · have hb := select_rule_position_bound s rules h
      rw [rewrite_eq s _ hb, hres]
      simp only [Int.toNat_ofNat, toChar_toChar]

/-- Concrete instance of C18: on `cab` the rule `[a,b -> c]` is selected at
index 1 and the next string is `c` followed by `c`. -/
theorem step_replaces_matched_pair_witness :
    0 ≤ (select_rule [99, 97, 98] [rule.mk 97 98 99, rule.mk 99 99 99]).position ∧
    rewrite [99, 97, 98] (select_rule [99, 97, 98] [rule.mk 97 98 99, rule.mk 99 99 99])
      = some [99, 99] ∧
    (∃ r ∈ [rule.mk 97 98 99, rule.mk 99 99 99], ∃ k : Nat, matchesAt [99, 97, 98] r k ∧
      (select_rule [99, 97, 98] [rule.mk 97 98 99, rule.mk 99 99 99]).position = (k : Int) ∧
      (select_rule [99, 97, 98] [rule.mk 97 98 99, rule.mk 99 99 99]).c = toChar r.z ∧
      (isCharValue r.z →
        (select_rule [99, 97, 98] [rule.mk 97 98 99, rule.mk 99 99 99]).c = r.z) ∧
      rewrite [99, 97, 98] (select_rule [99, 97, 98] [rule.mk 97 98 99, rule.mk 99 99 99])
        = some (([99, 97, 98] : List Int).take k ++
            [(select_rule [99, 97, 98] [rule.mk 97 98 99, rule.mk 99 99 99]).c] ++
            ([99, 97, 98] : List Int).drop (k + 2))) :=
  ⟨by decide, by decide,
    step_replaces_matched_pair [rule.mk 97 98 99, rule.mk 99 99 99] [99, 97, 98] (by decide)⟩

/-- C20, the code at a failing input. The description with sigma `a`, gamma
`a`, no rule and accept set `!eps` parses. The input made of the one `char`
of value `-7` (the byte `0xF9`) is not empty and not over sigma (the
diagnostic of line 316 is printed), and it is evaluated all the same: no rule
applies, the final working string is that one symbol, and line 340 computes
`result = input[0] = -7`, the value of `KW_EPSILON`, so that the input is
reported Accepted as if it had reduced to the empty string. -/
theorem result_epsilon_for_nonempty_input :
    reduce [] [-7] = LoopResult.halted [] [-7] ∧
    ([-7] : List Int) ≠ [] ∧
    result_of [-7] = KW_EPSILON ∧
    parse epsilon_accept_file = Except.ok (PairingSystem.mk [97] [97] [] [KW_EPSILON]) ∧
    is_alphabet [-7] [97] = false ∧
    evaluate (PairingSystem.mk [97] [97] [] [KW_EPSILON]) [-7]
      = some (Evaluation.mk true [] [-7] true) :=
  ⟨by decide, by decide, by decide, by rfl, by decide, by decide⟩

/-- Reduction never produces the empty string from a non-empty input: the
reduction halts, its final working string is empty exactly when the input is
empty, and every non-empty input ends with a final string of length at least
1. The result symbol of the empty input is Epsilon, and the result symbol of
a non-empty input is the first symbol of its final string, which is not
Epsilon whenever no symbol of that string has the value of `KW_EPSILON`. -/
theorem final_empty_iff_input_empty (rules : List rule) (input : List Int) :
    ∃ trace final, reduce rules input = LoopResult.halted trace final ∧
      (final = [] ↔ input = []) ∧
      (input ≠ [] → 1 ≤ final.length) ∧
      (input = [] → result_of final = KW_EPSILON) ∧
      (input ≠ [] → result_of final = final.getD 0 0) ∧
      (input ≠ [] → (∀ c ∈ final, c ≠ KW_EPSILON) → result_of final ≠ KW_EPSILON) := by
  obtain ⟨trace, final, hrun, hsum, hne⟩ := reduce_halts rules input
  have hiff : final = [] ↔ input = [] := by
    constructor
    · intro hf
      by_contra hin
      exact hne hin hf
    · intro hin
      rw [hin] at hsum
      simp only [List.length_nil] at hsum
      exact List.length_eq_zero.1 (by omega)
  refine ⟨trace, final, hrun, hiff, ?_, ?_, ?_, ?_⟩
  · intro hin
    exact List.length_pos.2 (hne hin)
  · intro hin
    rw [hiff.2 hin]
    rfl
  · intro hin
    unfold result_of
    rw [if_neg (hne hin)]
  · intro hin hall
    unfold result_of
    rw [if_neg (hne hin)]
    cases hf : final with
    | nil => exact absurd hf (hne hin)
    | cons a t =>
      simp only [List.getD_cons_zero]
      exact hall a (by rw [hf]; simp)

/-- On a concrete input: `ab` under `[a,b -> c]` ends as `c`, and the empty
input stays empty. -/
theorem final_empty_iff_input_empty_witness :
    reduce [rule.mk 97 98 99] [97, 98] = LoopResult.halted [[97, 98]] [99] ∧
    reduce [rule.mk 97 98 99] [] = LoopResult.halted [] [] ∧
    (∃ trace final, reduce [rule.mk 97 98 99] [97, 98] = LoopResult.halted trace final ∧
      (final = [] ↔ ([97, 98] : List Int) = []) ∧
      (([97, 98] : List Int) ≠ [] → 1 ≤ final.length) ∧
      (([97, 98] : List Int) = [] → result_of final = KW_EPSILON) ∧
      (([97, 98] : List Int) ≠ [] → result_of final = final.getD 0 0) ∧
      (([97, 98] : List Int) ≠ [] → (∀ c ∈ final, c ≠ KW_EPSILON) →
        result_of final ≠ KW_EPSILON)) :=
  ⟨by decide, by decide, final_empty_iff_input_empty [rule.mk 97 98 99] [97, 98]⟩


/-! ## Further lemmas on parsed systems -/

/-- What the checks of the parser leave true of a parsed system. -/
theorem parse_facts (file : List Nat) (sys : PairingSystem) (h : parse file = Except.ok sys) :
    (∀ c ∈ sys.sigma, is_valid_symbol c = true) ∧
    (∀ c ∈ sys.gamma, is_valid_symbol c = true) ∧
    is_subset sys.sigma sys.gamma = true ∧
    (∀ r ∈ sys.rules, r.x ∈ sys.gamma ∧ r.y ∈ sys.gamma ∧ r.z ∈ sys.gamma) ∧
    is_subset sys.accepts sys.gamma = true := by
  obtain ⟨l8, hp⟩ := parse_ok file sys h
  obtain ⟨l6, l7, ⟨l4, l5, ⟨l2, l3, ⟨l1, _, h2, _⟩, _, h4, hsg⟩, _, h6⟩, _, _, hsa⟩ :=
    parse_system_ok _ sys l8 hp
  obtain ⟨news, hs, hsv⟩ := parse_charset_ok l1 [] false sys.sigma l2 h2
  obtain ⟨newg, hg, hgv⟩ := parse_charset_ok l3 [] false sys.gamma l4 h4
  obtain ⟨newr, hr, hrv⟩ := parse_rules_ok l5 [] sys.gamma sys.rules l6 h6
  rw [List.nil_append] at hs hg hr
  subst hs hg hr
  refine ⟨?_, ?_, hsg, hrv, hsa⟩
  · intro c hc
    rcases hsv c hc with hv | ⟨hf, _⟩
    · exact hv
    · cases hf
  · intro c hc
    rcases hgv c hc with hv | ⟨hf, _⟩
    · exact hv
    · cases hf

theorem is_valid_symbol_isCharValue (c : Int) (h : is_valid_symbol c = true) :
    isCharValue c := by
  unfold is_valid_symbol isalnum isalpha isupper islower isdigit at h
  simp at h
  unfold isCharValue
  omega

theorem is_alphabet_iff (s sigma : List Int) :
    is_alphabet s sigma = true ↔ ∀ c ∈ s, c ∈ sigma := by
  unfold is_alphabet
  simp

/-! ## Claims about the engine on parsed systems -/

/-- C19. Reduction stays inside Gamma. For every successfully parsed pairing
system and every input string over Sigma, the evaluation yields a trace and a
final string, and every working string of the trace and the final string
consist of symbols of Gamma only; so none of their symbols is Epsilon and each
satisfies `is_valid_symbol`. -/
theorem reduction_stays_in_gamma (file : List Nat) (sys : PairingSystem) (input : List Int)
    (hparse : parse file = Except.ok sys) (hin : is_alphabet input sys.sigma = true) :
    ∃ ev, evaluate sys input = some ev ∧
      (∀ s ∈ ev.trace, ∀ c ∈ s, c ∈ sys.gamma) ∧
      (∀ c ∈ ev.final, c ∈ sys.gamma) ∧
      (∀ s ∈ ev.trace ++ [ev.final], ∀ c ∈ s, c ≠ KW_EPSILON ∧ is_valid_symbol c = true) := by
  obtain ⟨_, hgv, hsg, hrv, _⟩ := parse_facts file sys hparse
  obtain ⟨trace, final, hrun, _, _⟩ := reduce_halts sys.rules input
  have hstep : ∀ s : List Int, 0 ≤ (select_rule s sys.rules).position →
      toChar (select_rule s sys.rules).c ∈ sys.gamma := by
    intro s hpos
    rcases select_rule_cases s sys.rules with hres | ⟨r, hr, k, _, hres⟩
    · rw [hres] at hpos
      simp only at hpos
      omega
    · rw [hres]
      simp only [toChar_toChar]
      have hz := (hrv r hr).2.2
      rw [toChar_of_isCharValue r.z (is_valid_symbol_isCharValue r.z (hgv r.z hz))]
      exact hz
  have hinput : ∀ c ∈ input, c ∈ sys.gamma := by
    intro c hc
    have hcs := (is_alphabet_iff input sys.sigma).1 hin c hc
    rcases (is_subset_iff _ _).1 hsg c hcs with hg | heps
    · exact hg
    · obtain ⟨hsv, _⟩ := parse_facts file sys hparse
      exact absurd heps (is_valid_symbol_ne_epsilon c (hsv c hcs))
  obtain ⟨tr, hout, htr, hfin⟩ :=
    reduce_loop_preserves sys.rules (fun c => c ∈ sys.gamma) hstep input.length [] input
      trace final hinput hrun
  rw [List.nil_append] at hout
  subst hout
  refine ⟨_, evaluate_eq sys input trace final hrun, htr, hfin, ?_⟩
  intro s hs c hc
  have hcg : c ∈ sys.gamma := by
    rcases List.mem_append.1 hs with h1 | h2
    · exact htr s h1 c hc
    · rw [List.mem_singleton.1 h2] at hc
      exact hfin c hc
  exact ⟨is_valid_symbol_ne_epsilon c (hgv c hcg), hgv c hcg⟩

/-- Concrete instance of C19: the system of E1 and the input `ab`. -/
theorem reduction_stays_in_gamma_witness :
    parse E1_file = Except.ok (PairingSystem.mk [97, 98] [97, 98, 99] [rule.mk 97 98 99] [99]) ∧
    is_alphabet [97, 98] [97, 98] = true ∧
    evaluate (PairingSystem.mk [97, 98] [97, 98, 99] [rule.mk 97 98 99] [99]) [97, 98]
      = some (Evaluation.mk false [[97, 98]] [99] true) ∧
    (∃ ev, evaluate (PairingSystem.mk [97, 98] [97, 98, 99] [rule.mk 97 98 99] [99]) [97, 98]
        = some ev ∧
      (∀ s ∈ ev.trace, ∀ c ∈ s, c ∈ ([97, 98, 99] : List Int)) ∧
      (∀ c ∈ ev.final, c ∈ ([97, 98, 99] : List Int)) ∧
      (∀ s ∈ ev.trace ++ [ev.final], ∀ c ∈ s,
        c ≠ KW_EPSILON ∧ is_valid_symbol c = true)) :=
  ⟨by rfl, by decide, by decide,
    reduction_stays_in_gamma E1_file
      (PairingSystem.mk [97, 98] [97, 98, 99] [rule.mk 97 98 99] [99]) [97, 98]
      (by rfl) (by decide)⟩


theorem parse_system_accept_not_subset (l : Lexer) (sigma gamma : List Int)
    (rules : List rule) (l6 l7 : Lexer) (accepts : List Int) (l8 : Lexer)
    (hat : at_accept l sigma gamma rules l6) (h7 : expect l6 KW_A = Except.ok l7)
    (h8 : parse_charset l7 [] true = Except.ok (accepts, l8))
    (hsub : is_subset accepts gamma = false) :
    parse_system l = Except.error ParseError.accept_not_subset := by
  obtain ⟨l4, l5, ⟨l2, l3, ⟨l1, h1, h2, hse⟩, h3, h4, hsg⟩, h5, h6⟩ := hat
  unfold parse_system
  rw [h1, ok_bind, h2, ok_bind]
  simp only [hse, Bool.false_eq_true, if_false]
  rw [h3, ok_bind, h4, ok_bind]
  simp only [hsg, Bool.not_true, Bool.false_eq_true, if_false]
  rw [h5, ok_bind, h6, ok_bind]
  simp only
  rw [h7, ok_bind, h8, ok_bind]
  simp only [hsub, Bool.not_false, if_true]

/-- C17. `is_subset` treats Epsilon as always present in the candidate
superset: `is_subset(A, B)` is true exactly when every element of `A` occurs
in `B` or is `KW_EPSILON`, and listing `KW_EPSILON` in `B` changes nothing.
The parser uses this one check twice: a parse that succeeds passed it for
Sigma within Gamma and for AcceptSet within Gamma, and a parse that comes to
either check and does not pass it ends with the diagnostic of that check. -/
theorem is_subset_epsilon_always_present (A B : List Int) :
    (is_subset A B = true ↔ ∀ c ∈ A, c ∈ B ∨ c = KW_EPSILON) ∧
    is_subset A (KW_EPSILON :: B) = is_subset A B ∧
    is_subset [KW_EPSILON] [] = true ∧
    (∀ file sys, parse file = Except.ok sys →
      is_subset sys.sigma sys.gamma = true ∧ is_subset sys.accepts sys.gamma = true) ∧
    (∀ file sigma l2 l3 gamma l4, at_gamma (Lexer.start file) sigma l2 →
      expect l2 KW_GAMMA = Except.ok l3 →
      parse_charset l3 [] false = Except.ok (gamma, l4) →
      is_subset sigma gamma = false →
      parse file = Except.error ParseError.gamma_not_superset) ∧
    (∀ file sigma gamma rules l6 l7 accepts l8,
      at_accept (Lexer.start file) sigma gamma rules l6 →
      expect l6 KW_A = Except.ok l7 →
      parse_charset l7 [] true = Except.ok (accepts, l8) →
      is_subset accepts gamma = false →
      parse file = Except.error ParseError.accept_not_subset) := by
  refine ⟨is_subset_iff A B, ?_, by decide, ?_, ?_, ?_⟩
  · rw [Bool.eq_iff_iff, is_subset_iff, is_subset_iff]
    constructor
    · intro h c hc
      rcases h c hc with hin | heps
      · rcases List.mem_cons.1 hin with heq | hmem
        · exact Or.inr heq
        · exact Or.inl hmem
      · exact Or.inr heps
    · intro h c hc
      rcases h c hc with hin | heps
      · exact Or.inl (List.mem_cons_of_mem _ hin)
      · exact Or.inr heps
  · intro file sys hparse
    obtain ⟨_, _, hsg, _, hsa⟩ := parse_facts file sys hparse
    exact ⟨hsg, hsa⟩
  · intro file sigma l2 l3 gamma l4 hat h3 h4 hsub
    exact parse_error file _ (parse_system_not_superset _ sigma l2 l3 gamma l4 hat h3 h4 hsub)
  · intro file sigma gamma rules l6 l7 accepts l8 hat h7 h8 hsub
    exact parse_error file _
      (parse_system_accept_not_subset _ sigma gamma rules l6 l7 accepts l8 hat h7 h8 hsub)

/-- Concrete instance of C17: the description of E1 passed both checks, and
an accept set `!eps c` is within the gamma `a b c`. -/
theorem is_subset_epsilon_always_present_witness :
    parse E1_file = Except.ok (PairingSystem.mk [97, 98] [97, 98, 99] [rule.mk 97 98 99] [99]) ∧
    is_subset [KW_EPSILON, 99] [97, 98, 99] = true ∧
    (is_subset [97, 98] [97, 98, 99] = true ∧ is_subset [99] [97, 98, 99] = true) :=
  ⟨by rfl, by decide,
    (is_subset_epsilon_always_present [KW_EPSILON, 99] [97, 98, 99]).2.2.2.1 E1_file
      (PairingSystem.mk [97, 98] [97, 98, 99] [rule.mk 97 98 99] [99]) (by rfl)⟩


/-! ## Evaluating the lexer -/

/-- One unfolding of `token`. -/
theorem token_unfold (l : Lexer) (ignore_linefeed : Bool) :
    token l ignore_linefeed =
      if ignore_linefeed = false ∧ (skip_blanks l ignore_linefeed).lastToken = 10 then
        Except.ok (10, { skip_blanks l ignore_linefeed with lastToken := 32 })
      else if (skip_blanks l ignore_linefeed).lastToken = 35 then
        token_rec (l.fp.length + 1) (skip_comment (skip_blanks l ignore_linefeed)) ignore_linefeed
      else if (skip_blanks l ignore_linefeed).lastToken = EOF then
        Except.ok (KW_EOF, skip_blanks l ignore_linefeed)
      else if (skip_blanks l ignore_linefeed).lastToken = 45 then
        read_arrow (skip_blanks l ignore_linefeed)
      else if (skip_blanks l ignore_linefeed).lastToken = 33 then
        read_keyword (skip_blanks l ignore_linefeed)
      else Except.ok ((skip_blanks l ignore_linefeed).lastToken,
        fgetc_store (skip_blanks l ignore_linefeed)) := rfl

/-- The result of `token_rec` does not depend on the budget once the budget
is above the number of pending characters. -/
theorem token_rec_budget_indep :
    ∀ (n m : Nat) (l : Lexer) (ignore_linefeed : Bool), l.pending + 1 ≤ n → l.pending + 1 ≤ m →
      token_rec n l ignore_linefeed = token_rec m l ignore_linefeed := by
  intro n
  induction n with
  | zero =>
    intro m l ign hn _
    omega
  | succ n ih =>
    intro m l ign hn hm
    obtain ⟨m1, rfl⟩ : ∃ m1, m = m1 + 1 := ⟨m - 1, by omega⟩
    rw [token_rec, token_rec]
    have hb := skip_blanks_pending_le l ign
    by_cases hnl : ign = false ∧ (skip_blanks l ign).lastToken = 10
    · rw [if_pos hnl, if_pos hnl]
    · rw [if_neg hnl, if_neg hnl]
      by_cases hc : (skip_blanks l ign).lastToken = 35
      · rw [if_pos hc, if_pos hc]
        have hlt := skip_comment_pending_lt (skip_blanks l ign) (by rw [hc]; decide)
        exact ih m1 _ ign (by omega) (by omega)
      · rw [if_neg hc, if_neg hc]

/-- After a comment `token` goes on as a fresh call of itself would. -/
theorem token_rec_after_comment (l : Lexer) (ignore_linefeed : Bool)
    (h : (skip_blanks l ignore_linefeed).lastToken = 35) :
    token_rec (l.fp.length + 1) (skip_comment (skip_blanks l ignore_linefeed)) ignore_linefeed
      = token (skip_comment (skip_blanks l ignore_linefeed)) ignore_linefeed := by
  unfold token
  have hb := skip_blanks_pending_le l ignore_linefeed
  have hlt := skip_comment_pending_lt (skip_blanks l ignore_linefeed) (by rw [h]; decide)
  have hp := pending_le l
  have hp2 := pending_le (skip_comment (skip_blanks l ignore_linefeed))
  exact token_rec_budget_indep _ _ _ _ (by omega) (by omega)

/-- Two lexer states that the white-space loop takes to the same state yield
the same token. -/
theorem token_congr (l l1 : Lexer) (ignore_linefeed : Bool)
    (h : skip_blanks l ignore_linefeed = skip_blanks l1 ignore_linefeed) :
    token l ignore_linefeed = token l1 ignore_linefeed := by
  rw [token_unfold l, token_unfold l1]
  by_cases hc : (skip_blanks l ignore_linefeed).lastToken = 35
  · have hc1 : (skip_blanks l1 ignore_linefeed).lastToken = 35 := by rw [← h]; exact hc
    rw [token_rec_after_comment l ignore_linefeed hc,
      token_rec_after_comment l1 ignore_linefeed hc1, h]
  · have hc1 : ¬ (skip_blanks l1 ignore_linefeed).lastToken = 35 := by rw [← h]; exact hc
    rw [h]
    simp only [if_neg hc1]


theorem fgetc_store_eq_facing (l : Lexer) : fgetc_store l = Lexer.facing l.fp := by
  unfold Lexer.facing fgetc_store
  rfl

theorem facing_nil : Lexer.facing [] = { lastToken := EOF, fp := [] } := by
  decide

theorem facing_cons (b : Nat) (text : List Nat) (hb : b < 128) :
    Lexer.facing (b :: text) = { lastToken := (b : Int), fp := text } := by
  unfold Lexer.facing fgetc_store
  simp only [Lexer.mk.injEq, and_true]
  unfold toChar
  omega

theorem skip_while_idle (p : Int → Bool) (n : Nat) (l : Lexer) (h : p l.lastToken = false) :
    skip_while p n l = l := by
  cases n with
  | zero => rfl
  | succ n =>
    rw [skip_while]
    simp only [h, Bool.false_eq_true, if_false]

theorem skip_while_step (p : Int → Bool) (hp : p EOF = false) (l : Lexer)
    (h : p l.lastToken = true) :
    skip_while p (l.fp.length + 1) l
      = skip_while p ((fgetc_store l).fp.length + 1) (fgetc_store l) := by
  rw [skip_while, if_pos h]
  cases hfp : l.fp with
  | nil =>
    have hs : fgetc_store l = { lastToken := EOF, fp := [] } := by
      rw [fgetc_store_eq_facing, hfp, facing_nil]
    rw [hs]
    simp only [List.length_nil]
    rw [skip_while_idle p 0 _ hp, skip_while_idle p (0 + 1) _ hp]
  | cons b rest =>
    have hl : (fgetc_store l).fp.length + 1 = (b :: rest).length := by
      rw [fgetc_store_length, hfp]
      simp
    rw [hl]

theorem skip_blanks_idle (l : Lexer) (ignore_linefeed : Bool)
    (h : is_blank l.lastToken ignore_linefeed = false) : skip_blanks l ignore_linefeed = l := by
  unfold skip_blanks
  unfold is_blank at h
  cases ignore_linefeed with
  | true =>
    simp only [if_true] at h ⊢
    exact skip_while_idle _ _ _ h
  | false =>
    simp only [Bool.false_eq_true, if_false] at h ⊢
    exact skip_while_idle _ _ _ h

theorem skip_blanks_step (l : Lexer) (ignore_linefeed : Bool)
    (h : is_blank l.lastToken ignore_linefeed = true) :
    skip_blanks l ignore_linefeed = skip_blanks (fgetc_store l) ignore_linefeed := by
  unfold skip_blanks
  unfold is_blank at h
  cases ignore_linefeed with
  | true =>
    simp only [if_true] at h ⊢
    exact skip_while_step _ (by decide) l h
  | false =>
    simp only [Bool.false_eq_true, if_false] at h ⊢
    exact skip_while_step _ (by decide) l h

/-- A white-space character in `lastToken` is passed over. -/
theorem token_skip (l : Lexer) (ignore_linefeed : Bool)
    (h : is_blank l.lastToken ignore_linefeed = true) :
    token l ignore_linefeed = token (Lexer.facing l.fp) ignore_linefeed := by
  rw [← fgetc_store_eq_facing]
  exact token_congr l (fgetc_store l) ignore_linefeed (skip_blanks_step l ignore_linefeed h)

/-- A character that is neither white space nor one of `'\n'` (when line ends
are tokens), `'#'`, `EOF`, `'-'`, `'!'` is returned as it stands. -/
theorem token_plain (l : Lexer) (ignore_linefeed : Bool)
    (hb : is_blank l.lastToken ignore_linefeed = false)
    (hnl : ignore_linefeed = true ∨ l.lastToken ≠ 10)
    (h1 : l.lastToken ≠ 35) (h2 : l.lastToken ≠ EOF) (h3 : l.lastToken ≠ 45)
    (h4 : l.lastToken ≠ 33) :
    token l ignore_linefeed = Except.ok (l.lastToken, Lexer.facing l.fp) := by
  rw [token_unfold, skip_blanks_idle l ignore_linefeed hb, ← fgetc_store_eq_facing]
  have h0 : ¬ (ignore_linefeed = false ∧ l.lastToken = 10) := by
    rintro ⟨hf, hten⟩
    rcases hnl with ht | hne
    · rw [hf] at ht
      cases ht
    · exact hne hten
  rw [if_neg h0, if_neg h1, if_neg h2, if_neg h3, if_neg h4]

theorem token_newline (l : Lexer) (h : l.lastToken = 10) :
    token l false = Except.ok (10, { lastToken := 32, fp := l.fp }) := by
  have hb : is_blank l.lastToken false = false := by rw [h]; decide
  rw [token_unfold, skip_blanks_idle l false hb, if_pos ⟨rfl, h⟩]

theorem token_minus (l : Lexer) (ignore_linefeed : Bool) (h : l.lastToken = 45) :
    token l ignore_linefeed = read_arrow l := by
  have hb : is_blank l.lastToken ignore_linefeed = false := by
    rw [h]
    cases ignore_linefeed <;> decide
  rw [token_unfold, skip_blanks_idle l ignore_linefeed hb]
  rw [if_neg (fun hh => absurd (h.symm.trans hh.2) (by decide)),
    if_neg (by rw [h]; decide), if_neg (by rw [h]; decide), if_pos h]

theorem token_bang (l : Lexer) (ignore_linefeed : Bool) (h : l.lastToken = 33) :
    token l ignore_linefeed = read_keyword l := by
  have hb : is_blank l.lastToken ignore_linefeed = false := by
    rw [h]
    cases ignore_linefeed <;> decide
  rw [token_unfold, skip_blanks_idle l ignore_linefeed hb]
  rw [if_neg (fun hh => absurd (h.symm.trans hh.2) (by decide)),
    if_neg (by rw [h]; decide), if_neg (by rw [h]; decide),
    if_neg (by rw [h]; decide), if_pos h]

theorem token_start (text : List Nat) (ignore_linefeed : Bool) :
    token { lastToken := 32, fp := text } ignore_linefeed
      = token (Lexer.facing text) ignore_linefeed :=
  by
  have h : is_blank (32 : Int) ignore_linefeed = true := by
    cases ignore_linefeed <;> decide
  exact token_skip { lastToken := 32, fp := text } ignore_linefeed h

theorem token_facing_space (text : List Nat) (ignore_linefeed : Bool) :
    token (Lexer.facing (32 :: text)) ignore_linefeed
      = token (Lexer.facing text) ignore_linefeed := by
  rw [facing_cons 32 text (by decide)]
  exact token_start text ignore_linefeed

theorem token_facing_linefeed_ignored (text : List Nat) :
    token (Lexer.facing (10 :: text)) true = token (Lexer.facing text) true := by
  rw [facing_cons 10 text (by decide)]
  have h : is_blank ((10 : Nat) : Int) true = true := by decide
  exact token_skip { lastToken := ((10 : Nat) : Int), fp := text } true h

theorem token_facing_linefeed (text : List Nat) :
    token (Lexer.facing (10 :: text)) false
      = Except.ok (10, { lastToken := 32, fp := text }) := by
  rw [facing_cons 10 text (by decide)]
  exact token_newline { lastToken := ((10 : Nat) : Int), fp := text } rfl

theorem plain_byte_spec (b : Nat) (h : plain_byte b = true) :
    b < 128 ∧ b ≠ 32 ∧ ¬ (9 ≤ b ∧ b ≤ 13) ∧ b ≠ 33 ∧ b ≠ 35 ∧ b ≠ 45 := by
  unfold plain_byte at h
  simp only [Bool.and_eq_true, decide_eq_true_eq, Bool.not_eq_true', Bool.or_eq_false_iff,
    decide_eq_false_iff_not] at h
  obtain ⟨⟨h1, h2, h3⟩, ⟨h4, h5⟩, h6⟩ := h
  exact ⟨h1, h2, h3, h4, h5, h6⟩

theorem token_facing_plain (b : Nat) (text : List Nat) (ignore_linefeed : Bool)
    (hb : plain_byte b = true) :
    token (Lexer.facing (b :: text)) ignore_linefeed
      = Except.ok ((b : Int), Lexer.facing text) := by
  obtain ⟨h1, h2, h3, h4, h5, h6⟩ := plain_byte_spec b hb
  rw [facing_cons b text h1]
  have hsp : isspace (b : Int) = false := by
    unfold isspace
    simp only [decide_eq_false_iff_not]
    omega
  have hbl : is_blank (b : Int) ignore_linefeed = false := by
    unfold is_blank
    cases ignore_linefeed with
    | true => simpa using hsp
    | false => simp [hsp]
  exact token_plain { lastToken := (b : Int), fp := text } ignore_linefeed hbl
    (Or.inr (by simp only; omega)) (by simp only; omega) (by simp only [EOF]; omega)
    (by simp only; omega) (by simp only; omega)

theorem token_facing_arrow (text : List Nat) (ignore_linefeed : Bool) :
    token (Lexer.facing (45 :: 62 :: text)) ignore_linefeed
      = Except.ok (KW_ARROW, { lastToken := 32, fp := text }) := by
  rw [facing_cons 45 _ (by decide), token_minus _ _ rfl]
  unfold read_arrow
  rw [fgetc_store_eq_facing]
  simp only
  rw [facing_cons 62 text (by decide)]
  simp

/-- The keyword loop reads a word of letters up to the first character
that is not a letter. -/
theorem read_kw_word :
    ∀ (word : List Nat) (n : Nat) (text : List Nat) (kw : List Int),
      (∀ b ∈ word, b < 128 ∧ isalpha (b : Int) = true) → word.length ≤ n →
      isalpha (Lexer.facing text).lastToken = false →
      read_kw n (Lexer.facing (word ++ text)) kw
        = (Lexer.facing text, kw ++ word.map Int.ofNat) := by
  intro word
  induction word with
  | nil =>
    intro n text kw _ _ hstop
    simp only [List.nil_append, List.map_nil, List.append_nil]
    cases n with
    | zero => rfl
    | succ n =>
      rw [read_kw]
      simp only [hstop, Bool.false_eq_true, if_false]
  | cons b w ih =>
    intro n text kw hw hn hstop
    obtain ⟨m, rfl⟩ : ∃ m, n = m + 1 := ⟨n - 1, by simp only [List.length_cons] at hn; omega⟩
    have hb := hw b (List.mem_cons_self b w)
    rw [List.cons_append, facing_cons b _ hb.1, read_kw]
    simp only [hb.2, if_true]
    rw [fgetc_store_eq_facing]
    simp only
    rw [ih m text _ (fun c hc => hw c (List.mem_cons_of_mem b hc))
      (by simp only [List.length_cons] at hn; omega) hstop]
    simp

theorem read_keyword_word (word : List Nat) (text : List Nat)
    (hw : ∀ b ∈ word, b < 128 ∧ isalpha (b : Int) = true)
    (hstop : isalpha (Lexer.facing text).lastToken = false) :
    read_kw ((word ++ text).length + 1) (fgetc_store { lastToken := 33, fp := word ++ text }) []
      = (Lexer.facing text, word.map Int.ofNat) := by
  rw [fgetc_store_eq_facing]
  simp only
  rw [read_kw_word word _ text [] hw (by simp; omega) hstop]
  simp

theorem token_facing_eps (text : List Nat) (ignore_linefeed : Bool)
    (hstop : isalpha (Lexer.facing text).lastToken = false) :
    token (Lexer.facing (33 :: 101 :: 112 :: 115 :: text)) ignore_linefeed
      = Except.ok (KW_EPSILON, Lexer.facing text) := by
  rw [facing_cons 33 _ (by decide), token_bang _ _ rfl]
  unfold read_keyword
  have h := read_keyword_word [101, 112, 115] text (by decide) hstop
  simp only [List.cons_append, List.nil_append] at h
  simp only [Nat.cast_ofNat]
  rw [h]
  simp [str_eps]


theorem facing_colon (text : List Nat) :
    Lexer.facing (58 :: text) = { lastToken := 58, fp := text } :=
  facing_cons 58 text (by decide)

theorem token_facing_sigma (text : List Nat) (ignore_linefeed : Bool) :
    token (Lexer.facing (33 :: 115 :: 105 :: 103 :: 109 :: 97 :: 58 :: text)) ignore_linefeed
      = Except.ok (KW_SIGMA, Lexer.facing text) := by
  rw [facing_cons 33 _ (by decide), token_bang _ _ rfl]
  unfold read_keyword
  have h := read_keyword_word [115, 105, 103, 109, 97] (58 :: text) (by decide)
    (by rw [facing_colon]; rfl)
  simp only [List.cons_append, List.nil_append] at h
  simp only [Nat.cast_ofNat]
  rw [h, facing_colon, fgetc_store_eq_facing]
  simp [str_eps, str_sigma]

theorem token_facing_gamma (text : List Nat) (ignore_linefeed : Bool) :
    token (Lexer.facing (33 :: 103 :: 97 :: 109 :: 109 :: 97 :: 58 :: text)) ignore_linefeed
      = Except.ok (KW_GAMMA, Lexer.facing text) := by
  rw [facing_cons 33 _ (by decide), token_bang _ _ rfl]
  unfold read_keyword
  have h := read_keyword_word [103, 97, 109, 109, 97] (58 :: text) (by decide)
    (by rw [facing_colon]; rfl)
  simp only [List.cons_append, List.nil_append] at h
  simp only [Nat.cast_ofNat]
  rw [h, facing_colon, fgetc_store_eq_facing]
  simp [str_eps, str_sigma, str_gamma]

theorem token_facing_rules (text : List Nat) (ignore_linefeed : Bool) :
    token (Lexer.facing (33 :: 114 :: 117 :: 108 :: 101 :: 115 :: 58 :: text)) ignore_linefeed
      = Except.ok (KW_R, Lexer.facing text) := by
  rw [facing_cons 33 _ (by decide), token_bang _ _ rfl]
  unfold read_keyword
  have h := read_keyword_word [114, 117, 108, 101, 115] (58 :: text) (by decide)
    (by rw [facing_colon]; rfl)
  simp only [List.cons_append, List.nil_append] at h
  simp only [Nat.cast_ofNat]
  rw [h, facing_colon, fgetc_store_eq_facing]
  simp [str_eps, str_sigma, str_gamma, str_rules]

theorem token_facing_accept (text : List Nat) (ignore_linefeed : Bool) :
    token (Lexer.facing (33 :: 97 :: 99 :: 99 :: 101 :: 112 :: 116 :: 58 :: text))
      ignore_linefeed = Except.ok (KW_A, Lexer.facing text) := by
  rw [facing_cons 33 _ (by decide), token_bang _ _ rfl]
  unfold read_keyword
  have h := read_keyword_word [97, 99, 99, 101, 112, 116] (58 :: text) (by decide)
    (by rw [facing_colon]; rfl)
  simp only [List.cons_append, List.nil_append] at h
  simp only [Nat.cast_ofNat]
  rw [h, facing_colon, fgetc_store_eq_facing]
  simp [str_eps, str_sigma, str_gamma, str_rules, str_accept]


/-! ## Comments -/

theorem valid_symbol_plain (c : Int) (hv : is_valid_symbol c = true) (hm : c ≠ 45) :
    plain_byte c.toNat = true ∧ ((c.toNat : Nat) : Int) = c := by
  have h40 := is_valid_symbol_pos c hv
  have hch := is_valid_symbol_isCharValue c hv
  unfold isCharValue at hch
  have hcast : ((c.toNat : Nat) : Int) = c := Int.toNat_of_nonneg (by omega)
  refine ⟨?_, hcast⟩
  unfold plain_byte
  simp only [Bool.and_eq_true, decide_eq_true_eq, Bool.not_eq_true', Bool.or_eq_false_iff,
    decide_eq_false_iff_not]
  omega

/-- An allowed symbol character other than `'-'` is returned as it stands. -/
theorem token_facing_symbol (c : Int) (text : List Nat) (ignore_linefeed : Bool)
    (hv : is_valid_symbol c = true) (hm : c ≠ 45) :
    token (Lexer.facing (c.toNat :: text)) ignore_linefeed
      = Except.ok (c, Lexer.facing text) := by
  obtain ⟨hp, hcast⟩ := valid_symbol_plain c hv hm
  rw [token_facing_plain c.toNat text ignore_linefeed hp, hcast]

theorem expect_of_token (l : Lexer) (expected : Int) (l1 : Lexer)
    (h : token l true = Except.ok (expected, l1)) : expect l expected = Except.ok l1 :=
  (expect_ok_iff l expected l1).2 h

/-- One turn of the loop of `parse_rules` on a rule written `[x,y -> z]`, the
`[` already read: the rule is appended and the loop goes on with the token
that follows the `]`. -/
theorem parse_rules_loop_rule (gamma : List Int) (n : Nat) (x y z : Int) (text : List Nat)
    (ruleset : List rule) (symbol1 : Int) (l7 : Lexer)
    (hx : is_valid_symbol x = true ∧ x ≠ 45 ∧ x ∈ gamma)
    (hy : is_valid_symbol y = true ∧ y ≠ 45 ∧ y ∈ gamma)
    (hz : is_valid_symbol z = true ∧ z ≠ 45 ∧ z ∈ gamma)
    (hnext : token (Lexer.facing text) true = Except.ok (symbol1, l7)) :
    parse_rules_loop gamma (n + 1)
        (Lexer.facing (x.toNat :: 44 :: y.toNat :: 32 :: 45 :: 62 :: 32 :: z.toNat :: 93 :: text))
        ruleset 91
      = parse_rules_loop gamma n l7 (ruleset ++ [rule.mk x y z]) symbol1 := by
  have hgx : gamma.contains x = true := by simpa using hx.2.2
  have hgy : gamma.contains y = true := by simpa using hy.2.2
  have hgz : gamma.contains z = true := by simpa using hz.2.2
  have t1 := token_facing_symbol x
    (44 :: y.toNat :: 32 :: 45 :: 62 :: 32 :: z.toNat :: 93 :: text) true hx.1 hx.2.1
  have t2 : expect (Lexer.facing (44 :: y.toNat :: 32 :: 45 :: 62 :: 32 :: z.toNat :: 93 :: text))
      44 = Except.ok (Lexer.facing (y.toNat :: 32 :: 45 :: 62 :: 32 :: z.toNat :: 93 :: text)) :=
    expect_of_token _ _ _ (token_facing_plain 44 _ true (by decide))
  have t3 := token_facing_symbol y (32 :: 45 :: 62 :: 32 :: z.toNat :: 93 :: text) true
    hy.1 hy.2.1
  have t4 : expect (Lexer.facing (32 :: 45 :: 62 :: 32 :: z.toNat :: 93 :: text)) KW_ARROW
      = Except.ok { lastToken := 32, fp := 32 :: z.toNat :: 93 :: text } :=
    expect_of_token _ _ _ (by rw [token_facing_space, token_facing_arrow])
  have t5 : token { lastToken := 32, fp := 32 :: z.toNat :: 93 :: text } true
      = Except.ok (z, Lexer.facing (93 :: text)) := by
    rw [token_start, token_facing_space, token_facing_symbol z _ true hz.1 hz.2.1]
  have t6 : expect (Lexer.facing (93 :: text)) 93 = Except.ok (Lexer.facing text) :=
    expect_of_token _ _ _ (token_facing_plain 93 _ true (by decide))
  rw [parse_rules_loop]
  simp only [ne_eq, not_false_eq_true, if_true,
    not_true_eq_false, if_false, t1, ok_bind, hgx, Bool.not_true, Bool.false_eq_true, t2, t3,
    hgy, t4, t5, hgz, t6, hnext]
  rw [if_pos (by decide)]


/-! ## Charset lines on a text -/

/-- A symbol that a charset line may hold: an allowed character other than
`'-'`, or Epsilon where it is allowed. -/
theorem token_facing_symbol_text (s : Int) (b : Nat) (tail : List Nat)
    (hs : (is_valid_symbol s = true ∧ s ≠ 45) ∨ s = KW_EPSILON) (hb : b = 32 ∨ b = 10) :
    token (Lexer.facing (symbol_text s ++ b :: tail)) false
      = Except.ok (s, Lexer.facing (b :: tail)) := by
  rcases hs with ⟨hv, hm⟩ | heps
  · have hne : s ≠ KW_EPSILON := is_valid_symbol_ne_epsilon s hv
    unfold symbol_text
    rw [if_neg hne]
    exact token_facing_symbol s (b :: tail) false hv hm
  · unfold symbol_text
    rw [if_pos heps, heps]
    refine token_facing_eps (b :: tail) false ?_
    rcases hb with h32 | h10
    · rw [h32, facing_cons 32 tail (by decide)]
      rfl
    · rw [h10, facing_cons 10 tail (by decide)]
      rfl

theorem spaced_text_head (syms : List Int) (rest : List Nat) :
    ∃ b tail, spaced_text syms ++ 10 :: rest = b :: tail ∧ (b = 32 ∨ b = 10) := by
  cases syms with
  | nil => exact ⟨10, rest, rfl, Or.inr rfl⟩
  | cons s t => exact ⟨32, symbol_text s ++ spaced_text t ++ 10 :: rest, by simp [spaced_text],
      Or.inl rfl⟩

theorem symbol_passes_charset_test (s : Int) (allow_eps : Bool)
    (hs : (is_valid_symbol s = true ∧ s ≠ 45) ∨ (allow_eps = true ∧ s = KW_EPSILON)) :
    (s ≠ 10 ∧ s ≠ KW_EOF) ∧
      (is_valid_symbol s || (allow_eps && decide (s = KW_EPSILON))) = true := by
  rcases hs with ⟨hv, _⟩ | ⟨ha, heps⟩
  · have := is_valid_symbol_pos s hv
    refine ⟨⟨by omega, by unfold KW_EOF; omega⟩, ?_⟩
    rw [hv]
    rfl
  · refine ⟨⟨by rw [heps]; decide, by rw [heps]; decide⟩, ?_⟩
    rw [ha, heps]
    decide

/-- The loop of `parse_charset` on symbols written with a space before each,
the line closed by a newline: the symbols are appended in order and the lexer
is left after the newline. -/
theorem parse_charset_loop_text (allow_eps : Bool) (rest : List Nat) :
    ∀ (syms : List Int) (n : Nat) (cset : List Int) (s0 : Int),
      (∀ s ∈ s0 :: syms,
        (is_valid_symbol s = true ∧ s ≠ 45) ∨ (allow_eps = true ∧ s = KW_EPSILON)) →
      syms.length + 2 ≤ n →
      parse_charset_loop allow_eps n (Lexer.facing (spaced_text syms ++ 10 :: rest)) cset s0
        = Except.ok (cset ++ s0 :: syms, { lastToken := 32, fp := rest }) := by
  intro syms
  induction syms with
  | nil =>
    intro n cset s0 hall hn
    obtain ⟨m, rfl⟩ : ∃ m, n = m + 2 := ⟨n - 2, by simp only [List.length_nil] at hn; omega⟩
    obtain ⟨hcont, hvalid⟩ := symbol_passes_charset_test s0 allow_eps
      (hall s0 (List.mem_cons_self s0 []))
    rw [parse_charset_loop, if_pos hcont]
    simp only [hvalid, Bool.not_true, Bool.false_eq_true, if_false, spaced_text,
      List.nil_append, token_facing_linefeed]
    rw [parse_charset_loop]
    simp
  | cons s t ih =>
    intro n cset s0 hall hn
    obtain ⟨m, rfl⟩ : ∃ m, n = m + 1 := ⟨n - 1, by omega⟩
    obtain ⟨hcont, hvalid⟩ := symbol_passes_charset_test s0 allow_eps
      (hall s0 (List.mem_cons_self s0 _))
    have hs := hall s (List.mem_cons_of_mem s0 (List.mem_cons_self s t))
    obtain ⟨b, tail, htail, hb⟩ := spaced_text_head t rest
    have htok : token (Lexer.facing (spaced_text (s :: t) ++ 10 :: rest)) false
        = Except.ok (s, Lexer.facing (spaced_text t ++ 10 :: rest)) := by
      have hshape : spaced_text (s :: t) ++ 10 :: rest
          = 32 :: (symbol_text s ++ (spaced_text t ++ 10 :: rest)) := by
        simp [spaced_text]
      rw [hshape, token_facing_space, htail]
      exact token_facing_symbol_text s b tail
        (hs.imp (fun h => h) (fun h => h.2)) hb
    rw [parse_charset_loop, if_pos hcont]
    simp only [hvalid, Bool.not_true, Bool.false_eq_true, if_false, htok]
    rw [ih m (cset ++ [s0]) s (fun c hc => hall c (List.mem_cons_of_mem s0 hc))
      (by simp only [List.length_cons] at hn; omega)]
    simp

theorem spaced_text_length (syms : List Int) : syms.length ≤ (spaced_text syms).length := by
  induction syms with
  | nil => simp [spaced_text]
  | cons s t ih =>
    simp only [spaced_text, List.length_cons, List.length_append]
    omega

/-- A charset line, symbols separated by single spaces and closed by a
newline, read by `parse_charset` from just after the keyword's colon and
space: the symbols are appended in order, duplicates included. -/
theorem parse_charset_text (allow_eps : Bool) (syms : List Int) (rest : List Nat)
    (cset : List Int)
    (hall : ∀ s ∈ syms,
      (is_valid_symbol s = true ∧ s ≠ 45) ∨ (allow_eps = true ∧ s = KW_EPSILON)) :
    parse_charset { lastToken := 32, fp := charset_text syms ++ 10 :: rest } cset allow_eps
      = Except.ok (cset ++ syms, { lastToken := 32, fp := rest }) := by
  unfold parse_charset
  rw [token_start]
  cases syms with
  | nil =>
    simp only [charset_text, List.nil_append, token_facing_linefeed, List.length_cons]
    rw [parse_charset_loop]
    simp
  | cons s t =>
    obtain ⟨b, tail, htail, hb⟩ := spaced_text_head t rest
    have hs := hall s (List.mem_cons_self s t)
    have htok : token (Lexer.facing (charset_text (s :: t) ++ 10 :: rest)) false
        = Except.ok (s, Lexer.facing (spaced_text t ++ 10 :: rest)) := by
      have hshape : charset_text (s :: t) ++ 10 :: rest
          = symbol_text s ++ (spaced_text t ++ 10 :: rest) := by
        simp [charset_text]
      rw [hshape, htail]
      exact token_facing_symbol_text s b tail (hs.imp (fun h => h) (fun h => h.2)) hb
    rw [htok]
    simp only
    have hlen := spaced_text_length t
    exact parse_charset_loop_text allow_eps rest t _ cset s hall
      (by simp only [charset_text, List.length_append, List.length_cons]; omega)


/-! ## Rules sections on a text -/

/-- The loop of `parse_rules` on rules written one after the other and closed
by `.`: the text starts with a byte `b` that `token` returns as it stands (a
`[` or the `.`), and from there the loop appends the rules in order. -/
theorem parse_rules_loop_text (gamma : List Int) (rest : List Nat) :
    ∀ (rules : List rule) (n : Nat) (ruleset : List rule),
      (∀ r ∈ rules, (is_valid_symbol r.x = true ∧ r.x ≠ 45 ∧ r.x ∈ gamma) ∧
        (is_valid_symbol r.y = true ∧ r.y ≠ 45 ∧ r.y ∈ gamma) ∧
        (is_valid_symbol r.z = true ∧ r.z ≠ 45 ∧ r.z ∈ gamma)) →
      rules.length + 1 ≤ n →
      ∃ b tail, rules_text rules ++ 46 :: rest = b :: tail ∧ plain_byte b = true ∧
        parse_rules_loop gamma n (Lexer.facing tail) ruleset (b : Int)
          = Except.ok (ruleset ++ rules, Lexer.facing rest) := by
  intro rules
  induction rules with
  | nil =>
    intro n ruleset _ hn
    obtain ⟨m, rfl⟩ : ∃ m, n = m + 1 := ⟨n - 1, by omega⟩
    refine ⟨46, rest, rfl, by decide, ?_⟩
    rw [parse_rules_loop]
    simp
  | cons r rs ih =>
    intro n ruleset hall hn
    obtain ⟨m, rfl⟩ : ∃ m, n = m + 1 := ⟨n - 1, by omega⟩
    obtain ⟨hx, hy, hz⟩ := hall r (List.mem_cons_self r rs)
    obtain ⟨b, tail, htail, hb, hloop⟩ := ih m (ruleset ++ [r])
      (fun q hq => hall q (List.mem_cons_of_mem r hq))
      (by simp only [List.length_cons] at hn; omega)
    refine ⟨91, r.x.toNat :: 44 :: r.y.toNat :: 32 :: 45 :: 62 :: 32 :: r.z.toNat :: 93 ::
      (rules_text rs ++ 46 :: rest), by simp [rules_text, rule_text], by decide, ?_⟩
    have hnext : token (Lexer.facing (rules_text rs ++ 46 :: rest)) true
        = Except.ok ((b : Int), Lexer.facing tail) := by
      rw [htail]
      exact token_facing_plain b tail true hb
    have hstep := parse_rules_loop_rule gamma m r.x r.y r.z (rules_text rs ++ 46 :: rest)
      ruleset (b : Int) (Lexer.facing tail) hx hy hz hnext
    simp only [Nat.cast_ofNat]
    rw [hstep, hloop]
    simp

theorem rules_text_length (rules : List rule) : rules.length ≤ (rules_text rules).length := by
  induction rules with
  | nil => simp [rules_text]
  | cons r rs ih =>
    simp only [rules_text, rule_text, List.length_cons, List.length_append]
    omega

/-- A rules section, rules written one after the other and closed by `.`,
read by `parse_rules` from just after the keyword's colon and space. -/
theorem parse_rules_text (gamma : List Int) (rules : List rule) (rest : List Nat)
    (ruleset : List rule)
    (hall : ∀ r ∈ rules, (is_valid_symbol r.x = true ∧ r.x ≠ 45 ∧ r.x ∈ gamma) ∧
      (is_valid_symbol r.y = true ∧ r.y ≠ 45 ∧ r.y ∈ gamma) ∧
      (is_valid_symbol r.z = true ∧ r.z ≠ 45 ∧ r.z ∈ gamma)) :
    parse_rules { lastToken := 32, fp := rules_text rules ++ 46 :: rest } ruleset gamma
      = Except.ok (ruleset ++ rules, Lexer.facing rest) := by
  unfold parse_rules
  rw [token_start]
  have hlen := rules_text_length rules
  obtain ⟨b, tail, htail, hb, hloop⟩ := parse_rules_loop_text gamma rest rules
    ((rules_text rules ++ 46 :: rest).length + 2) ruleset hall
    (by simp only [List.length_append, List.length_cons]; omega)
  simp only
  rw [htail] at hloop ⊢
  rw [token_facing_plain b tail true hb]
  exact hloop


/-! ## A whole description on a text -/

theorem bytes_sigma : bytes "!sigma: " = [33, 115, 105, 103, 109, 97, 58, 32] := by decide

theorem bytes_gamma : bytes "!gamma: " = [33, 103, 97, 109, 109, 97, 58, 32] := by decide

theorem bytes_rules : bytes "!rules: " = [33, 114, 117, 108, 101, 115, 58, 32] := by decide

theorem bytes_accept : bytes "!accept: " = [33, 97, 99, 99, 101, 112, 116, 58, 32] := by decide

theorem facing_space (text : List Nat) :
    Lexer.facing (32 :: text) = { lastToken := 32, fp := text } :=
  facing_cons 32 text (by decide)

theorem expect_sigma_text (text : List Nat) :
    expect { lastToken := 32, fp := 33 :: 115 :: 105 :: 103 :: 109 :: 97 :: 58 :: 32 :: text }
      KW_SIGMA = Except.ok { lastToken := 32, fp := text } :=
  expect_of_token _ _ _ (by rw [token_start, token_facing_sigma, facing_space])

theorem expect_gamma_text (text : List Nat) :
    expect { lastToken := 32, fp := 33 :: 103 :: 97 :: 109 :: 109 :: 97 :: 58 :: 32 :: text }
      KW_GAMMA = Except.ok { lastToken := 32, fp := text } :=
  expect_of_token _ _ _ (by rw [token_start, token_facing_gamma, facing_space])

theorem expect_rules_text (text : List Nat) :
    expect { lastToken := 32, fp := 33 :: 114 :: 117 :: 108 :: 101 :: 115 :: 58 :: 32 :: text }
      KW_R = Except.ok { lastToken := 32, fp := text } :=
  expect_of_token _ _ _ (by rw [token_start, token_facing_rules, facing_space])

theorem expect_accept_text (text : List Nat) :
    expect (Lexer.facing (10 :: 33 :: 97 :: 99 :: 99 :: 101 :: 112 :: 116 :: 58 :: 32 :: text))
      KW_A = Except.ok { lastToken := 32, fp := text } :=
  expect_of_token _ _ _
    (by rw [token_facing_linefeed_ignored, token_facing_accept, facing_space])

theorem isalnum_symbol (c : Int) (h : isalnum c = true) :
    is_valid_symbol c = true ∧ c ≠ 45 := by
  constructor
  · unfold is_valid_symbol
    simp only [h, Bool.true_or]
  · unfold isalnum isalpha isupper islower isdigit at h
    simp only [Bool.or_eq_true, decide_eq_true_eq] at h
    omega

/-- The parse of the canonical rendering of a system whose symbols are
letters or digits and which satisfies the invariants of the data model. -/
theorem parse_system_description_text (sys : PairingSystem)
    (hs : ∀ c ∈ sys.sigma, isalnum c = true) (hg : ∀ c ∈ sys.gamma, isalnum c = true)
    (hne : sys.sigma ≠ []) (hsg : ∀ c ∈ sys.sigma, c ∈ sys.gamma)
    (hr : ∀ r ∈ sys.rules, r.x ∈ sys.gamma ∧ r.y ∈ sys.gamma ∧ r.z ∈ sys.gamma)
    (ha : ∀ c ∈ sys.accepts, c ∈ sys.gamma ∨ c = KW_EPSILON) :
    parse_system (Lexer.start (description_text sys))
      = Except.ok (sys, { lastToken := 32, fp := [] }) := by
  have hsig : ∀ s ∈ sys.sigma,
      (is_valid_symbol s = true ∧ s ≠ 45) ∨ (false = true ∧ s = KW_EPSILON) :=
    fun s h => Or.inl (isalnum_symbol s (hs s h))
  have hgam : ∀ s ∈ sys.gamma,
      (is_valid_symbol s = true ∧ s ≠ 45) ∨ (false = true ∧ s = KW_EPSILON) :=
    fun s h => Or.inl (isalnum_symbol s (hg s h))
  have hacc : ∀ s ∈ sys.accepts,
      (is_valid_symbol s = true ∧ s ≠ 45) ∨ (true = true ∧ s = KW_EPSILON) := by
    intro s h
    rcases ha s h with hin | heps
    · exact Or.inl (isalnum_symbol s (hg s hin))
    · exact Or.inr ⟨rfl, heps⟩
  have hrul : ∀ r ∈ sys.rules,
      (is_valid_symbol r.x = true ∧ r.x ≠ 45 ∧ r.x ∈ sys.gamma) ∧
      (is_valid_symbol r.y = true ∧ r.y ≠ 45 ∧ r.y ∈ sys.gamma) ∧
      (is_valid_symbol r.z = true ∧ r.z ≠ 45 ∧ r.z ∈ sys.gamma) := by
    intro r h
    obtain ⟨hx, hy, hz⟩ := hr r h
    have vx := isalnum_symbol r.x (hg r.x hx)
    have vy := isalnum_symbol r.y (hg r.y hy)
    have vz := isalnum_symbol r.z (hg r.z hz)
    exact ⟨⟨vx.1, vx.2, hx⟩, ⟨vy.1, vy.2, hy⟩, ⟨vz.1, vz.2, hz⟩⟩
  have hempty : sys.sigma.isEmpty = false := by
    cases hsys : sys.sigma with
    | nil => exact absurd hsys hne
    | cons a t => rfl
  have hsub1 : is_subset sys.sigma sys.gamma = true :=
    (is_subset_iff _ _).2 (fun c hc => Or.inl (hsg c hc))
  have hsub2 : is_subset sys.accepts sys.gamma = true := (is_subset_iff _ _).2 ha
  unfold parse_system Lexer.start description_text
  rw [bytes_sigma, bytes_gamma, bytes_rules, bytes_accept]
  simp only [List.cons_append, List.nil_append, List.append_assoc]
  rw [expect_sigma_text, ok_bind, parse_charset_text false sys.sigma _ [] hsig, ok_bind]
  simp only [List.nil_append, hempty, Bool.false_eq_true, if_false]
  rw [expect_gamma_text, ok_bind, parse_charset_text false sys.gamma _ [] hgam, ok_bind]
  simp only [List.nil_append, hsub1, Bool.not_true, Bool.false_eq_true, if_false]
  rw [expect_rules_text, ok_bind, parse_rules_text sys.gamma sys.rules _ [] hrul, ok_bind]
  simp only [List.nil_append]
  rw [expect_accept_text, ok_bind, parse_charset_text true sys.accepts _ [] hacc, ok_bind]
  simp only [List.nil_append, hsub2, Bool.not_true, Bool.false_eq_true, if_false]


/-! ## Claims about the description format -/

/-- C12, as stated, fails: with gamma `a b c`, the rules section
`[a,b -> c], [a,b -> c].` stops at the comma with the diagnostic
`expected '['`. -/
theorem comma_between_rules_rejected :
    parse_rules (Lexer.start (bytes "[a,b -> c], [a,b -> c].")) [] [97, 98, 99]
      = Except.error ParseError.expected_bracket ∧
    (∀ c ∈ ([97, 98, 99] : List Int), c ∈ ([97, 98, 99] : List Int)) :=
  ⟨by rfl, by decide⟩

/-- C12, amended. The description format writes consecutive rules one after
the other, with white space but no comma between them: for every gamma and
all symbols of gamma that are allowed symbol characters other than `'-'`,
`parse_rules` reading `[x1,y1 -> z1] [x2,y2 -> z2].` succeeds and returns
the two rules in that order, and reading the same two rules with a comma
after the first one fails with `expected '['`. -/
theorem rules_follow_without_comma (gamma : List Int) (r1 r2 : rule) (rest : List Nat)
    (h : ∀ c ∈ [r1.x, r1.y, r1.z, r2.x, r2.y, r2.z],
      c ∈ gamma ∧ is_valid_symbol c = true ∧ c ≠ 45) :
    parse_rules (Lexer.start (rule_text r1 ++ 32 :: (rule_text r2 ++ 46 :: rest))) [] gamma
      = Except.ok ([r1, r2], Lexer.facing rest) ∧
    parse_rules (Lexer.start (rule_text r1 ++ 44 :: 32 :: (rule_text r2 ++ 46 :: rest))) [] gamma
      = Except.error ParseError.expected_bracket := by
  have hx1 := h r1.x (by simp)
  have hy1 := h r1.y (by simp)
  have hz1 := h r1.z (by simp)
  have hx2 := h r2.x (by simp)
  have hy2 := h r2.y (by simp)
  have hz2 := h r2.z (by simp)
  constructor
  · unfold parse_rules Lexer.start rule_text
    simp only [List.cons_append, List.nil_append]
    rw [token_start, token_facing_plain 91 _ true (by decide)]
    simp only [Nat.cast_ofNat, List.length_cons]
    have hnext1 : token (Lexer.facing (32 :: 91 :: r2.x.toNat :: 44 :: r2.y.toNat :: 32 :: 45 ::
        62 :: 32 :: r2.z.toNat :: 93 :: 46 :: rest)) true
        = Except.ok (91, Lexer.facing (r2.x.toNat :: 44 :: r2.y.toNat :: 32 :: 45 ::
            62 :: 32 :: r2.z.toNat :: 93 :: 46 :: rest)) := by
      rw [token_facing_space, token_facing_plain 91 _ true (by decide)]
      rfl
    have hnext2 : token (Lexer.facing (46 :: rest)) true
        = Except.ok (46, Lexer.facing rest) := by
      rw [token_facing_plain 46 _ true (by decide)]
      rfl
    rw [parse_rules_loop_rule gamma _ r1.x r1.y r1.z _ [] 91 _
        ⟨hx1.2.1, hx1.2.2, hx1.1⟩ ⟨hy1.2.1, hy1.2.2, hy1.1⟩ ⟨hz1.2.1, hz1.2.2, hz1.1⟩ hnext1,
      parse_rules_loop_rule gamma _ r2.x r2.y r2.z _ _ 46 _
        ⟨hx2.2.1, hx2.2.2, hx2.1⟩ ⟨hy2.2.1, hy2.2.2, hy2.1⟩ ⟨hz2.2.1, hz2.2.2, hz2.1⟩ hnext2,
      parse_rules_loop]
    simp
  · unfold parse_rules Lexer.start rule_text
    simp only [List.cons_append, List.nil_append]
    rw [token_start, token_facing_plain 91 _ true (by decide)]
    simp only [Nat.cast_ofNat, List.length_cons]
    have hnext1 : token (Lexer.facing (44 :: 32 :: 91 :: r2.x.toNat :: 44 :: r2.y.toNat :: 32 ::
        45 :: 62 :: 32 :: r2.z.toNat :: 93 :: 46 :: rest)) true
        = Except.ok (44, Lexer.facing (32 :: 91 :: r2.x.toNat :: 44 :: r2.y.toNat :: 32 :: 45 ::
            62 :: 32 :: r2.z.toNat :: 93 :: 46 :: rest)) := by
      rw [token_facing_plain 44 _ true (by decide)]
      rfl
    rw [parse_rules_loop_rule gamma _ r1.x r1.y r1.z _ [] 44 _
        ⟨hx1.2.1, hx1.2.2, hx1.1⟩ ⟨hy1.2.1, hy1.2.2, hy1.1⟩ ⟨hz1.2.1, hz1.2.2, hz1.1⟩ hnext1,
      parse_rules_loop]
    simp

/-- Concrete instance of the amended C12: `[a,b -> c] [c,c -> c].` with gamma
`a b c`. -/
theorem rules_follow_without_comma_witness :
    (∀ c ∈ [(rule.mk 97 98 99).x, (rule.mk 97 98 99).y, (rule.mk 97 98 99).z,
        (rule.mk 99 99 99).x, (rule.mk 99 99 99).y, (rule.mk 99 99 99).z],
      c ∈ ([97, 98, 99] : List Int) ∧ is_valid_symbol c = true ∧ c ≠ 45) ∧
    rule_text (rule.mk 97 98 99) ++ 32 :: (rule_text (rule.mk 99 99 99) ++ 46 :: [])
      = bytes "[a,b -> c] [c,c -> c]." ∧
    (parse_rules (Lexer.start (rule_text (rule.mk 97 98 99) ++
        32 :: (rule_text (rule.mk 99 99 99) ++ 46 :: []))) [] [97, 98, 99]
      = Except.ok ([rule.mk 97 98 99, rule.mk 99 99 99], Lexer.facing []) ∧
    parse_rules (Lexer.start (rule_text (rule.mk 97 98 99) ++
        44 :: 32 :: (rule_text (rule.mk 99 99 99) ++ 46 :: []))) [] [97, 98, 99]
      = Except.error ParseError.expected_bracket) :=
  ⟨by decide, by decide,
    rules_follow_without_comma [97, 98, 99] (rule.mk 97 98 99) (rule.mk 99 99 99) []
      (by decide)⟩

/-- C13. Parsing undoes the canonical rendering of a system: for every
(Sigma, Gamma, RuleSet, AcceptSet) whose Sigma and Gamma symbols are ASCII
letters or digits, with Sigma non-empty, every symbol of Sigma in Gamma, the
three symbols of every rule in Gamma and every symbol of AcceptSet in Gamma
or Epsilon, the text made of `!sigma: `, the Sigma symbols separated by
spaces and a newline, `!gamma: `, the Gamma symbols and a newline, `!rules: `,
each rule written `[x,y -> z]` in order, `.` and a newline, `!accept: `, the
AcceptSet symbols (Epsilon written `!eps`) and a newline parses successfully
and yields exactly those four sequences, order and duplicates preserved. -/
theorem parse_undoes_rendering (sys : PairingSystem)
    (hs : ∀ c ∈ sys.sigma, isalnum c = true) (hg : ∀ c ∈ sys.gamma, isalnum c = true)
    (hne : sys.sigma ≠ []) (hsg : ∀ c ∈ sys.sigma, c ∈ sys.gamma)
    (hr : ∀ r ∈ sys.rules, r.x ∈ sys.gamma ∧ r.y ∈ sys.gamma ∧ r.z ∈ sys.gamma)
    (ha : ∀ c ∈ sys.accepts, c ∈ sys.gamma ∨ c = KW_EPSILON) :
    parse (description_text sys) = Except.ok sys := by
  unfold parse
  rw [parse_system_description_text sys hs hg hne hsg hr ha]

/-- Concrete instance of C13: the rendering of Sigma `a b`, Gamma `a b c`,
RuleSet `[a,b -> c]`, AcceptSet `c` is the description of E1, and it parses
to these four sequences. -/
theorem parse_undoes_rendering_witness :
    description_text (PairingSystem.mk [97, 98] [97, 98, 99] [rule.mk 97 98 99] [99])
      = E1_file ∧
    (∀ c ∈ ([97, 98] : List Int), isalnum c = true) ∧
    (∀ c ∈ ([97, 98, 99] : List Int), isalnum c = true) ∧
    parse (description_text (PairingSystem.mk [97, 98] [97, 98, 99] [rule.mk 97 98 99] [99]))
      = Except.ok (PairingSystem.mk [97, 98] [97, 98, 99] [rule.mk 97 98 99] [99]) :=
  ⟨by decide, by decide, by decide,
    parse_undoes_rendering (PairingSystem.mk [97, 98] [97, 98, 99] [rule.mk 97 98 99] [99])
      (by decide) (by decide) (by decide) (by decide) (by decide) (by decide)⟩


/-! ## Epsilon in the sections of a description -/

/-- A charset line read without Epsilon allowed fails as soon as one of its
symbol tokens is `KW_EPSILON`. -/
theorem parse_charset_loop_epsilon_fails :
    ∀ (n : Nat) (l : Lexer) (cset : List Int) (symbol : Int),
      KW_EPSILON ∈ line_tokens_loop n l symbol →
      ∃ e, parse_charset_loop false n l cset symbol = Except.error e := by
  intro n
  induction n with
  | zero =>
    intro l cset symbol hmem
    simp only [line_tokens_loop, List.not_mem_nil] at hmem
  | succ n ih =>
    intro l cset symbol hmem
    rw [line_tokens_loop] at hmem
    rw [parse_charset_loop]
    by_cases hcont : symbol ≠ 10 ∧ symbol ≠ KW_EOF
    · rw [if_pos hcont] at hmem ⊢
      cases hv : is_valid_symbol symbol with
      | false =>
        simp only [Bool.false_and, Bool.or_false, Bool.not_false, if_true]
        exact ⟨_, rfl⟩
      | true =>
        simp only [Bool.true_or, Bool.not_true, Bool.false_eq_true, if_false]
        have hne : symbol ≠ KW_EPSILON := is_valid_symbol_ne_epsilon symbol hv
        cases htk : token l false with
        | error e => exact ⟨e, rfl⟩
        | ok res =>
          obtain ⟨symbol1, l1⟩ := res
          rw [htk] at hmem
          simp only at hmem ⊢
          rcases List.mem_cons.1 hmem with heq | hin
          · exact absurd heq.symm hne
          · exact ih l1 _ symbol1 hin
    · rw [if_neg hcont] at hmem
      simp only [List.not_mem_nil] at hmem

theorem parse_charset_epsilon_fails (l : Lexer) (cset : List Int)
    (h : KW_EPSILON ∈ line_tokens l) :
    ∃ e, parse_charset l cset false = Except.error e := by
  unfold line_tokens at h
  unfold parse_charset
  cases htk : token l false with
  | error e => exact ⟨e, rfl⟩
  | ok res =>
    obtain ⟨symbol, l1⟩ := res
    rw [htk] at h
    exact parse_charset_loop_epsilon_fails _ l1 cset symbol h

/-- A charset line that is read returns, after what `cset` held, the symbol
tokens of the line, each of them as the lexer delivered it. -/
theorem parse_charset_loop_tokens (allow_eps : Bool) :
    ∀ (n : Nat) (l : Lexer) (cset : List Int) (symbol : Int) (out : List Int) (l1 : Lexer),
      parse_charset_loop allow_eps n l cset symbol = Except.ok (out, l1) →
      out = cset ++ line_tokens_loop n l symbol := by
  intro n
  induction n with
  | zero =>
    intro l cset symbol out l1 h
    simp only [parse_charset_loop] at h
    cases h
  | succ n ih =>
    intro l cset symbol out l1 h
    rw [parse_charset_loop] at h
    rw [line_tokens_loop]
    by_cases hcont : symbol ≠ 10 ∧ symbol ≠ KW_EOF
    · rw [if_pos hcont] at h ⊢
      cases hv : (is_valid_symbol symbol || (allow_eps && decide (symbol = KW_EPSILON))) with
      | false =>
        rw [hv] at h
        cases h
      | true =>
        rw [hv] at h
        cases htk : token l false with
        | error e =>
          rw [htk] at h
          cases h
        | ok res =>
          obtain ⟨symbol1, l2⟩ := res
          rw [htk] at h
          have := ih l2 (cset ++ [symbol]) symbol1 out l1 h
          rw [this]
          simp
    · rw [if_neg hcont] at h ⊢
      cases h
      simp

theorem parse_charset_tokens (l : Lexer) (cset : List Int) (allow_eps : Bool)
    (out : List Int) (l1 : Lexer) (h : parse_charset l cset allow_eps = Except.ok (out, l1)) :
    out = cset ++ line_tokens l := by
  unfold parse_charset at h
  unfold line_tokens
  cases htk : token l false with
  | error e =>
    rw [htk] at h
    cases h
  | ok res =>
    obtain ⟨symbol, l2⟩ := res
    rw [htk] at h
    exact parse_charset_loop_tokens allow_eps _ l2 cset symbol out l1 h


theorem mem_tail_of_head_in_gamma (gamma : List Int) (hg : KW_EPSILON ∉ gamma) (x : Int)
    (t : List Int) (hx : gamma.contains x = true) (hmem : KW_EPSILON ∈ x :: t) :
    KW_EPSILON ∈ t := by
  rcases List.mem_cons.1 hmem with heq | hin
  · exfalso
    apply hg
    rw [heq]
    simpa using hx
  · exact hin

/-- A rules section fails as soon as the token at one of the symbol
positions of one of its rules is `KW_EPSILON`, gamma not holding it. -/
theorem parse_rules_loop_epsilon_fails (gamma : List Int) (hg : KW_EPSILON ∉ gamma) :
    ∀ (n : Nat) (l : Lexer) (ruleset : List rule) (symbol : Int),
      KW_EPSILON ∈ rule_symbols_loop n l symbol →
      ∃ e, parse_rules_loop gamma n l ruleset symbol = Except.error e := by
  intro n
  induction n with
  | zero =>
    intro l ruleset symbol hmem
    simp only [rule_symbols_loop, List.not_mem_nil] at hmem
  | succ n ih =>
    intro l ruleset symbol hmem
    rw [rule_symbols_loop] at hmem
    rw [parse_rules_loop]
    by_cases h91 : symbol ≠ 91
    · rw [if_pos h91] at hmem
      simp only [List.not_mem_nil] at hmem
    · rw [if_neg h91] at hmem
      have hs : symbol = 91 := not_not.1 h91
      rw [if_pos (by rw [hs]; decide), if_neg h91]
      cases h1 : token l true with
      | error e => exact ⟨e, rfl⟩
      | ok res1 =>
        obtain ⟨x, l1⟩ := res1
        rw [h1] at hmem
        simp only [ok_bind] at hmem ⊢
        cases hgx : gamma.contains x with
        | false => exact ⟨_, rfl⟩
        | true =>
          simp only [Bool.not_true, Bool.false_eq_true, if_false]
          have hmem2 := mem_tail_of_head_in_gamma gamma hg x _ hgx hmem
          cases h2 : expect l1 44 with
          | error e => exact ⟨e, rfl⟩
          | ok l2 =>
            rw [h2] at hmem2
            simp only [ok_bind] at hmem2 ⊢
            cases h3 : token l2 true with
            | error e => exact ⟨e, rfl⟩
            | ok res3 =>
              obtain ⟨y, l3⟩ := res3
              rw [h3] at hmem2
              simp only [ok_bind] at hmem2 ⊢
              cases hgy : gamma.contains y with
              | false => exact ⟨_, rfl⟩
              | true =>
                simp only [Bool.not_true, Bool.false_eq_true, if_false]
                have hmem3 := mem_tail_of_head_in_gamma gamma hg y _ hgy hmem2
                cases h4 : expect l3 KW_ARROW with
                | error e => exact ⟨e, rfl⟩
                | ok l4 =>
                  rw [h4] at hmem3
                  simp only [ok_bind] at hmem3 ⊢
                  cases h5 : token l4 true with
                  | error e => exact ⟨e, rfl⟩
                  | ok res5 =>
                    obtain ⟨z, l5⟩ := res5
                    rw [h5] at hmem3
                    simp only [ok_bind] at hmem3 ⊢
                    cases hgz : gamma.contains z with
                    | false => exact ⟨_, rfl⟩
                    | true =>
                      simp only [Bool.not_true, Bool.false_eq_true, if_false]
                      have hmem4 := mem_tail_of_head_in_gamma gamma hg z _ hgz hmem3
                      cases h6 : expect l5 93 with
                      | error e => exact ⟨e, rfl⟩
                      | ok l6 =>
                        rw [h6] at hmem4
                        simp only [ok_bind] at hmem4 ⊢
                        cases h7 : token l6 true with
                        | error e => exact ⟨e, rfl⟩
                        | ok res7 =>
                          obtain ⟨symbol1, l7⟩ := res7
                          rw [h7] at hmem4
                          simp only [ok_bind] at hmem4 ⊢
                          exact ih l7 _ symbol1 hmem4

theorem parse_rules_epsilon_fails (gamma : List Int) (hg : KW_EPSILON ∉ gamma) (l : Lexer)
    (ruleset : List rule) (h : KW_EPSILON ∈ rule_symbols l) :
    ∃ e, parse_rules l ruleset gamma = Except.error e := by
  unfold rule_symbols at h
  unfold parse_rules
  cases htk : token l true with
  | error e => exact ⟨e, rfl⟩
  | ok res =>
    obtain ⟨symbol, l1⟩ := res
    rw [htk] at h
    exact parse_rules_loop_epsilon_fails gamma hg _ l1 ruleset symbol h


theorem parse_system_sigma_line_error (l l1 : Lexer) (e : ParseError)
    (h1 : expect l KW_SIGMA = Except.ok l1)
    (h2 : parse_charset l1 [] false = Except.error e) : parse_system l = Except.error e := by
  unfold parse_system
  rw [h1, ok_bind, h2, error_bind]

theorem parse_system_gamma_line_error (l : Lexer) (sigma : List Int) (l2 l3 : Lexer)
    (e : ParseError) (hat : at_gamma l sigma l2) (h3 : expect l2 KW_GAMMA = Except.ok l3)
    (h4 : parse_charset l3 [] false = Except.error e) : parse_system l = Except.error e := by
  obtain ⟨l1, h1, h2, hse⟩ := hat
  unfold parse_system
  rw [h1, ok_bind, h2, ok_bind]
  simp only [hse, Bool.false_eq_true, if_false]
  rw [h3, ok_bind, h4, error_bind]

theorem parse_system_rules_section_error (l : Lexer) (sigma gamma : List Int) (l4 l5 : Lexer)
    (e : ParseError) (hat : at_rules l sigma gamma l4) (h5 : expect l4 KW_R = Except.ok l5)
    (h6 : parse_rules l5 [] gamma = Except.error e) : parse_system l = Except.error e := by
  obtain ⟨l2, l3, ⟨l1, h1, h2, hse⟩, h3, h4, hsub⟩ := hat
  unfold parse_system
  rw [h1, ok_bind, h2, ok_bind]
  simp only [hse, Bool.false_eq_true, if_false]
  rw [h3, ok_bind, h4, ok_bind]
  simp only [hsub, Bool.not_true, Bool.false_eq_true, if_false]
  rw [h5, ok_bind, h6, error_bind]

theorem at_rules_gamma_no_epsilon (l : Lexer) (sigma gamma : List Int) (l4 : Lexer)
    (hat : at_rules l sigma gamma l4) : KW_EPSILON ∉ gamma := by
  obtain ⟨l2, l3, _, _, h4, _⟩ := hat
  obtain ⟨newg, hg, hgv⟩ := parse_charset_ok l3 [] false gamma l4 h4
  rw [List.nil_append] at hg
  subst hg
  intro hmem
  rcases hgv _ hmem with hv | ⟨hf, _⟩
  · exact is_valid_symbol_ne_epsilon _ hv rfl
  · cases hf

/-- C16. `!eps` is permitted only in the accept-set line. A description in
which the token `KW_EPSILON` (the `!eps` literal) stands among the symbols of
the sigma line, among the symbols of the gamma line, or at one of the three
symbol positions of a rule fails to parse, so no pairing system is produced;
accordingly no Sigma, Gamma or rule of a parsed system holds Epsilon. A
charset line read with `allow_eps = true` returns the symbol tokens of the
line as they stand, and such a line with `!eps` among its symbols is read
with Epsilon as an element of the result. -/
theorem epsilon_only_in_accept_line (file : List Nat) :
    (∀ l1, expect (Lexer.start file) KW_SIGMA = Except.ok l1 →
      KW_EPSILON ∈ line_tokens l1 → ∃ e, parse file = Except.error e) ∧
    (∀ sigma l2 l3, at_gamma (Lexer.start file) sigma l2 →
      expect l2 KW_GAMMA = Except.ok l3 →
      KW_EPSILON ∈ line_tokens l3 → ∃ e, parse file = Except.error e) ∧
    (∀ sigma gamma l4 l5, at_rules (Lexer.start file) sigma gamma l4 →
      expect l4 KW_R = Except.ok l5 →
      KW_EPSILON ∈ rule_symbols l5 → ∃ e, parse file = Except.error e) ∧
    (∀ sys, parse file = Except.ok sys →
      KW_EPSILON ∉ sys.sigma ∧ KW_EPSILON ∉ sys.gamma ∧
      ∀ r ∈ sys.rules, r.x ≠ KW_EPSILON ∧ r.y ≠ KW_EPSILON ∧ r.z ≠ KW_EPSILON) ∧
    (∀ l cset out l1, parse_charset l cset true = Except.ok (out, l1) →
      out = cset ++ line_tokens l) ∧
    (∀ syms rest, (∀ s ∈ syms, (is_valid_symbol s = true ∧ s ≠ 45) ∨ s = KW_EPSILON) →
      parse_charset { lastToken := 32, fp := charset_text syms ++ 10 :: rest } [] true
        = Except.ok (syms, { lastToken := 32, fp := rest })) := by
  refine ⟨?_, ?_, ?_, ?_, ?_, ?_⟩
  · intro l1 h1 hmem
    obtain ⟨e, he⟩ := parse_charset_epsilon_fails l1 [] hmem
    exact ⟨e, parse_error file e (parse_system_sigma_line_error _ l1 e h1 he)⟩
  · intro sigma l2 l3 hat h3 hmem
    obtain ⟨e, he⟩ := parse_charset_epsilon_fails l3 [] hmem
    exact ⟨e, parse_error file e (parse_system_gamma_line_error _ sigma l2 l3 e hat h3 he)⟩
  · intro sigma gamma l4 l5 hat h5 hmem
    obtain ⟨e, he⟩ := parse_rules_epsilon_fails gamma
      (at_rules_gamma_no_epsilon _ sigma gamma l4 hat) l5 [] hmem
    exact ⟨e, parse_error file e
      (parse_system_rules_section_error _ sigma gamma l4 l5 e hat h5 he)⟩
  · intro sys hparse
    obtain ⟨hsv, hgv, _, hrv, _⟩ := parse_facts file sys hparse
    have hng : ∀ c ∈ sys.gamma, c ≠ KW_EPSILON :=
      fun c hc => is_valid_symbol_ne_epsilon c (hgv c hc)
    refine ⟨fun hmem => is_valid_symbol_ne_epsilon _ (hsv _ hmem) rfl,
      fun hmem => hng _ hmem rfl, ?_⟩
    intro r hr
    obtain ⟨hx, hy, hz⟩ := hrv r hr
    exact ⟨hng _ hx, hng _ hy, hng _ hz⟩
  · intro l cset out l1 h
    exact parse_charset_tokens l cset true out l1 h
  · intro syms rest hall
    have h := parse_charset_text true syms rest []
      (fun s hs => (hall s hs).imp (fun h => h) (fun h => ⟨rfl, h⟩))
    rw [List.nil_append] at h
    exact h

/-- Concrete instance of C16: the sigma line `a !eps` makes the parse fail
(the diagnostic is that of line 141), and the accept line `!eps c` is read
with Epsilon as its first element. -/
theorem epsilon_only_in_accept_line_witness :
    expect (Lexer.start sigma_with_eps_file) KW_SIGMA
      = Except.ok (Lexer.mk 32 (bytes "a !eps\n!gamma: a\n!rules: .\n!accept: a\n")) ∧
    line_tokens (Lexer.mk 32 (bytes "a !eps\n!gamma: a\n!rules: .\n!accept: a\n"))
      = [97, KW_EPSILON] ∧
    parse sigma_with_eps_file = Except.error (ParseError.invalid_symbol KW_EPSILON) ∧
    (∃ e, parse sigma_with_eps_file = Except.error e) ∧
    parse_charset (Lexer.mk 32 (charset_text [KW_EPSILON, 99] ++ 10 :: [])) [] true
      = Except.ok ([KW_EPSILON, 99], Lexer.mk 32 []) :=
  ⟨by rfl, by rfl, by rfl,
    (epsilon_only_in_accept_line sigma_with_eps_file).1
      (Lexer.mk 32 (bytes "a !eps\n!gamma: a\n!rules: .\n!accept: a\n")) (by rfl)
      (by
        have h : line_tokens (Lexer.mk 32 (bytes "a !eps\n!gamma: a\n!rules: .\n!accept: a\n"))
            = [97, KW_EPSILON] := by rfl
        rw [h]
        decide),
    (epsilon_only_in_accept_line sigma_with_eps_file).2.2.2.2.2 [KW_EPSILON, 99] []
      (by decide)⟩

/-! ## Declaring the allowed characters -/

/-- An allowed symbol character other than `'-'`, alone on a charset line, is
read as the one-element sequence of that character. -/
theorem valid_symbol_declared (c : Int) (hv : is_valid_symbol c = true) (hm : c ≠ 45) :
    parse_charset (Lexer.start [c.toNat, 10]) [] false
      = Except.ok ([c], { lastToken := 32, fp := [] }) := by
  have h := parse_charset_text false [c] [] [] (by
    intro s hs
    rw [List.mem_singleton.1 hs]
    exact Or.inl ⟨hv, hm⟩)
  have ht : charset_text [c] ++ 10 :: [] = [c.toNat, 10] := by
    simp [charset_text, symbol_text, spaced_text, is_valid_symbol_ne_epsilon c hv]
  rw [ht, List.nil_append] at h
  exact h

/-- C11, the code at the failing character. `'-'` (45) is an allowed symbol
character for `is_valid_symbol`, and the charset line made of `-` and a
newline is not read as `[-]`: `token` takes the `-` for the start of `->`,
finds the newline where `>` should be, and the parse ends with
`unexpected token`. Each of the other 66 allowed characters (letters, digits,
`@ . ( )`) alone on a line is read as the one-element sequence of itself. -/
theorem minus_cannot_be_declared :
    is_valid_symbol 45 = true ∧
    parse_charset (Lexer.start [45, 10]) [] false
      = Except.error (ParseError.unexpected_token 10) ∧
    declares 45 = false ∧
    allowed_symbols.length = 67 ∧
    (allowed_symbols.filter (fun c => decide (c ≠ 45))).all declares = true :=
  ⟨by decide, by rfl, by rfl, by rfl, by rfl⟩


/-! ## The result symbol on valid inputs -/

/-- On every input over Sigma of a parsed system the result symbol is Epsilon
only for the empty input: the final working string lies in Gamma, which never
holds `KW_EPSILON`, and is empty exactly when the input is. -/
theorem result_epsilon_only_for_empty_valid_input (file : List Nat) (sys : PairingSystem)
    (input : List Int) (hparse : parse file = Except.ok sys)
    (hin : is_alphabet input sys.sigma = true) :
    ∃ trace final, reduce sys.rules input = LoopResult.halted trace final ∧
      (final = [] ↔ input = []) ∧ (result_of final = KW_EPSILON ↔ input = []) := by
  obtain ⟨hsv, hgv, hsg, hrv, _⟩ := parse_facts file sys hparse
  obtain ⟨trace, final, hrun, hsum, hne⟩ := reduce_halts sys.rules input
  have hstep : ∀ s : List Int, 0 ≤ (select_rule s sys.rules).position →
      toChar (select_rule s sys.rules).c ∈ sys.gamma := by
    intro s hpos
    rcases select_rule_cases s sys.rules with hres | ⟨r, hr, k, _, hres⟩
    · rw [hres] at hpos
      simp only at hpos
      omega
    · rw [hres]
      simp only [toChar_toChar]
      have hz := (hrv r hr).2.2
      rw [toChar_of_isCharValue r.z (is_valid_symbol_isCharValue r.z (hgv r.z hz))]
      exact hz
  have hinput : ∀ c ∈ input, c ∈ sys.gamma := by
    intro c hc
    have hcs := (is_alphabet_iff input sys.sigma).1 hin c hc
    rcases (is_subset_iff _ _).1 hsg c hcs with hg | heps
    · exact hg
    · exact absurd heps (is_valid_symbol_ne_epsilon c (hsv c hcs))
  obtain ⟨tr, _, _, hfin⟩ :=
    reduce_loop_preserves sys.rules (fun c => c ∈ sys.gamma) hstep input.length [] input
      trace final hinput hrun
  have hiff : final = [] ↔ input = [] := by
    constructor
    · intro hf
      by_contra hi
      exact hne hi hf
    · intro hi
      rw [hi] at hsum
      simp only [List.length_nil] at hsum
      exact List.length_eq_zero.1 (by omega)
  refine ⟨trace, final, hrun, hiff, ?_⟩
  constructor
  · intro hres
    by_contra hi
    have hfne : final ≠ [] := hne hi
    unfold result_of at hres
    rw [if_neg hfne] at hres
    cases hf : final with
    | nil => exact hfne hf
    | cons a t =>
      rw [hf] at hres hfin
      simp only [List.getD_cons_zero] at hres
      exact is_valid_symbol_ne_epsilon a (hgv a (hfin a (List.mem_cons_self a t))) hres
  · intro hi
    rw [hiff.2 hi]
    rfl


end PairingSystems
